import Mathlib

/-!
Tseitin encoder: a verification development.

A shallow embedding of `src/Tseitin/TseitinEncoder.cpp` and theorems about it.

Modelling conventions.

* `int` values are `Int`.  Signed overflow of `varCount` is undefined behaviour in C++ and
  needs more than `2^31` allocations; the model counts without a bound.
* The global `varCount` / `varMap` pair is the explicit `State` threaded through `encode`.
  `std::map<string,int>` is an association list read with `List.lookup`; the only write,
  `varMap[name] = v`, happens when `name` is absent and is a `cons`.
* `ASTNode*` is the type `ASTNode`: either `null` (the `nullptr`) or a `node` carrying the four
  fields of the C++ struct.
* `exit(1)`, a read through a null pointer and a read past the end of the token vector are the
  failures `unexpectedChar`, `undefinedBehaviour`; loops and recursions whose termination is not
  structural carry a fuel argument, and running out of it is the separate failure `outOfFuel`.
* The input line is a `String` whose characters stand for the `char`s of the C++ string; the
  `<cctype>` predicates are those of the C locale, false on every character outside ASCII.
* `cout` is a `String` that the printing functions extend; `operator<<` on an `int` or a
  `size_t` is `toString`, the decimal rendering with a leading `-` for negative values.
-/

namespace Tseitin

/-! ## Data model -/

abbrev Clause := List Int
abbrev Formula := List Clause

inductive TokenType
  | NOT_t | AND_t | OR_t | LP_t | RP_t | VAR_t | EOF_t
  deriving DecidableEq, Repr

structure Token where
  type : TokenType
  value : String
  deriving DecidableEq, Repr

inductive NodeType
  | VAR | NOT | AND | OR
  deriving DecidableEq, Repr

/-- A value of type `ASTNode*`: the null pointer, or a node with its `type`, `value`, `left`
and `right` fields. -/
inductive ASTNode
  | null : ASTNode
  | node (type : NodeType) (value : String) (left right : ASTNode) : ASTNode
  deriving DecidableEq, Repr

structure TseitinRes where
  var : Int
  formula : Formula
  deriving DecidableEq, Repr

/-- The two globals `varCount` and `varMap`. -/
structure State where
  varCount : Int
  varMap : List (String × Int)
  deriving DecidableEq, Repr

/-- The globals as initialised at program start: `varCount = 1`, `varMap` empty. -/
def State.fresh : State := ⟨1, []⟩

inductive Failure
  | unexpectedChar (c : Char)
  | undefinedBehaviour
  | outOfFuel
  deriving DecidableEq, Repr

/-! ## Lexer -/

/-- The `isspace` of the C locale: space, `\t`, `\n`, `\v`, `\f`, `\r`. -/
def isspace (c : Char) : Bool :=
  c.toNat = 32 || (9 ≤ c.toNat && c.toNat ≤ 13)

/-- The `isalpha` of the C locale. -/
def isalpha (c : Char) : Bool :=
  (65 ≤ c.toNat && c.toNat ≤ 90) || (97 ≤ c.toNat && c.toNat ≤ 122)

/-- The `isalnum` of the C locale. -/
def isalnum (c : Char) : Bool :=
  isalpha c || (48 ≤ c.toNat && c.toNat ≤ 57)

/-- The condition of the inner word loop: `isalnum(formula[pos]) || formula[pos] == '_'`. -/
def isWordChar (c : Char) : Bool :=
  isalnum c || c = '_'

/-- The token pushed for a scanned `word` (lines 44 to 47). -/
def wordToken (word : String) : Token :=
  if word = "NOT" then ⟨TokenType.NOT_t, word⟩
  else if word = "AND" then ⟨TokenType.AND_t, word⟩
  else if word = "OR" then ⟨TokenType.OR_t, word⟩
  else ⟨TokenType.VAR_t, word⟩

/-- The outer `while (pos < formula.size())` loop of `tokenize`; `cs` is the text from `pos` on,
one unit of fuel is spent per iteration. -/
def tokenizeLoop : Nat → List Char → List Token → Except Failure (List Token)
  | 0, _, _ => Except.error Failure.outOfFuel
  | fuel + 1, cs, tokens =>
    match cs with
    | [] => Except.ok tokens
    | _ :: _ =>
      match cs.dropWhile isspace with
      | [] => Except.ok (tokens ++ [⟨TokenType.EOF_t, ""⟩])
      | c :: rest =>
        if c = '(' then tokenizeLoop fuel rest (tokens ++ [⟨TokenType.LP_t, "("⟩])
        else if c = ')' then tokenizeLoop fuel rest (tokens ++ [⟨TokenType.RP_t, ")"⟩])
        else if isalpha c then
          tokenizeLoop fuel ((c :: rest).dropWhile isWordChar)
            (tokens ++ [wordToken (String.mk ((c :: rest).takeWhile isWordChar))])
        else Except.error (Failure.unexpectedChar c)

def tokenize (formula : String) : Except Failure (List Token) :=
  tokenizeLoop (formula.length + 1) formula.data []

/-! ## Parser -/

/-- The recursive function `parse(tokens, pos)`; the result pairs the returned pointer with the
value left in the reference parameter `pos`.  One unit of fuel is spent per call level. -/
def parseFuel : Nat → List Token → Nat → Except Failure (ASTNode × Nat)
  | 0, _, _ => Except.error Failure.outOfFuel
  | fuel + 1, tokens, pos =>
    match tokens.get? pos with
    | none => Except.ok (ASTNode.null, pos)
    | some tok =>
      match tok.type with
      | TokenType.NOT_t =>
        match parseFuel fuel tokens (pos + 1) with
        | Except.error e => Except.error e
        | Except.ok (operand, pos1) =>
          Except.ok (ASTNode.node NodeType.NOT "" operand ASTNode.null, pos1)
      | TokenType.VAR_t =>
        Except.ok (ASTNode.node NodeType.VAR tok.value ASTNode.null ASTNode.null, pos + 1)
      | TokenType.LP_t =>
        match parseFuel fuel tokens (pos + 1) with
        | Except.error e => Except.error e
        | Except.ok (left, pos1) =>
          match tokens.get? pos1 with
          | none => Except.error Failure.undefinedBehaviour
          | some opToken =>
            match parseFuel fuel tokens (pos1 + 1) with
            | Except.error e => Except.error e
            | Except.ok (right, pos2) =>
              Except.ok
                (ASTNode.node (if opToken.type = TokenType.AND_t then NodeType.AND else NodeType.OR)
                  "" left right, pos2 + 1)
      | _ => Except.ok (ASTNode.null, pos)

def parse (tokens : List Token) (pos : Nat) : Except Failure (ASTNode × Nat) :=
  parseFuel (tokens.length + 1) tokens pos

/-! ## Encoder -/

/-- The function `encode(node)` over the explicit globals. -/
def encode : ASTNode → State → Except Failure (TseitinRes × State)
  | ASTNode.null, _ => Except.error Failure.undefinedBehaviour
  | ASTNode.node NodeType.VAR value _ _, st =>
    match st.varMap.lookup value with
    | some v => Except.ok (⟨v, []⟩, st)
    | none =>
      Except.ok (⟨st.varCount, []⟩, ⟨st.varCount + 1, (value, st.varCount) :: st.varMap⟩)
  | ASTNode.node NodeType.NOT _ left _, st =>
    match encode left st with
    | Except.error e => Except.error e
    | Except.ok (sub, st1) =>
      Except.ok
        (⟨st1.varCount, sub.formula ++ [[-st1.varCount, -sub.var], [st1.varCount, sub.var]]⟩,
          ⟨st1.varCount + 1, st1.varMap⟩)
  | ASTNode.node NodeType.AND _ left right, st =>
    match encode left st with
    | Except.error e => Except.error e
    | Except.ok (leftRes, st1) =>
      match encode right st1 with
      | Except.error e => Except.error e
      | Except.ok (rightRes, st2) =>
        Except.ok
          (⟨st2.varCount, leftRes.formula ++ rightRes.formula ++
              [[-st2.varCount, leftRes.var], [-st2.varCount, rightRes.var],
               [st2.varCount, -leftRes.var, -rightRes.var]]⟩,
            ⟨st2.varCount + 1, st2.varMap⟩)
  | ASTNode.node NodeType.OR _ left right, st =>
    match encode left st with
    | Except.error e => Except.error e
    | Except.ok (leftRes, st1) =>
      match encode right st1 with
      | Except.error e => Except.error e
      | Except.ok (rightRes, st2) =>
        Except.ok
          (⟨st2.varCount, leftRes.formula ++ rightRes.formula ++
              [[-leftRes.var, st2.varCount], [-rightRes.var, st2.varCount],
               [-st2.varCount, leftRes.var, rightRes.var]]⟩,
            ⟨st2.varCount + 1, st2.varMap⟩)

/-! ## Formatter and driver -/

/-- The text `DIMACS(res)` writes to `cout`, given the globals at the time of the call. -/
def DIMACS (st : State) (res : TseitinRes) : String :=
  res.formula.foldl
    (fun out clause => clause.foldl (fun out lit => out ++ toString lit ++ " ") out ++ "0\n")
    ("p cnf " ++ toString (st.varCount - 1) ++ " " ++ toString res.formula.length ++ "\n")

/-- The whole of `main` on one input line: everything written to `cout` when it returns. -/
def main (formula : String) : Except Failure String :=
  match tokenize formula with
  | Except.error e => Except.error e
  | Except.ok tokens =>
    match parse tokens 0 with
    | Except.error e => Except.error e
    | Except.ok (ast, _) =>
      match encode ast State.fresh with
      | Except.error e => Except.error e
      | Except.ok (result, st) =>
        Except.ok ("Enter a formula:\n" ++ DIMACS st ⟨result.var, result.formula ++ [[result.var]]⟩)

/-! ## Vocabulary of the specification

A node is read through its variant: a `VAR` node has no operand, a `NOT` node has the operand
`left`, `AND` and `OR` nodes have the operands `left` and `right`.  Fields that do not belong to
the variant are never read by `encode` and are ignored here as well. -/

/-- Every `NOT` has its operand and every `AND`/`OR` has both operands (no null pointer is
reachable). -/
def wellFormed : ASTNode → Bool
  | ASTNode.null => false
  | ASTNode.node NodeType.VAR _ _ _ => true
  | ASTNode.node NodeType.NOT _ left _ => wellFormed left
  | ASTNode.node NodeType.AND _ left right => wellFormed left && wellFormed right
  | ASTNode.node NodeType.OR _ left right => wellFormed left && wellFormed right

/-- Truth value of the formula a tree denotes, under an assignment of the names. -/
def evalAST (alpha : String → Bool) : ASTNode → Bool
  | ASTNode.null => false
  | ASTNode.node NodeType.VAR value _ _ => alpha value
  | ASTNode.node NodeType.NOT _ left _ => !evalAST alpha left
  | ASTNode.node NodeType.AND _ left right => evalAST alpha left && evalAST alpha right
  | ASTNode.node NodeType.OR _ left right => evalAST alpha left || evalAST alpha right

/-- Names of the `VAR` leaves, left to right, with repetitions. -/
def names : ASTNode → List String
  | ASTNode.null => []
  | ASTNode.node NodeType.VAR value _ _ => [value]
  | ASTNode.node NodeType.NOT _ left _ => names left
  | ASTNode.node NodeType.AND _ left right => names left ++ names right
  | ASTNode.node NodeType.OR _ left right => names left ++ names right

def countNot : ASTNode → Nat
  | ASTNode.null => 0
  | ASTNode.node NodeType.VAR _ _ _ => 0
  | ASTNode.node NodeType.NOT _ left _ => countNot left + 1
  | ASTNode.node NodeType.AND _ left right => countNot left + countNot right
  | ASTNode.node NodeType.OR _ left right => countNot left + countNot right

def countAnd : ASTNode → Nat
  | ASTNode.null => 0
  | ASTNode.node NodeType.VAR _ _ _ => 0
  | ASTNode.node NodeType.NOT _ left _ => countAnd left
  | ASTNode.node NodeType.AND _ left right => countAnd left + countAnd right + 1
  | ASTNode.node NodeType.OR _ left right => countAnd left + countAnd right

def countOr : ASTNode → Nat
  | ASTNode.null => 0
  | ASTNode.node NodeType.VAR _ _ _ => 0
  | ASTNode.node NodeType.NOT _ left _ => countOr left
  | ASTNode.node NodeType.AND _ left right => countOr left + countOr right
  | ASTNode.node NodeType.OR _ left right => countOr left + countOr right + 1

/-- A literal under an assignment of the variable ids: `-k` is true when `sigma k` is false. -/
def litTrue (sigma : Int → Bool) (l : Int) : Bool :=
  if l < 0 then !sigma (-l) else sigma l

/-- A clause is satisfied when at least one of its literals is true. -/
def clauseSat (sigma : Int → Bool) (c : Clause) : Bool :=
  c.any (litTrue sigma)

def formulaSat (sigma : Int → Bool) (f : Formula) : Bool :=
  f.all (clauseSat sigma)

/-- The registry read as a function: the id stored for a name (`0` for a name never stored). -/
def rho (st : State) (n : String) : Int :=
  (st.varMap.lookup n).getD 0

/-- The pair (name, id returned by `encode`) of every `VAR` leaf, left to right.  Each leaf is
encoded in the state that reaches it: the right operand of a binary node starts from the state
the left operand leaves behind. -/
def leafIds : ASTNode → State → List (String × Int)
  | ASTNode.null, _ => []
  | ASTNode.node NodeType.VAR value left right, st =>
    match encode (ASTNode.node NodeType.VAR value left right) st with
    | Except.ok (res, _) => [(value, res.var)]
    | Except.error _ => []
  | ASTNode.node NodeType.NOT _ left _, st => leafIds left st
  | ASTNode.node NodeType.AND _ left right, st =>
    leafIds left st ++
      (match encode left st with
       | Except.ok (_, st1) => leafIds right st1
       | Except.error _ => [])
  | ASTNode.node NodeType.OR _ left right, st =>
    leafIds left st ++
      (match encode left st with
       | Except.ok (_, st1) => leafIds right st1
       | Except.error _ => [])

/-- The text of one clause line: each literal followed by one space, then `0` and a newline. -/
def clauseLine (c : Clause) : String :=
  String.join (c.map (fun lit => toString lit ++ " ")) ++ "0\n"

/-- The header line `p cnf <numVars> <numClauses>`. -/
def headerLine (numVars : Int) (numClauses : Nat) : String :=
  "p cnf " ++ toString numVars ++ " " ++ toString numClauses ++ "\n"

/-- A pointer result counts as a reported failure when it is an error or the null pointer. -/
def parseFails : Except Failure (ASTNode × Nat) → Bool
  | Except.error _ => true
  | Except.ok (ASTNode.null, _) => true
  | Except.ok (ASTNode.node _ _ _ _, _) => false

/-- Tokens of identifiers joined by `AND` (`true`) / `OR` (`false`) operators, no parentheses. -/
def chainTokens (first : String) (ops : List (Bool × String)) : List Token :=
  ⟨TokenType.VAR_t, first⟩ ::
    ops.flatMap (fun p =>
      [if p.1 then ⟨TokenType.AND_t, "AND"⟩ else ⟨TokenType.OR_t, "OR"⟩, ⟨TokenType.VAR_t, p.2⟩])

/-- The run of `encode` as a relation: one rule per branch of the function. -/
inductive Enc : ASTNode → State → TseitinRes → State → Prop
  | varOld {value : String} {l r : ASTNode} {st : State} {v : Int}
      (h : st.varMap.lookup value = some v) :
      Enc (ASTNode.node NodeType.VAR value l r) st ⟨v, []⟩ st
  | varNew {value : String} {l r : ASTNode} {st : State}
      (h : st.varMap.lookup value = none) :
      Enc (ASTNode.node NodeType.VAR value l r) st ⟨st.varCount, []⟩
        ⟨st.varCount + 1, (value, st.varCount) :: st.varMap⟩
  | not {value : String} {l r : ASTNode} {st st1 : State} {sub : TseitinRes}
      (h : Enc l st sub st1) :
      Enc (ASTNode.node NodeType.NOT value l r) st
        ⟨st1.varCount, sub.formula ++ [[-st1.varCount, -sub.var], [st1.varCount, sub.var]]⟩
        ⟨st1.varCount + 1, st1.varMap⟩
  | and {value : String} {l r : ASTNode} {st st1 st2 : State} {leftRes rightRes : TseitinRes}
      (hl : Enc l st leftRes st1) (hr : Enc r st1 rightRes st2) :
      Enc (ASTNode.node NodeType.AND value l r) st
        ⟨st2.varCount, leftRes.formula ++ rightRes.formula ++
          [[-st2.varCount, leftRes.var], [-st2.varCount, rightRes.var],
           [st2.varCount, -leftRes.var, -rightRes.var]]⟩
        ⟨st2.varCount + 1, st2.varMap⟩
  | or {value : String} {l r : ASTNode} {st st1 st2 : State} {leftRes rightRes : TseitinRes}
      (hl : Enc l st leftRes st1) (hr : Enc r st1 rightRes st2) :
      Enc (ASTNode.node NodeType.OR value l r) st
        ⟨st2.varCount, leftRes.formula ++ rightRes.formula ++
          [[-leftRes.var, st2.varCount], [-rightRes.var, st2.varCount],
           [-st2.varCount, leftRes.var, rightRes.var]]⟩
        ⟨st2.varCount + 1, st2.varMap⟩

/-- What every reachable state of the globals satisfies: the counter is positive, every stored
id lies in `[1, varCount)`, distinct names have distinct ids, and no name is stored twice. -/
structure State.Inv (st : State) : Prop where
  pos : 1 ≤ st.varCount
  bound : ∀ n v, st.varMap.lookup n = some v → 1 ≤ v ∧ v < st.varCount
  inj : ∀ n m v, st.varMap.lookup n = some v → st.varMap.lookup m = some v → n = m
  nodup : (st.varMap.map Prod.fst).Nodup

/-- Number of newline characters of a text, that is, of the lines it is made of. -/
def countLines (s : String) : Nat :=
  s.data.count '\n'

/-- Every literal of the formula is nonzero and names a variable id below `N`. -/
def litsBelow (N : Int) (f : Formula) : Prop :=
  ∀ c ∈ f, ∀ l ∈ c, l ≠ 0 ∧ -N < l ∧ l < N

/-- The second registry keeps every entry of the first. -/
def mapExtends (m m' : List (String × Int)) : Prop :=
  ∀ n v, m.lookup n = some v → m'.lookup n = some v

/-- The scan behind the lexical-error condition: reading left to right, some character that is
neither whitespace, a parenthesis nor a letter is met where a token begins.  `inWord` records
that the previous character belongs to a word that began with a letter. -/
def lexBad : Bool → List Char → Bool
  | _, [] => false
  | inWord, c :: cs =>
    if isWordChar c then (if inWord || isalpha c then lexBad true cs else true)
    else if isspace c || c = '(' || c = ')' then lexBad false cs
    else true

/-- A character other than whitespace, `(`, `)` or a letter. -/
def badChar (c : Char) : Bool :=
  !isspace c && !(c = '(') && !(c = ')') && !isalpha c

/-- A token would begin at the character `c` that follows the text `pre`: `c` is not
whitespace and does not continue a run of word characters. -/
def beginsToken (pre : List Char) (c : Char) : Prop :=
  isspace c = false ∧
    ¬ (isWordChar c = true ∧ ∃ pre' p, pre = pre' ++ [p] ∧ isWordChar p = true)

/-- What the specification says of an identifier: it starts with a letter, continues with
letters, digits and underscores only, and is none of the reserved words. -/
def identOK (w : String) : Prop :=
  (∃ c cs, w.data = c :: cs ∧ isalpha c = true ∧ ∀ x ∈ cs, isWordChar x = true) ∧
    w ≠ "NOT" ∧ w ≠ "AND" ∧ w ≠ "OR"

/-- The canonical token rendering of a tree: an identifier token for a `VAR` leaf, the `NOT`
token before the operand, and `( left AND right )` or `( left OR right )`. -/
def toks : ASTNode → List Token
  | ASTNode.null => []
  | ASTNode.node NodeType.VAR value _ _ => [⟨TokenType.VAR_t, value⟩]
  | ASTNode.node NodeType.NOT _ left _ => ⟨TokenType.NOT_t, "NOT"⟩ :: toks left
  | ASTNode.node NodeType.AND _ left right =>
    [⟨TokenType.LP_t, "("⟩] ++ toks left ++ [⟨TokenType.AND_t, "AND"⟩] ++ toks right ++
      [⟨TokenType.RP_t, ")"⟩]
  | ASTNode.node NodeType.OR _ left right =>
    [⟨TokenType.LP_t, "("⟩] ++ toks left ++ [⟨TokenType.OR_t, "OR"⟩] ++ toks right ++
      [⟨TokenType.RP_t, ")"⟩]

/-- A well-formed tree of the specification's tagged union `Variable(name)`, `Not(operand)`,
`And(left, right)`, `Or(left, right)`, laid out as the constructor `ASTNode(type, val)` leaves
the fields that the variant does not use: null pointers and the empty `value`. -/
def canonical : ASTNode → Bool
  | ASTNode.null => false
  | ASTNode.node NodeType.VAR _ left right => left = ASTNode.null && right = ASTNode.null
  | ASTNode.node NodeType.NOT value left right =>
    value = "" && right = ASTNode.null && canonical left
  | ASTNode.node NodeType.AND value left right => value = "" && canonical left && canonical right
  | ASTNode.node NodeType.OR value left right => value = "" && canonical left && canonical right

/-- The values that the statements `varCount++` yield during `encode(node)`, in the order in
which they execute, each with the name of the `VAR` leaf that registered it (`none` for the
auxiliary variable of a `NOT`, `AND` or `OR` node). -/
def allocs : ASTNode → State → List (Option String × Int)
  | ASTNode.null, _ => []
  | ASTNode.node NodeType.VAR value _ _, st =>
    match st.varMap.lookup value with
    | some _ => []
    | none => [(some value, st.varCount)]
  | ASTNode.node NodeType.NOT _ left _, st =>
    allocs left st ++
      (match encode left st with
       | Except.ok (_, st1) => [(none, st1.varCount)]
       | Except.error _ => [])
  | ASTNode.node NodeType.AND _ left right, st =>
    allocs left st ++
      (match encode left st with
       | Except.ok (_, st1) =>
         allocs right st1 ++
           (match encode right st1 with
            | Except.ok (_, st2) => [(none, st2.varCount)]
            | Except.error _ => [])
       | Except.error _ => [])
  | ASTNode.node NodeType.OR _ left right, st =>
    allocs left st ++
      (match encode left st with
       | Except.ok (_, st1) =>
         allocs right st1 ++
           (match encode right st1 with
            | Except.ok (_, st2) => [(none, st2.varCount)]
            | Except.error _ => [])
       | Except.error _ => [])

/-- The invocations `encode(node)` made while encoding a tree, each with the state of the
globals at its entry, in the order in which they return (post-order). -/
def calls : ASTNode → State → List (ASTNode × State)
  | ASTNode.null, _ => []
  | ASTNode.node NodeType.VAR value left right, st =>
    [(ASTNode.node NodeType.VAR value left right, st)]
  | ASTNode.node NodeType.NOT value left right, st =>
    calls left st ++ [(ASTNode.node NodeType.NOT value left right, st)]
  | ASTNode.node NodeType.AND value left right, st =>
    calls left st ++
      (match encode left st with
       | Except.ok (_, st1) => calls right st1
       | Except.error _ => []) ++
      [(ASTNode.node NodeType.AND value left right, st)]
  | ASTNode.node NodeType.OR value left right, st =>
    calls left st ++
      (match encode left st with
       | Except.ok (_, st1) => calls right st1
       | Except.error _ => []) ++
      [(ASTNode.node NodeType.OR value left right, st)]

/-- The ids `encode` returns for the `NOT`, `AND` and `OR` nodes of a tree, one entry per node,
in post-order. -/
def auxIds : ASTNode → State → List Int
  | ASTNode.null, _ => []
  | ASTNode.node NodeType.VAR _ _ _, _ => []
  | ASTNode.node NodeType.NOT value left right, st =>
    auxIds left st ++
      (match encode (ASTNode.node NodeType.NOT value left right) st with
       | Except.ok (res, _) => [res.var]
       | Except.error _ => [])
  | ASTNode.node NodeType.AND value left right, st =>
    auxIds left st ++
      (match encode left st with
       | Except.ok (_, st1) => auxIds right st1
       | Except.error _ => []) ++
      (match encode (ASTNode.node NodeType.AND value left right) st with
       | Except.ok (res, _) => [res.var]
       | Except.error _ => [])
  | ASTNode.node NodeType.OR value left right, st =>
    auxIds left st ++
      (match encode left st with
       | Except.ok (_, st1) => auxIds right st1
       | Except.error _ => []) ++
      (match encode (ASTNode.node NodeType.OR value left right) st with
       | Except.ok (res, _) => [res.var]
       | Except.error _ => [])

/-- The names of a list that are not in `seen`, each kept at its first occurrence only. -/
def firstOccurrences : List String → List String → List String
  | _, [] => []
  | seen, n :: ns =>
    if n ∈ seen then firstOccurrences seen ns else n :: firstOccurrences (n :: seen) ns

/-- The list counts upwards from `a` in steps of one. -/
def consecutive : Int → List Int → Prop
  | _, [] => True
  | a, x :: xs => x = a ∧ consecutive (a + 1) xs

/-- The id that the invocation `encode(node)` returns from the given state of the globals
(`0` when the invocation reads through a null pointer). -/
def returned (p : ASTNode × State) : Int :=
  match encode p.1 p.2 with
  | Except.ok (res, _) => res.var
  | Except.error _ => 0

/-- The name of a `VAR` leaf; `none` for the other nodes. -/
def leafName : ASTNode → Option String
  | ASTNode.node NodeType.VAR value _ _ => some value
  | _ => none

/-- The elements of a list met for the first time: an element whose key is in `seen` or is the
key of an earlier element is dropped; an element without a key is always kept. -/
def keepNewBy {α κ : Type} [DecidableEq κ] (key : α → Option κ) : List κ → List α → List α
  | _, [] => []
  | seen, x :: xs =>
    match key x with
    | none => x :: keepNewBy key seen xs
    | some k => if k ∈ seen then keepNewBy key seen xs else x :: keepNewBy key (k :: seen) xs

/-! ## The encoder runs by its rules -/

theorem encode_enc (t : ASTNode) : ∀ (st : State) (res : TseitinRes) (st' : State),
    encode t st = Except.ok (res, st') → Enc t st res st' := by
  induction t with
  | null => intro st res st' h; simp [encode] at h
  | node ty value l r ihl ihr =>
    intro st res st' h
    cases ty with
    | VAR =>
      simp only [encode] at h
      split at h
      · next v hv =>
        cases h
        exact Enc.varOld hv
      · next hv =>
        cases h
        exact Enc.varNew hv
    | NOT =>
      simp only [encode] at h
      split at h
      · cases h
      · next sub st1 hs =>
        cases h
        exact Enc.not (ihl _ _ _ hs)
    | AND =>
      simp only [encode] at h
      split at h
      · cases h
      · next leftRes st1 hl =>
        split at h
        · cases h
        · next rightRes st2 hr =>
          cases h
          exact Enc.and (ihl _ _ _ hl) (ihr _ _ _ hr)
    | OR =>
      simp only [encode] at h
      split at h
      · cases h
      · next leftRes st1 hl =>
        split at h
        · cases h
        · next rightRes st2 hr =>
          cases h
          exact Enc.or (ihl _ _ _ hl) (ihr _ _ _ hr)

theorem encode_total (t : ASTNode) : ∀ (st : State), wellFormed t = true →
    ∃ res st', encode t st = Except.ok (res, st') := by
  induction t with
  | null => intro st h; simp [wellFormed] at h
  | node ty value l r ihl ihr =>
    intro st h
    cases ty with
    | VAR =>
      simp only [encode]
      split <;> exact ⟨_, _, rfl⟩
    | NOT =>
      simp only [wellFormed] at h
      obtain ⟨sub, st1, hs⟩ := ihl st h
      simp only [encode, hs]
      exact ⟨_, _, rfl⟩
    | AND =>
      simp only [wellFormed, Bool.and_eq_true] at h
      obtain ⟨leftRes, st1, hl⟩ := ihl st h.1
      obtain ⟨rightRes, st2, hr⟩ := ihr st1 h.2
      simp only [encode, hl, hr]
      exact ⟨_, _, rfl⟩
    | OR =>
      simp only [wellFormed, Bool.and_eq_true] at h
      obtain ⟨leftRes, st1, hl⟩ := ihl st h.1
      obtain ⟨rightRes, st2, hr⟩ := ihr st1 h.2
      simp only [encode, hl, hr]
      exact ⟨_, _, rfl⟩

/-! ## Registry and invariant -/

theorem lookup_cons_eq (m : List (String × Int)) (k n : String) (v : Int) :
    ((k, v) :: m).lookup n = if n = k then some v else m.lookup n := by
  by_cases h : n = k
  · subst h; simp [List.lookup]
  · have : (n == k) = false := by simpa using h
    simp [List.lookup, this, h]

theorem lookup_isSome_iff (m : List (String × Int)) (n : String) :
    (∃ v, m.lookup n = some v) ↔ n ∈ m.map Prod.fst := by
  induction m with
  | nil => simp
  | cons p m ih =>
    obtain ⟨k, w⟩ := p
    rw [lookup_cons_eq]
    by_cases h : n = k
    · simp [h]
    · simp [h, ih]

theorem lookup_none_iff (m : List (String × Int)) (n : String) :
    m.lookup n = none ↔ n ∉ m.map Prod.fst := by
  rw [← lookup_isSome_iff]
  cases m.lookup n <;> simp

theorem State.fresh_inv : State.fresh.Inv :=
  ⟨by decide, by intro n v h; simp [State.fresh] at h,
    by intro n m v h; simp [State.fresh] at h, by simp [State.fresh]⟩

theorem State.Inv.bump {st : State} (hi : st.Inv) : State.Inv ⟨st.varCount + 1, st.varMap⟩ :=
  ⟨by have := hi.pos; show (1 : Int) ≤ st.varCount + 1; omega,
    by
      intro n v h
      have := hi.bound n v h
      show 1 ≤ v ∧ v < st.varCount + 1
      omega,
    hi.inj, hi.nodup⟩

theorem State.Inv.insert {st : State} (hi : st.Inv) {value : String}
    (h : st.varMap.lookup value = none) :
    State.Inv ⟨st.varCount + 1, (value, st.varCount) :: st.varMap⟩ := by
  refine ⟨?_, ?_, ?_, ?_⟩
  · have := hi.pos; show (1 : Int) ≤ st.varCount + 1; omega
  · intro n v hn
    show 1 ≤ v ∧ v < st.varCount + 1
    have hn' : (if n = value then some st.varCount else st.varMap.lookup n) = some v := by
      rw [← lookup_cons_eq]; exact hn
    by_cases e : n = value
    · rw [if_pos e] at hn'
      cases hn'
      have := hi.pos; omega
    · rw [if_neg e] at hn'
      have := hi.bound n v hn'; omega
  · intro n m v hn hm
    have hn' : (if n = value then some st.varCount else st.varMap.lookup n) = some v := by
      rw [← lookup_cons_eq]; exact hn
    have hm' : (if m = value then some st.varCount else st.varMap.lookup m) = some v := by
      rw [← lookup_cons_eq]; exact hm
    by_cases e : n = value <;> by_cases e' : m = value
    · rw [e, e']
    · rw [if_pos e] at hn'; rw [if_neg e'] at hm'
      cases hn'
      have := hi.bound m _ hm'; omega
    · rw [if_neg e] at hn'; rw [if_pos e'] at hm'
      cases hm'
      have := hi.bound n _ hn'; omega
    · rw [if_neg e] at hn'; rw [if_neg e'] at hm'
      exact hi.inj n m v hn' hm'
  · show ((value, st.varCount) :: st.varMap |>.map Prod.fst).Nodup
    rw [List.map_cons, List.nodup_cons]
    exact ⟨(lookup_none_iff _ _).1 h, hi.nodup⟩

theorem mapExtends_refl (m : List (String × Int)) : mapExtends m m := fun _ _ h => h

theorem mapExtends_trans {a b c : List (String × Int)} (h1 : mapExtends a b)
    (h2 : mapExtends b c) : mapExtends a c := fun n v h => h2 n v (h1 n v h)

theorem mapExtends_insert {m : List (String × Int)} {value : String} (w : Int)
    (h : m.lookup value = none) : mapExtends m ((value, w) :: m) := by
  intro n v hn
  rw [lookup_cons_eq]
  by_cases e : n = value
  · subst e; rw [h] at hn; cases hn
  · rw [if_neg e]; exact hn

theorem litsBelow_nil (N : Int) : litsBelow N [] := by
  intro c hc; cases hc

theorem litsBelow_mono {N M : Int} {f : Formula} (h : litsBelow N f) (hNM : N ≤ M) :
    litsBelow M f := by
  intro c hc l hl
  have := h c hc l hl
  omega

theorem litsBelow_append {N : Int} {f g : Formula} (hf : litsBelow N f) (hg : litsBelow N g) :
    litsBelow N (f ++ g) := by
  intro c hc
  rcases List.mem_append.1 hc with h | h
  · exact hf c h
  · exact hg c h

theorem litsBelow_two {N a b c d : Int}
    (ha : a ≠ 0 ∧ -N < a ∧ a < N) (hb : b ≠ 0 ∧ -N < b ∧ b < N)
    (hc : c ≠ 0 ∧ -N < c ∧ c < N) (hd : d ≠ 0 ∧ -N < d ∧ d < N) :
    litsBelow N [[a, b], [c, d]] := by
  intro x hx l hl
  simp only [List.mem_cons, List.mem_singleton, List.not_mem_nil, or_false] at hx
  rcases hx with rfl | rfl <;>
    simp only [List.mem_cons, List.mem_singleton, List.not_mem_nil, or_false] at hl <;>
    rcases hl with rfl | rfl <;> assumption

theorem litsBelow_three {N a b c d e f g : Int}
    (ha : a ≠ 0 ∧ -N < a ∧ a < N) (hb : b ≠ 0 ∧ -N < b ∧ b < N)
    (hc : c ≠ 0 ∧ -N < c ∧ c < N) (hd : d ≠ 0 ∧ -N < d ∧ d < N)
    (he : e ≠ 0 ∧ -N < e ∧ e < N) (hf : f ≠ 0 ∧ -N < f ∧ f < N)
    (hg : g ≠ 0 ∧ -N < g ∧ g < N) :
    litsBelow N [[a, b], [c, d], [e, f, g]] := by
  intro x hx l hl
  simp only [List.mem_cons, List.mem_singleton, List.not_mem_nil, or_false] at hx
  rcases hx with rfl | rfl | rfl <;>
    simp only [List.mem_cons, List.mem_singleton, List.not_mem_nil, or_false] at hl
  · rcases hl with rfl | rfl <;> assumption
  · rcases hl with rfl | rfl <;> assumption
  · rcases hl with rfl | rfl | rfl <;> assumption

/-- What one run of `encode` from a good state guarantees. -/
theorem Enc.facts {t : ASTNode} {st st' : State} {res : TseitinRes} (h : Enc t st res st')
    (hi : st.Inv) :
    st'.Inv ∧ st.varCount ≤ st'.varCount ∧ mapExtends st.varMap st'.varMap ∧
      (1 ≤ res.var ∧ res.var < st'.varCount) ∧ litsBelow st'.varCount res.formula ∧
      (∀ n ∈ names t, ∃ v, st'.varMap.lookup n = some v) := by
  induction h with
  | @varOld value l r st v h =>
    refine ⟨hi, le_refl _, mapExtends_refl _, hi.bound _ _ h, litsBelow_nil _, ?_⟩
    intro n hn
    simp only [names, List.mem_singleton] at hn
    subst hn
    exact ⟨v, h⟩
  | @varNew value l r st h =>
    refine ⟨hi.insert h, ?_, mapExtends_insert _ h, ?_, litsBelow_nil _, ?_⟩
    · show st.varCount ≤ st.varCount + 1; omega
    · have := hi.pos
      show 1 ≤ st.varCount ∧ st.varCount < st.varCount + 1
      omega
    · intro n hn
      simp only [names, List.mem_singleton] at hn
      subst hn
      exact ⟨st.varCount, by rw [lookup_cons_eq, if_pos rfl]⟩
  | @not value l r st st1 sub h ih =>
    obtain ⟨hi1, hle, hext, hv, hlits, hnames⟩ := ih hi
    have hp := hi1.pos
    refine ⟨hi1.bump, ?_, hext, ?_, ?_, hnames⟩
    · show st.varCount ≤ st1.varCount + 1; omega
    · show 1 ≤ st1.varCount ∧ st1.varCount < st1.varCount + 1; omega
    · show litsBelow (st1.varCount + 1) _
      refine litsBelow_append (litsBelow_mono hlits (by omega)) (litsBelow_two ?_ ?_ ?_ ?_) <;>
        omega
  | @and value l r st st1 st2 leftRes rightRes hl hr ihl ihr =>
    obtain ⟨hi1, hle1, hext1, hv1, hlits1, hnames1⟩ := ihl hi
    obtain ⟨hi2, hle2, hext2, hv2, hlits2, hnames2⟩ := ihr hi1
    have hp := hi2.pos
    refine ⟨hi2.bump, ?_, mapExtends_trans hext1 hext2, ?_, ?_, ?_⟩
    · show st.varCount ≤ st2.varCount + 1; omega
    · show 1 ≤ st2.varCount ∧ st2.varCount < st2.varCount + 1; omega
    · show litsBelow (st2.varCount + 1) _
      refine litsBelow_append (litsBelow_append (litsBelow_mono hlits1 (by omega))
        (litsBelow_mono hlits2 (by omega))) (litsBelow_three ?_ ?_ ?_ ?_ ?_ ?_ ?_) <;> omega
    · intro n hn
      simp only [names, List.mem_append] at hn
      rcases hn with hn | hn
      · obtain ⟨v, hv⟩ := hnames1 n hn
        exact ⟨v, hext2 n v hv⟩
      · exact hnames2 n hn
  | @or value l r st st1 st2 leftRes rightRes hl hr ihl ihr =>
    obtain ⟨hi1, hle1, hext1, hv1, hlits1, hnames1⟩ := ihl hi
    obtain ⟨hi2, hle2, hext2, hv2, hlits2, hnames2⟩ := ihr hi1
    have hp := hi2.pos
    refine ⟨hi2.bump, ?_, mapExtends_trans hext1 hext2, ?_, ?_, ?_⟩
    · show st.varCount ≤ st2.varCount + 1; omega
    · show 1 ≤ st2.varCount ∧ st2.varCount < st2.varCount + 1; omega
    · show litsBelow (st2.varCount + 1) _
      refine litsBelow_append (litsBelow_append (litsBelow_mono hlits1 (by omega))
        (litsBelow_mono hlits2 (by omega))) (litsBelow_three ?_ ?_ ?_ ?_ ?_ ?_ ?_) <;> omega
    · intro n hn
      simp only [names, List.mem_append] at hn
      rcases hn with hn | hn
      · obtain ⟨v, hv⟩ := hnames1 n hn
        exact ⟨v, hext2 n v hv⟩
      · exact hnames2 n hn

/-! ## Satisfaction of the emitted clauses -/

theorem litTrue_pos (s : Int → Bool) {v : Int} (h : 1 ≤ v) : litTrue s v = s v := by
  have : ¬ v < 0 := by omega
  simp [litTrue, this]

theorem litTrue_neg (s : Int → Bool) {v : Int} (h : 1 ≤ v) : litTrue s (-v) = !s v := by
  have : 0 < v := by omega
  simp [litTrue, this]

theorem formulaSat_append (s : Int → Bool) (f g : Formula) :
    formulaSat s (f ++ g) = (formulaSat s f && formulaSat s g) := by
  simp [formulaSat, List.all_append]

theorem sat_not (s : Int → Bool) {v a : Int} (hv : 1 ≤ v) (ha : 1 ≤ a) :
    formulaSat s [[-v, -a], [v, a]] = true ↔ s v = !s a := by
  simp only [formulaSat, clauseSat, List.all_cons, List.all_nil, List.any_cons, List.any_nil,
    litTrue_pos s hv, litTrue_pos s ha, litTrue_neg s hv, litTrue_neg s ha]
  cases s v <;> cases s a <;> simp

theorem sat_and (s : Int → Bool) {v a b : Int} (hv : 1 ≤ v) (ha : 1 ≤ a) (hb : 1 ≤ b) :
    formulaSat s [[-v, a], [-v, b], [v, -a, -b]] = true ↔ s v = (s a && s b) := by
  simp only [formulaSat, clauseSat, List.all_cons, List.all_nil, List.any_cons, List.any_nil,
    litTrue_pos s hv, litTrue_pos s ha, litTrue_pos s hb, litTrue_neg s hv, litTrue_neg s ha,
    litTrue_neg s hb]
  cases s v <;> cases s a <;> cases s b <;> simp

theorem sat_or (s : Int → Bool) {v a b : Int} (hv : 1 ≤ v) (ha : 1 ≤ a) (hb : 1 ≤ b) :
    formulaSat s [[-a, v], [-b, v], [-v, a, b]] = true ↔ s v = (s a || s b) := by
  simp only [formulaSat, clauseSat, List.all_cons, List.all_nil, List.any_cons, List.any_nil,
    litTrue_pos s hv, litTrue_pos s ha, litTrue_pos s hb, litTrue_neg s hv, litTrue_neg s ha,
    litTrue_neg s hb]
  cases s v <;> cases s a <;> cases s b <;> simp

theorem all_congr_mem {α : Type} (p q : α → Bool) (l : List α) (h : ∀ x ∈ l, p x = q x) :
    l.all p = l.all q := by
  induction l with
  | nil => rfl
  | cons a l ih =>
    simp only [List.all_cons]
    rw [h a (List.mem_cons_self a l), ih (fun x hx => h x (List.mem_cons_of_mem a hx))]

theorem any_congr_mem {α : Type} (p q : α → Bool) (l : List α) (h : ∀ x ∈ l, p x = q x) :
    l.any p = l.any q := by
  induction l with
  | nil => rfl
  | cons a l ih =>
    simp only [List.any_cons]
    rw [h a (List.mem_cons_self a l), ih (fun x hx => h x (List.mem_cons_of_mem a hx))]

/-- Satisfaction of a formula only depends on the ids below the bound of its literals. -/
theorem sat_congr {N : Int} {f : Formula} (hf : litsBelow N f) {s s' : Int → Bool}
    (h : ∀ k, k < N → s k = s' k) : formulaSat s f = formulaSat s' f := by
  unfold formulaSat
  apply all_congr_mem
  intro c hc
  unfold clauseSat
  apply any_congr_mem
  intro l hl
  have hb := hf c hc l hl
  unfold litTrue
  by_cases hneg : l < 0
  · rw [if_pos hneg, if_pos hneg, h (-l) (by omega)]
  · rw [if_neg hneg, if_neg hneg, h l (by omega)]

/-- Soundness, for a run from any good state: an assignment that satisfies the clauses gives
the result variable the truth value of the tree, names being read through any registry that
keeps the entries of the final one. -/
theorem Enc.sound {t : ASTNode} {st st' : State} {res : TseitinRes} (h : Enc t st res st')
    (hi : st.Inv) : ∀ m, mapExtends st'.varMap m → ∀ sigma : Int → Bool,
      formulaSat sigma res.formula = true →
      sigma res.var = evalAST (fun n => sigma ((m.lookup n).getD 0)) t := by
  induction h with
  | @varOld value l r st v h =>
    intro m hm sigma _
    simp only [evalAST, hm _ _ h, Option.getD_some]
  | @varNew value l r st h =>
    intro m hm sigma _
    have : m.lookup value = some st.varCount := hm _ _ (by rw [lookup_cons_eq, if_pos rfl])
    simp only [evalAST, this, Option.getD_some]
  | @not value l r st st1 sub h ih =>
    intro m hm sigma hs
    obtain ⟨hi1, -, -, hv, -, -⟩ := h.facts hi
    rw [formulaSat_append, Bool.and_eq_true] at hs
    have h1 := ih hi m hm sigma hs.1
    have h2 := (sat_not sigma hi1.pos hv.1).1 hs.2
    simp only [evalAST, ← h1]
    exact h2
  | @and value l r st st1 st2 leftRes rightRes hl hr ihl ihr =>
    intro m hm sigma hs
    obtain ⟨hi1, -, -, hv1, -, -⟩ := hl.facts hi
    obtain ⟨hi2, -, hext2, hv2, -, -⟩ := hr.facts hi1
    rw [formulaSat_append, formulaSat_append, Bool.and_eq_true, Bool.and_eq_true] at hs
    have h1 := ihl hi m (mapExtends_trans hext2 hm) sigma hs.1.1
    have h2 := ihr hi1 m hm sigma hs.1.2
    have h3 := (sat_and sigma hi2.pos hv1.1 hv2.1).1 hs.2
    simp only [evalAST, ← h1, ← h2]
    exact h3
  | @or value l r st st1 st2 leftRes rightRes hl hr ihl ihr =>
    intro m hm sigma hs
    obtain ⟨hi1, -, -, hv1, -, -⟩ := hl.facts hi
    obtain ⟨hi2, -, hext2, hv2, -, -⟩ := hr.facts hi1
    rw [formulaSat_append, formulaSat_append, Bool.and_eq_true, Bool.and_eq_true] at hs
    have h1 := ihl hi m (mapExtends_trans hext2 hm) sigma hs.1.1
    have h2 := ihr hi1 m hm sigma hs.1.2
    have h3 := (sat_or sigma hi2.pos hv1.1 hv2.1).1 hs.2
    simp only [evalAST, ← h1, ← h2]
    exact h3

/-- Completeness, for a run from any good state: an assignment of the ids that agrees with
`alpha` on the names already registered can be changed at the newly allocated ids only so that
it satisfies the clauses, agrees with `alpha` on every registered name and gives the result
variable the truth value of the tree. -/
theorem Enc.complete {t : ASTNode} {st st' : State} {res : TseitinRes} (h : Enc t st res st')
    (hi : st.Inv) (alpha : String → Bool) : ∀ sigma : Int → Bool,
      (∀ n v, st.varMap.lookup n = some v → sigma v = alpha n) →
      ∃ sigma' : Int → Bool, (∀ k, k < st.varCount → sigma' k = sigma k) ∧
        (∀ k, st'.varCount ≤ k → sigma' k = sigma k) ∧
        (∀ n v, st'.varMap.lookup n = some v → sigma' v = alpha n) ∧
        formulaSat sigma' res.formula = true ∧ sigma' res.var = evalAST alpha t := by
  induction h with
  | @varOld value l r st v h =>
    intro sigma hs
    exact ⟨sigma, fun _ _ => rfl, fun _ _ => rfl, hs, rfl, by simp only [evalAST]; exact hs _ _ h⟩
  | @varNew value l r st h =>
    intro sigma hs
    refine ⟨Function.update sigma st.varCount (alpha value), ?_, ?_, ?_, rfl, ?_⟩
    · intro k hk
      exact Function.update_noteq (by omega) _ _
    · intro k hk
      have hk' : st.varCount + 1 ≤ k := hk
      exact Function.update_noteq (by omega) _ _
    · intro n v hn
      have hn' : (if n = value then some st.varCount else st.varMap.lookup n) = some v := by
        rw [← lookup_cons_eq]; exact hn
      by_cases e : n = value
      · rw [if_pos e] at hn'
        cases hn'
        rw [e]
        exact Function.update_same _ _ _
      · rw [if_neg e] at hn'
        have := hi.bound n v hn'
        rw [Function.update_noteq (by omega)]
        exact hs n v hn'
    · simp only [evalAST]
      exact Function.update_same _ _ _
  | @not value l r st st1 sub h ih =>
    intro sigma hs
    obtain ⟨hi1, hle, -, hv, hlits, -⟩ := h.facts hi
    obtain ⟨s1, hag, hhi, hmap, hsat, hval⟩ := ih hi sigma hs
    have hp := hi1.pos
    have hlow : ∀ k, k < st1.varCount →
        Function.update s1 st1.varCount (!evalAST alpha l) k = s1 k :=
      fun k hk => Function.update_noteq (by omega) _ _
    refine ⟨Function.update s1 st1.varCount (!evalAST alpha l), ?_, ?_, ?_, ?_, ?_⟩
    · intro k hk
      rw [hlow k (by omega)]
      exact hag k hk
    · intro k hk
      have hk' : st1.varCount + 1 ≤ k := hk
      rw [Function.update_noteq (by omega)]
      exact hhi k (by omega)
    · intro n v hn
      rw [hlow v (hi1.bound n v hn).2]
      exact hmap n v hn
    · rw [formulaSat_append, Bool.and_eq_true]
      refine ⟨?_, (sat_not _ hp hv.1).2 ?_⟩
      · rw [sat_congr hlits hlow]; exact hsat
      · rw [hlow _ hv.2, hval]
        exact Function.update_same _ _ _
    · simp only [evalAST]
      exact Function.update_same _ _ _
  | @and value l r st st1 st2 leftRes rightRes hl hr ihl ihr =>
    intro sigma hs
    obtain ⟨hi1, hle1, -, hv1, hlits1, -⟩ := hl.facts hi
    obtain ⟨hi2, hle2, -, hv2, hlits2, -⟩ := hr.facts hi1
    obtain ⟨s1, hag1, hhi1, hmap1, hsat1, hval1⟩ := ihl hi sigma hs
    obtain ⟨s2, hag2, hhi2, hmap2, hsat2, hval2⟩ := ihr hi1 s1 hmap1
    have hp := hi2.pos
    have hlow : ∀ k, k < st2.varCount →
        Function.update s2 st2.varCount (evalAST alpha l && evalAST alpha r) k = s2 k :=
      fun k hk => Function.update_noteq (by omega) _ _
    refine ⟨Function.update s2 st2.varCount (evalAST alpha l && evalAST alpha r),
      ?_, ?_, ?_, ?_, ?_⟩
    · intro k hk
      rw [hlow k (by omega), hag2 k (by omega)]
      exact hag1 k hk
    · intro k hk
      have hk' : st2.varCount + 1 ≤ k := hk
      rw [Function.update_noteq (by omega), hhi2 k (by omega)]
      exact hhi1 k (by omega)
    · intro n v hn
      rw [hlow v (hi2.bound n v hn).2]
      exact hmap2 n v hn
    · rw [formulaSat_append, formulaSat_append, Bool.and_eq_true, Bool.and_eq_true]
      refine ⟨⟨?_, ?_⟩, (sat_and _ hp hv1.1 hv2.1).2 ?_⟩
      · rw [sat_congr (litsBelow_mono hlits1 hle2) hlow, sat_congr hlits1 hag2]; exact hsat1
      · rw [sat_congr hlits2 hlow]; exact hsat2
      · rw [hlow rightRes.var hv2.2, hlow leftRes.var (by omega), hag2 _ hv1.2, hval1, hval2]
        exact Function.update_same _ _ _
    · simp only [evalAST]
      exact Function.update_same _ _ _
  | @or value l r st st1 st2 leftRes rightRes hl hr ihl ihr =>
    intro sigma hs
    obtain ⟨hi1, hle1, -, hv1, hlits1, -⟩ := hl.facts hi
    obtain ⟨hi2, hle2, -, hv2, hlits2, -⟩ := hr.facts hi1
    obtain ⟨s1, hag1, hhi1, hmap1, hsat1, hval1⟩ := ihl hi sigma hs
    obtain ⟨s2, hag2, hhi2, hmap2, hsat2, hval2⟩ := ihr hi1 s1 hmap1
    have hp := hi2.pos
    have hlow : ∀ k, k < st2.varCount →
        Function.update s2 st2.varCount (evalAST alpha l || evalAST alpha r) k = s2 k :=
      fun k hk => Function.update_noteq (by omega) _ _
    refine ⟨Function.update s2 st2.varCount (evalAST alpha l || evalAST alpha r),
      ?_, ?_, ?_, ?_, ?_⟩
    · intro k hk
      rw [hlow k (by omega), hag2 k (by omega)]
      exact hag1 k hk
    · intro k hk
      have hk' : st2.varCount + 1 ≤ k := hk
      rw [Function.update_noteq (by omega), hhi2 k (by omega)]
      exact hhi1 k (by omega)
    · intro n v hn
      rw [hlow v (hi2.bound n v hn).2]
      exact hmap2 n v hn
    · rw [formulaSat_append, formulaSat_append, Bool.and_eq_true, Bool.and_eq_true]
      refine ⟨⟨?_, ?_⟩, (sat_or _ hp hv1.1 hv2.1).2 ?_⟩
      · rw [sat_congr (litsBelow_mono hlits1 hle2) hlow, sat_congr hlits1 hag2]; exact hsat1
      · rw [sat_congr hlits2 hlow]; exact hsat2
      · rw [hlow rightRes.var hv2.2, hlow leftRes.var (by omega), hag2 _ hv1.2, hval1, hval2]
        exact Function.update_same _ _ _
    · simp only [evalAST]
      exact Function.update_same _ _ _

theorem formulaSat_unit (s : Int → Bool) {v : Int} (h : 1 ≤ v) :
    formulaSat s [[v]] = s v := by
  simp [formulaSat, clauseSat, litTrue_pos s h]

/-! ## Equisatisfiability -/

/-- C1 (soundness): for a well-formed tree, `encode` from the fresh state returns a result
`(v, F)`, and every assignment of the variable ids that satisfies all clauses of `F` followed by
the unit clause `[v]` makes the tree true when each name is given the value of its registered
id. -/
theorem encode_sound (t : ASTNode) (hwf : wellFormed t = true) :
    ∃ res st', encode t State.fresh = Except.ok (res, st') ∧
      ∀ sigma : Int → Bool, formulaSat sigma (res.formula ++ [[res.var]]) = true →
        evalAST (fun n => sigma (rho st' n)) t = true := by
  obtain ⟨res, st', he⟩ := encode_total t State.fresh hwf
  have henc := encode_enc t _ _ _ he
  obtain ⟨-, -, -, hv, -, -⟩ := henc.facts State.fresh_inv
  refine ⟨res, st', he, ?_⟩
  intro sigma hs
  rw [formulaSat_append, Bool.and_eq_true, formulaSat_unit sigma hv.1] at hs
  have := henc.sound State.fresh_inv st'.varMap (mapExtends_refl _) sigma hs.1
  rw [hs.2] at this
  exact this.symm

theorem encode_sound_witness :
    wellFormed (ASTNode.node NodeType.OR "" (ASTNode.node NodeType.VAR "A" ASTNode.null
        ASTNode.null) (ASTNode.node NodeType.NOT "" (ASTNode.node NodeType.VAR "A" ASTNode.null
        ASTNode.null) ASTNode.null)) = true ∧
      ∃ res st', encode (ASTNode.node NodeType.OR "" (ASTNode.node NodeType.VAR "A" ASTNode.null
        ASTNode.null) (ASTNode.node NodeType.NOT "" (ASTNode.node NodeType.VAR "A" ASTNode.null
        ASTNode.null) ASTNode.null)) State.fresh = Except.ok (res, st') ∧
      ∀ sigma : Int → Bool, formulaSat sigma (res.formula ++ [[res.var]]) = true →
        evalAST (fun n => sigma (rho st' n)) (ASTNode.node NodeType.OR "" (ASTNode.node
          NodeType.VAR "A" ASTNode.null ASTNode.null) (ASTNode.node NodeType.NOT ""
          (ASTNode.node NodeType.VAR "A" ASTNode.null ASTNode.null) ASTNode.null)) = true :=
  ⟨rfl, encode_sound _ rfl⟩

/-- C2 (completeness): for a well-formed tree, `encode` from the fresh state returns a result
`(v, F)` with final counter `c`, and for every assignment `alpha` of the names that makes the
tree true there is an assignment `sigma` of the ids, false outside `1..c-1`, that gives the id
of every name of the tree the value `alpha` gives the name and satisfies all clauses of `F` and
the unit clause `[v]`.  Hence the emitted clauses are satisfiable exactly when the tree is. -/
theorem encode_complete (t : ASTNode) (hwf : wellFormed t = true) :
    ∃ res st', encode t State.fresh = Except.ok (res, st') ∧
      (∀ alpha : String → Bool, evalAST alpha t = true →
        ∃ sigma : Int → Bool,
          (∀ k, k < 1 ∨ st'.varCount ≤ k → sigma k = false) ∧
          (∀ n ∈ names t, sigma (rho st' n) = alpha n) ∧
          formulaSat sigma (res.formula ++ [[res.var]]) = true) ∧
      ((∃ sigma : Int → Bool, formulaSat sigma (res.formula ++ [[res.var]]) = true) ↔
        ∃ alpha : String → Bool, evalAST alpha t = true) := by
  obtain ⟨res, st', he⟩ := encode_total t State.fresh hwf
  have henc := encode_enc t _ _ _ he
  obtain ⟨-, -, -, hv, -, hnames⟩ := henc.facts State.fresh_inv
  have hall : ∀ alpha : String → Bool, evalAST alpha t = true →
      ∃ sigma : Int → Bool,
        (∀ k, k < 1 ∨ st'.varCount ≤ k → sigma k = false) ∧
        (∀ n ∈ names t, sigma (rho st' n) = alpha n) ∧
        formulaSat sigma (res.formula ++ [[res.var]]) = true := by
    intro alpha ha
    obtain ⟨sigma, hlow, hhigh, hmap, hsat, hval⟩ :=
      henc.complete State.fresh_inv alpha (fun _ => false)
        (by intro n v h; simp [State.fresh] at h)
    refine ⟨sigma, ?_, ?_, ?_⟩
    · intro k hk
      rcases hk with hk | hk
      · exact hlow k hk
      · exact hhigh k hk
    · intro n hn
      obtain ⟨v, hv⟩ := hnames n hn
      simp only [rho, hv, Option.getD_some]
      exact hmap n v hv
    · rw [formulaSat_append, Bool.and_eq_true, formulaSat_unit sigma hv.1, hval]
      exact ⟨hsat, ha⟩
  refine ⟨res, st', he, hall, ?_, ?_⟩
  · rintro ⟨sigma, hs⟩
    rw [formulaSat_append, Bool.and_eq_true, formulaSat_unit sigma hv.1] at hs
    have := henc.sound State.fresh_inv st'.varMap (mapExtends_refl _) sigma hs.1
    rw [hs.2] at this
    exact ⟨_, this.symm⟩
  · rintro ⟨alpha, ha⟩
    obtain ⟨sigma, -, -, hs⟩ := hall alpha ha
    exact ⟨sigma, hs⟩

theorem encode_complete_witness :
    wellFormed (ASTNode.node NodeType.AND "" (ASTNode.node NodeType.VAR "A" ASTNode.null
        ASTNode.null) (ASTNode.node NodeType.NOT "" (ASTNode.node NodeType.VAR "B" ASTNode.null
        ASTNode.null) ASTNode.null)) = true ∧
      ∃ res st', encode (ASTNode.node NodeType.AND "" (ASTNode.node NodeType.VAR "A" ASTNode.null
        ASTNode.null) (ASTNode.node NodeType.NOT "" (ASTNode.node NodeType.VAR "B" ASTNode.null
        ASTNode.null) ASTNode.null)) State.fresh = Except.ok (res, st') ∧
      (∀ alpha : String → Bool, evalAST alpha (ASTNode.node NodeType.AND "" (ASTNode.node
          NodeType.VAR "A" ASTNode.null ASTNode.null) (ASTNode.node NodeType.NOT ""
          (ASTNode.node NodeType.VAR "B" ASTNode.null ASTNode.null) ASTNode.null)) = true →
        ∃ sigma : Int → Bool,
          (∀ k, k < 1 ∨ st'.varCount ≤ k → sigma k = false) ∧
          (∀ n ∈ names (ASTNode.node NodeType.AND "" (ASTNode.node NodeType.VAR "A" ASTNode.null
            ASTNode.null) (ASTNode.node NodeType.NOT "" (ASTNode.node NodeType.VAR "B"
            ASTNode.null ASTNode.null) ASTNode.null)), sigma (rho st' n) = alpha n) ∧
          formulaSat sigma (res.formula ++ [[res.var]]) = true) ∧
      ((∃ sigma : Int → Bool, formulaSat sigma (res.formula ++ [[res.var]]) = true) ↔
        ∃ alpha : String → Bool, evalAST alpha (ASTNode.node NodeType.AND "" (ASTNode.node
          NodeType.VAR "A" ASTNode.null ASTNode.null) (ASTNode.node NodeType.NOT ""
          (ASTNode.node NodeType.VAR "B" ASTNode.null ASTNode.null) ASTNode.null)) = true) :=
  ⟨rfl, encode_complete _ rfl⟩

/-! ## The text written by `DIMACS` -/

theorem foldl_append_eq (l : List String) : ∀ init : String,
    l.foldl (fun r s => r ++ s) init = init ++ String.join l := by
  induction l with
  | nil => intro init; simp [String.join]
  | cons a l ih =>
    intro init
    simp only [List.foldl_cons, String.join]
    rw [ih (init ++ a), ih ("" ++ a), String.empty_append, String.append_assoc]

theorem join_cons (a : String) (l : List String) : String.join (a :: l) = a ++ String.join l := by
  simp only [String.join, List.foldl_cons]
  rw [foldl_append_eq, String.empty_append]
  rfl

theorem literals_foldl (c : Clause) : ∀ out : String,
    c.foldl (fun out lit => out ++ toString lit ++ " ") out =
      out ++ String.join (c.map (fun lit => toString lit ++ " ")) := by
  induction c with
  | nil => intro out; simp [String.join]
  | cons a c ih =>
    intro out
    simp only [List.foldl_cons, List.map_cons]
    rw [ih, join_cons, String.append_assoc, String.append_assoc, String.append_assoc]

theorem clauses_foldl (f : Formula) : ∀ out : String,
    f.foldl
        (fun out clause => clause.foldl (fun out lit => out ++ toString lit ++ " ") out ++ "0\n")
        out =
      out ++ String.join (f.map clauseLine) := by
  induction f with
  | nil => intro out; simp [String.join]
  | cons c f ih =>
    intro out
    simp only [List.foldl_cons, List.map_cons]
    rw [ih, join_cons, literals_foldl, clauseLine]
    simp only [String.append_assoc]

/-- The output of `DIMACS` in closed form: the header line, then one line per clause. -/
theorem DIMACS_eq (st : State) (res : TseitinRes) :
    DIMACS st res =
      headerLine (st.varCount - 1) res.formula.length ++
        String.join (res.formula.map clauseLine) := by
  unfold DIMACS
  rw [clauses_foldl]
  rfl

theorem digitChar_ne_newline (n : Nat) : Nat.digitChar (n % 10) ≠ '\n' := by
  have h : n % 10 < 10 := Nat.mod_lt n (by decide)
  generalize n % 10 = k at h
  interval_cases k <;> decide

theorem toDigitsCore_count (fuel : Nat) : ∀ (n : Nat) (ds : List Char),
    (Nat.toDigitsCore 10 fuel n ds).count '\n' = ds.count '\n' := by
  induction fuel with
  | zero => intro n ds; rfl
  | succ fuel ih =>
    intro n ds
    simp only [Nat.toDigitsCore]
    split
    · exact List.count_cons_of_ne (digitChar_ne_newline n).symm ds
    · rw [ih]
      exact List.count_cons_of_ne (digitChar_ne_newline n).symm ds

theorem countLines_append (a b : String) : countLines (a ++ b) = countLines a + countLines b := by
  simp [countLines, String.data_append, List.count_append]

theorem countLines_nat (n : Nat) : countLines (toString n) = 0 := by
  show (Nat.toDigits 10 n).count '\n' = 0
  unfold Nat.toDigits
  rw [toDigitsCore_count]
  rfl

theorem countLines_int (i : Int) : countLines (toString i) = 0 := by
  cases i with
  | ofNat n => exact countLines_nat n
  | negSucc n =>
    show countLines ("-" ++ toString (n + 1)) = 0
    rw [countLines_append, countLines_nat]
    rfl

theorem countLines_headerLine (a : Int) (b : Nat) : countLines (headerLine a b) = 1 := by
  unfold headerLine
  rw [countLines_append, countLines_append, countLines_append, countLines_append,
    countLines_int, countLines_nat]
  rfl

theorem countLines_literals (c : Clause) :
    countLines (String.join (c.map (fun lit => toString lit ++ " "))) = 0 := by
  induction c with
  | nil => rfl
  | cons a c ih =>
    rw [List.map_cons, join_cons, countLines_append, countLines_append, countLines_int, ih]
    rfl

theorem countLines_clauseLine (c : Clause) : countLines (clauseLine c) = 1 := by
  unfold clauseLine
  rw [countLines_append, countLines_literals]
  rfl

theorem countLines_clauseLines (f : Formula) :
    countLines (String.join (f.map clauseLine)) = f.length := by
  induction f with
  | nil => rfl
  | cons c f ih =>
    rw [List.map_cons, join_cons, countLines_append, countLines_clauseLine, ih, List.length_cons]
    omega

theorem countLines_DIMACS (st : State) (res : TseitinRes) :
    countLines (DIMACS st res) = res.formula.length + 1 := by
  rw [DIMACS_eq, countLines_append, countLines_headerLine, countLines_clauseLines]
  omega

/-! ## The fuel given by `parse` and `tokenize` is never exhausted -/

theorem length_dropWhile_le (p : Char → Bool) (l : List Char) :
    (l.dropWhile p).length ≤ l.length := by
  induction l with
  | nil => exact le_refl _
  | cons a l ih =>
    rw [List.dropWhile_cons]
    split
    · exact Nat.le_succ_of_le ih
    · exact le_refl _

theorem parseFuel_pos_le (fuel : Nat) : ∀ (tokens : List Token) (pos : Nat) (node : ASTNode)
    (p : Nat), parseFuel fuel tokens pos = Except.ok (node, p) → pos ≤ p := by
  induction fuel with
  | zero => intro tokens pos node p h; simp [parseFuel] at h
  | succ fuel ih =>
    intro tokens pos node p h
    simp only [parseFuel] at h
    split at h
    · cases h; exact le_refl _
    · next tok htok =>
      split at h
      · split at h
        · cases h
        · next operand pos1 hop =>
          cases h
          have := ih _ _ _ _ hop
          omega
      · cases h; omega
      · split at h
        · cases h
        · next left pos1 hleft =>
          split at h
          · cases h
          · split at h
            · cases h
            · next right pos2 hright =>
              cases h
              have h1 := ih _ _ _ _ hleft
              have h2 := ih _ _ _ _ hright
              omega
      · cases h; exact le_refl _

theorem parseFuel_enough (fuel : Nat) : ∀ (tokens : List Token) (pos : Nat),
    1 ≤ fuel → tokens.length + 1 ≤ pos + fuel →
    parseFuel fuel tokens pos ≠ Except.error Failure.outOfFuel := by
  induction fuel with
  | zero => intro tokens pos h; omega
  | succ fuel ih =>
    intro tokens pos _ hf h
    simp only [parseFuel] at h
    split at h
    · cases h
    · next tok htok =>
      have hlt : pos < tokens.length := by
        by_contra hc
        rw [List.get?_eq_none.2 (by omega)] at htok
        cases htok
      split at h
      · split at h
        · next e he =>
          cases h
          exact ih tokens (pos + 1) (by omega) (by omega) he
        · cases h
      · cases h
      · split at h
        · next e he =>
          cases h
          exact ih tokens (pos + 1) (by omega) (by omega) he
        · next left pos1 hleft =>
          have hle := parseFuel_pos_le _ _ _ _ _ hleft
          split at h
          · cases h
          · next opToken hop =>
            have hlt1 : pos1 < tokens.length := by
              by_contra hc
              rw [List.get?_eq_none.2 (by omega)] at hop
              cases hop
            split at h
            · next e he =>
              cases h
              exact ih tokens (pos1 + 1) (by omega) (by omega) he
            · cases h
      · cases h

theorem parse_fuel_enough (tokens : List Token) (pos : Nat) :
    parse tokens pos ≠ Except.error Failure.outOfFuel :=
  parseFuel_enough _ tokens pos (by omega) (by omega)

theorem isWordChar_of_isalpha {c : Char} (h : isalpha c = true) : isWordChar c = true := by
  simp [isWordChar, isalnum, h]

theorem tokenizeLoop_enough (fuel : Nat) : ∀ (cs : List Char) (tokens : List Token),
    cs.length < fuel → tokenizeLoop fuel cs tokens ≠ Except.error Failure.outOfFuel := by
  induction fuel with
  | zero => intro cs tokens h; omega
  | succ fuel ih =>
    intro cs tokens hlen h
    simp only [tokenizeLoop] at h
    split at h
    · cases h
    · next a as =>
      have hd := length_dropWhile_le isspace (a :: as)
      split at h
      · cases h
      · next c rest hrest =>
        rw [hrest] at hd
        simp only [List.length_cons] at hd hlen
        split at h
        · exact ih rest _ (by omega) h
        · split at h
          · exact ih rest _ (by omega) h
          · split at h
            · next hal =>
              have hd2 := length_dropWhile_le isWordChar rest
              rw [List.dropWhile_cons, if_pos (isWordChar_of_isalpha hal)] at h
              exact ih _ _ (by omega) h
            · cases h

theorem tokenize_fuel_enough (formula : String) :
    tokenize formula ≠ Except.error Failure.outOfFuel :=
  tokenizeLoop_enough _ _ _ (by cases formula; exact Nat.lt_succ_self _)

/-! ## The pipeline on the examples of the specification -/

/-- C3: on the input `(A AND B)` the pipeline tokenizes, parses from position 0, encodes from
the fresh state giving `A` the id 1, `B` the id 2 and the `AND` node the auxiliary id 3, appends
the unit clause of the root, and `DIMACS` writes exactly the five lines `p cnf 3 4`, `-3 1 0`,
`-3 2 0`, `3 -1 -2 0`, `3 0` (after the prompt that `main` prints first). -/
theorem pipeline_and_example :
    tokenize "(A AND B)" =
        Except.ok [⟨TokenType.LP_t, "("⟩, ⟨TokenType.VAR_t, "A"⟩, ⟨TokenType.AND_t, "AND"⟩,
          ⟨TokenType.VAR_t, "B"⟩, ⟨TokenType.RP_t, ")"⟩] ∧
      parse [⟨TokenType.LP_t, "("⟩, ⟨TokenType.VAR_t, "A"⟩, ⟨TokenType.AND_t, "AND"⟩,
          ⟨TokenType.VAR_t, "B"⟩, ⟨TokenType.RP_t, ")"⟩] 0 =
        Except.ok (ASTNode.node NodeType.AND ""
          (ASTNode.node NodeType.VAR "A" ASTNode.null ASTNode.null)
          (ASTNode.node NodeType.VAR "B" ASTNode.null ASTNode.null), 5) ∧
      encode (ASTNode.node NodeType.AND ""
          (ASTNode.node NodeType.VAR "A" ASTNode.null ASTNode.null)
          (ASTNode.node NodeType.VAR "B" ASTNode.null ASTNode.null)) State.fresh =
        Except.ok (⟨3, [[-3, 1], [-3, 2], [3, -1, -2]]⟩, ⟨4, [("B", 2), ("A", 1)]⟩) ∧
      leafIds (ASTNode.node NodeType.AND ""
          (ASTNode.node NodeType.VAR "A" ASTNode.null ASTNode.null)
          (ASTNode.node NodeType.VAR "B" ASTNode.null ASTNode.null)) State.fresh =
        [("A", 1), ("B", 2)] ∧
      DIMACS ⟨4, [("B", 2), ("A", 1)]⟩ ⟨3, [[-3, 1], [-3, 2], [3, -1, -2]] ++ [[3]]⟩ =
        "p cnf 3 4\n-3 1 0\n-3 2 0\n3 -1 -2 0\n3 0\n" ∧
      main "(A AND B)" =
        Except.ok ("Enter a formula:\n" ++ "p cnf 3 4\n-3 1 0\n-3 2 0\n3 -1 -2 0\n3 0\n") :=
  ⟨rfl, rfl, rfl, rfl, rfl, rfl⟩

/-- C8: for every clause list and every counter value, the text written by `DIMACS` is the
header `p cnf <counter-1> <number of clauses>` and a newline, followed for each clause in order
by each of its literals in order, written in decimal with a sign and followed by one space,
then `0` and a newline, and nothing else.  For the input `A` (root 1, clauses `[[1]]`, counter
2) the text is `p cnf 1 1` then `1 0`. -/
theorem DIMACS_shape :
    (∀ (st : State) (res : TseitinRes),
      DIMACS st res =
        ("p cnf " ++ toString (st.varCount - 1) ++ " " ++ toString res.formula.length ++ "\n") ++
          String.join (res.formula.map
            (fun clause => String.join (clause.map (fun lit => toString lit ++ " ")) ++ "0\n"))) ∧
      encode (ASTNode.node NodeType.VAR "A" ASTNode.null ASTNode.null) State.fresh =
        Except.ok (⟨1, []⟩, ⟨2, [("A", 1)]⟩) ∧
      DIMACS ⟨2, [("A", 1)]⟩ ⟨1, [[1]]⟩ = "p cnf 1 1\n1 0\n" ∧
      main "A" = Except.ok ("Enter a formula:\n" ++ "p cnf 1 1\n1 0\n") :=
  ⟨fun st res => DIMACS_eq st res, rfl, rfl, rfl⟩

/-- C9, the code at the failing input `(A AND)`: `parse` returns an `AND` node whose right
operand is the null pointer, with no failure reported, and `main` then hands that tree to
`encode`, which reads through the null pointer. -/
theorem parse_missing_operand :
    tokenize "(A AND)" =
        Except.ok [⟨TokenType.LP_t, "("⟩, ⟨TokenType.VAR_t, "A"⟩, ⟨TokenType.AND_t, "AND"⟩,
          ⟨TokenType.RP_t, ")"⟩] ∧
      parse [⟨TokenType.LP_t, "("⟩, ⟨TokenType.VAR_t, "A"⟩, ⟨TokenType.AND_t, "AND"⟩,
          ⟨TokenType.RP_t, ")"⟩] 0 =
        Except.ok (ASTNode.node NodeType.AND ""
          (ASTNode.node NodeType.VAR "A" ASTNode.null ASTNode.null) ASTNode.null, 4) ∧
      wellFormed (ASTNode.node NodeType.AND ""
          (ASTNode.node NodeType.VAR "A" ASTNode.null ASTNode.null) ASTNode.null) = false ∧
      encode (ASTNode.node NodeType.AND ""
          (ASTNode.node NodeType.VAR "A" ASTNode.null ASTNode.null) ASTNode.null) State.fresh =
        Except.error Failure.undefinedBehaviour ∧
      main "(A AND)" = Except.error Failure.undefinedBehaviour :=
  ⟨rfl, rfl, rfl, rfl, rfl⟩

/-- C10 fails as stated: on the tokens of `A AND B AND C` the parser started at position 0 does
not fail; it returns the `VAR` node of `A`, and `main` goes on to print the CNF of `A` alone. -/
theorem chain_not_rejected :
    tokenize "A AND B AND C" = Except.ok (chainTokens "A" [(true, "B"), (true, "C")]) ∧
      ¬ parseFails (parse (chainTokens "A" [(true, "B"), (true, "C")]) 0) = true ∧
      main "A AND B AND C" = Except.ok ("Enter a formula:\n" ++ "p cnf 1 1\n1 0\n") :=
  ⟨rfl, by decide, rfl⟩

/-- C10 as amended: on every token sequence made of two or more identifiers joined by `AND`/`OR`
operator tokens with no parentheses, `parse` started at position 0 returns the `VAR` node of the
first identifier and leaves the cursor at 1; the remaining tokens are not read. -/
theorem parse_chain (first : String) (op : Bool × String) (ops : List (Bool × String)) :
    parse (chainTokens first (op :: ops)) 0 =
      Except.ok (ASTNode.node NodeType.VAR first ASTNode.null ASTNode.null, 1) :=
  rfl

/-! ## Accounting of ids and clauses -/

theorem enc_encode {t : ASTNode} {st st' : State} {res : TseitinRes} (h : Enc t st res st') :
    encode t st = Except.ok (res, st') := by
  induction h with
  | varOld h => simp only [encode, h]
  | varNew h => simp only [encode, h]
  | not h ih => simp only [encode, ih]
  | and hl hr ihl ihr => simp only [encode, ihl, ihr]
  | or hl hr ihl ihr => simp only [encode, ihl, ihr]

/-- Every leaf is given the id that the final registry stores for its name. -/
theorem Enc.leafIds_lookup {t : ASTNode} {st st' : State} {res : TseitinRes}
    (h : Enc t st res st') (hi : st.Inv) :
    ∀ p ∈ leafIds t st, st'.varMap.lookup p.1 = some p.2 := by
  induction h with
  | @varOld value l r st v h =>
    intro p hp
    simp only [leafIds, encode, h, List.mem_singleton] at hp
    subst hp
    exact h
  | @varNew value l r st h =>
    intro p hp
    simp only [leafIds, encode, h, List.mem_singleton] at hp
    subst hp
    show ((value, st.varCount) :: st.varMap).lookup value = some st.varCount
    rw [lookup_cons_eq, if_pos rfl]
  | @not value l r st st1 sub h ih =>
    intro p hp
    simp only [leafIds] at hp
    exact ih hi p hp
  | @and value l r st st1 st2 leftRes rightRes hl hr ihl ihr =>
    intro p hp
    obtain ⟨hi1, -, -, -, -, -⟩ := hl.facts hi
    obtain ⟨-, -, hext2, -, -, -⟩ := hr.facts hi1
    simp only [leafIds, enc_encode hl, List.mem_append] at hp
    rcases hp with hp | hp
    · exact hext2 _ _ (ihl hi p hp)
    · exact ihr hi1 p hp
  | @or value l r st st1 st2 leftRes rightRes hl hr ihl ihr =>
    intro p hp
    obtain ⟨hi1, -, -, -, -, -⟩ := hl.facts hi
    obtain ⟨-, -, hext2, -, -, -⟩ := hr.facts hi1
    simp only [leafIds, enc_encode hl, List.mem_append] at hp
    rcases hp with hp | hp
    · exact hext2 _ _ (ihl hi p hp)
    · exact ihr hi1 p hp

/-- The leaves listed by `leafIds` are the `VAR` leaves of the tree, in order. -/
theorem Enc.leafIds_names {t : ASTNode} {st st' : State} {res : TseitinRes}
    (h : Enc t st res st') : (leafIds t st).map Prod.fst = names t := by
  induction h with
  | varOld h => simp only [leafIds, encode, h, names, List.map_cons, List.map_nil]
  | varNew h => simp only [leafIds, encode, h, names, List.map_cons, List.map_nil]
  | not h ih => simp only [leafIds, names, ih]
  | and hl hr ihl ihr => simp only [leafIds, enc_encode hl, names, List.map_append, ihl, ihr]
  | or hl hr ihl ihr => simp only [leafIds, enc_encode hl, names, List.map_append, ihl, ihr]

/-- The counter grows by one per new registry entry and one per `NOT`/`AND`/`OR` node, and the
registry ends with the old names and the names of the tree. -/
theorem Enc.count {t : ASTNode} {st st' : State} {res : TseitinRes} (h : Enc t st res st') :
    st'.varCount - (st'.varMap.length : Int) =
        st.varCount - (st.varMap.length : Int) +
          ((countNot t + countAnd t + countOr t : Nat) : Int) ∧
      ∀ n, n ∈ st'.varMap.map Prod.fst ↔ n ∈ st.varMap.map Prod.fst ∨ n ∈ names t := by
  induction h with
  | @varOld value l r st v h =>
    refine ⟨by simp [countNot, countAnd, countOr], ?_⟩
    intro n
    simp only [names, List.mem_singleton]
    constructor
    · exact fun hn => Or.inl hn
    · rintro (hn | hn)
      · exact hn
      · rw [hn]; exact (lookup_isSome_iff _ _).1 ⟨v, h⟩
  | @varNew value l r st h =>
    refine ⟨?_, ?_⟩
    · simp only [countNot, countAnd, countOr, List.length_cons]
      push_cast
      omega
    · intro n
      simp only [names, List.mem_singleton, List.map_cons, List.mem_cons]
      tauto
  | @not value l r st st1 sub h ih =>
    obtain ⟨h1, h2⟩ := ih
    refine ⟨?_, ?_⟩
    · simp only [countNot, countAnd, countOr]
      push_cast at h1 ⊢
      omega
    · intro n
      simp only [names]
      exact h2 n
  | @and value l r st st1 st2 leftRes rightRes hl hr ihl ihr =>
    obtain ⟨h1, h2⟩ := ihl
    obtain ⟨h3, h4⟩ := ihr
    refine ⟨?_, ?_⟩
    · simp only [countNot, countAnd, countOr]
      push_cast at h1 h3 ⊢
      omega
    · intro n
      simp only [names, List.mem_append]
      rw [show (n ∈ List.map Prod.fst st2.varMap) ↔ _ from h4 n, h2 n]
      tauto
  | @or value l r st st1 st2 leftRes rightRes hl hr ihl ihr =>
    obtain ⟨h1, h2⟩ := ihl
    obtain ⟨h3, h4⟩ := ihr
    refine ⟨?_, ?_⟩
    · simp only [countNot, countAnd, countOr]
      push_cast at h1 h3 ⊢
      omega
    · intro n
      simp only [names, List.mem_append]
      rw [show (n ∈ List.map Prod.fst st2.varMap) ↔ _ from h4 n, h2 n]
      tauto

/-- The result variable is the last id allocated, unless it was found in the starting
registry. -/
theorem Enc.root {t : ASTNode} {st st' : State} {res : TseitinRes} (h : Enc t st res st') :
    res.var = st'.varCount - 1 ∨ ∃ n, st.varMap.lookup n = some res.var := by
  cases h with
  | varOld h => exact Or.inr ⟨_, h⟩
  | varNew h => left; show st.varCount = st.varCount + 1 - 1; omega
  | @not value l r st st1 sub h => left; show st1.varCount = st1.varCount + 1 - 1; omega
  | @and value l r st st1 st2 leftRes rightRes hl hr =>
    left; show st2.varCount = st2.varCount + 1 - 1; omega
  | @or value l r st st1 st2 leftRes rightRes hl hr =>
    left; show st2.varCount = st2.varCount + 1 - 1; omega

/-- Two clauses per `NOT` node and three per `AND` and per `OR` node, whatever the state. -/
theorem Enc.length {t : ASTNode} {st st' : State} {res : TseitinRes} (h : Enc t st res st') :
    res.formula.length = 2 * countNot t + 3 * countAnd t + 3 * countOr t := by
  induction h with
  | varOld h => simp [countNot, countAnd, countOr]
  | varNew h => simp [countNot, countAnd, countOr]
  | not h ih =>
    simp only [countNot, countAnd, countOr, List.length_append, List.length_cons,
      List.length_nil, ih]
    omega
  | and hl hr ihl ihr =>
    simp only [countNot, countAnd, countOr, List.length_append, List.length_cons,
      List.length_nil, ihl, ihr]
    omega
  | or hl hr ihl ihr =>
    simp only [countNot, countAnd, countOr, List.length_append, List.length_cons,
      List.length_nil, ihl, ihr]
    omega

/-- C4: encoding a well-formed tree from the fresh state, every `VAR` leaf receives an id, and
two leaves receive the same id if and only if they carry the same name; for `(A AND A)` both
occurrences of `A` get id 1, the auxiliary variable is 2 and the clauses are `[-2, 1]`,
`[-2, 1]`, `[2, -1, -1]`. -/
theorem registry_consistent (t : ASTNode) (hwf : wellFormed t = true) :
    ((leafIds t State.fresh).map Prod.fst = names t ∧
      ∀ p ∈ leafIds t State.fresh, ∀ q ∈ leafIds t State.fresh, (p.2 = q.2 ↔ p.1 = q.1)) ∧
    (leafIds (ASTNode.node NodeType.AND ""
        (ASTNode.node NodeType.VAR "A" ASTNode.null ASTNode.null)
        (ASTNode.node NodeType.VAR "A" ASTNode.null ASTNode.null)) State.fresh =
        [("A", 1), ("A", 1)] ∧
      encode (ASTNode.node NodeType.AND ""
        (ASTNode.node NodeType.VAR "A" ASTNode.null ASTNode.null)
        (ASTNode.node NodeType.VAR "A" ASTNode.null ASTNode.null)) State.fresh =
        Except.ok (⟨2, [[-2, 1], [-2, 1], [2, -1, -1]]⟩, ⟨3, [("A", 1)]⟩)) := by
  obtain ⟨res, st', he⟩ := encode_total t State.fresh hwf
  have henc := encode_enc t _ _ _ he
  obtain ⟨hi', -, -, -, -, -⟩ := henc.facts State.fresh_inv
  have hlk := henc.leafIds_lookup State.fresh_inv
  refine ⟨⟨henc.leafIds_names, ?_⟩, rfl, rfl⟩
  intro p hp q hq
  constructor
  · intro hpq
    have h1 := hlk p hp
    have h2 := hlk q hq
    rw [hpq] at h1
    exact hi'.inj _ _ _ h1 h2
  · intro hpq
    have h1 := hlk p hp
    have h2 := hlk q hq
    rw [hpq, h2] at h1
    exact (Option.some.inj h1).symm

theorem registry_consistent_witness :
    wellFormed (ASTNode.node NodeType.OR ""
        (ASTNode.node NodeType.AND "" (ASTNode.node NodeType.VAR "x" ASTNode.null ASTNode.null)
          (ASTNode.node NodeType.VAR "y" ASTNode.null ASTNode.null))
        (ASTNode.node NodeType.NOT "" (ASTNode.node NodeType.VAR "x" ASTNode.null ASTNode.null)
          ASTNode.null)) = true ∧
      leafIds (ASTNode.node NodeType.OR ""
        (ASTNode.node NodeType.AND "" (ASTNode.node NodeType.VAR "x" ASTNode.null ASTNode.null)
          (ASTNode.node NodeType.VAR "y" ASTNode.null ASTNode.null))
        (ASTNode.node NodeType.NOT "" (ASTNode.node NodeType.VAR "x" ASTNode.null ASTNode.null)
          ASTNode.null)) State.fresh = [("x", 1), ("y", 2), ("x", 1)] ∧
      ∀ p ∈ leafIds (ASTNode.node NodeType.OR ""
        (ASTNode.node NodeType.AND "" (ASTNode.node NodeType.VAR "x" ASTNode.null ASTNode.null)
          (ASTNode.node NodeType.VAR "y" ASTNode.null ASTNode.null))
        (ASTNode.node NodeType.NOT "" (ASTNode.node NodeType.VAR "x" ASTNode.null ASTNode.null)
          ASTNode.null)) State.fresh,
        ∀ q ∈ leafIds (ASTNode.node NodeType.OR ""
        (ASTNode.node NodeType.AND "" (ASTNode.node NodeType.VAR "x" ASTNode.null ASTNode.null)
          (ASTNode.node NodeType.VAR "y" ASTNode.null ASTNode.null))
        (ASTNode.node NodeType.NOT "" (ASTNode.node NodeType.VAR "x" ASTNode.null ASTNode.null)
          ASTNode.null)) State.fresh, (p.2 = q.2 ↔ p.1 = q.1) :=
  ⟨rfl, rfl, (registry_consistent (ASTNode.node NodeType.OR ""
        (ASTNode.node NodeType.AND "" (ASTNode.node NodeType.VAR "x" ASTNode.null ASTNode.null)
          (ASTNode.node NodeType.VAR "y" ASTNode.null ASTNode.null))
        (ASTNode.node NodeType.NOT "" (ASTNode.node NodeType.VAR "x" ASTNode.null ASTNode.null)
          ASTNode.null)) rfl).1.2⟩

/-- C5: encoding a well-formed tree from the fresh state, the final counter minus one, which is
the number `DIMACS` prints as `<numVars>`, equals the number of distinct names of the tree plus
the number of its `NOT`, `AND` and `OR` nodes. -/
theorem variable_count (t : ASTNode) (hwf : wellFormed t = true) :
    ∃ res st', encode t State.fresh = Except.ok (res, st') ∧
      st'.varCount - 1 =
        (((names t).dedup.length + (countNot t + countAnd t + countOr t) : Nat) : Int) ∧
      DIMACS st' ⟨res.var, res.formula ++ [[res.var]]⟩ =
        headerLine (((names t).dedup.length + (countNot t + countAnd t + countOr t) : Nat) : Int)
            (res.formula ++ [[res.var]]).length ++
          String.join ((res.formula ++ [[res.var]]).map clauseLine) := by
  obtain ⟨res, st', he⟩ := encode_total t State.fresh hwf
  have henc := encode_enc t _ _ _ he
  obtain ⟨hi', -, -, -, -, -⟩ := henc.facts State.fresh_inv
  obtain ⟨hcount, hkeys⟩ := henc.count
  have hlen : (st'.varMap.map Prod.fst).length = (names t).dedup.length := by
    rw [← List.toFinset_card_of_nodup hi'.nodup, ← List.card_toFinset]
    congr 1
    ext n
    simp only [List.mem_toFinset]
    rw [hkeys n]
    simp [State.fresh]
  have hnum : st'.varCount - 1 =
      (((names t).dedup.length + (countNot t + countAnd t + countOr t) : Nat) : Int) := by
    rw [List.length_map] at hlen
    simp only [State.fresh, List.length_nil] at hcount
    push_cast at hcount ⊢
    omega
  refine ⟨res, st', he, hnum, ?_⟩
  rw [DIMACS_eq, hnum]

theorem variable_count_witness :
    wellFormed (ASTNode.node NodeType.AND ""
        (ASTNode.node NodeType.VAR "A" ASTNode.null ASTNode.null)
        (ASTNode.node NodeType.NOT "" (ASTNode.node NodeType.VAR "A" ASTNode.null ASTNode.null)
          ASTNode.null)) = true ∧
      ∃ res st', encode (ASTNode.node NodeType.AND ""
        (ASTNode.node NodeType.VAR "A" ASTNode.null ASTNode.null)
        (ASTNode.node NodeType.NOT "" (ASTNode.node NodeType.VAR "A" ASTNode.null ASTNode.null)
          ASTNode.null)) State.fresh = Except.ok (res, st') ∧
      st'.varCount - 1 = ((1 + (1 + 1 + 0) : Nat) : Int) ∧
      DIMACS st' ⟨res.var, res.formula ++ [[res.var]]⟩ =
        headerLine ((1 + (1 + 1 + 0) : Nat) : Int) (res.formula ++ [[res.var]]).length ++
          String.join ((res.formula ++ [[res.var]]).map clauseLine) :=
  ⟨rfl, variable_count _ rfl⟩

theorem abs_bounds {l N : Int} (h : l ≠ 0 ∧ -N < l ∧ l < N) : 1 ≤ |l| ∧ |l| ≤ N - 1 := by
  constructor
  · exact Int.one_le_abs h.1
  · rw [abs_le]; omega

/-- C6: encoding a well-formed tree from the fresh state, every literal of the final formula
(the clauses of `encode` followed by the unit clause of the root) is nonzero with magnitude
between 1 and the final counter minus one, the number `DIMACS` prints as `<numVars>`, and that
number is the magnitude of a literal that occurs. -/
theorem literal_bounds (t : ASTNode) (hwf : wellFormed t = true) :
    ∃ res st', encode t State.fresh = Except.ok (res, st') ∧
      (∀ c ∈ res.formula ++ [[res.var]], ∀ l ∈ c,
        l ≠ 0 ∧ 1 ≤ |l| ∧ |l| ≤ st'.varCount - 1) ∧
      (∃ c ∈ res.formula ++ [[res.var]], ∃ l ∈ c, |l| = st'.varCount - 1) ∧
      DIMACS st' ⟨res.var, res.formula ++ [[res.var]]⟩ =
        headerLine (st'.varCount - 1) (res.formula ++ [[res.var]]).length ++
          String.join ((res.formula ++ [[res.var]]).map clauseLine) := by
  obtain ⟨res, st', he⟩ := encode_total t State.fresh hwf
  have henc := encode_enc t _ _ _ he
  obtain ⟨-, -, -, hv, hlits, -⟩ := henc.facts State.fresh_inv
  have hroot : res.var = st'.varCount - 1 := by
    rcases henc.root with h | ⟨n, h⟩
    · exact h
    · simp [State.fresh] at h
  refine ⟨res, st', he, ?_, ?_, DIMACS_eq _ _⟩
  · intro c hc l hl
    rcases List.mem_append.1 hc with h | h
    · exact ⟨(hlits c h l hl).1, abs_bounds (hlits c h l hl)⟩
    · rw [List.mem_singleton] at h
      rw [h, List.mem_singleton] at hl
      have hb : l ≠ 0 ∧ -st'.varCount < l ∧ l < st'.varCount := by omega
      exact ⟨hb.1, abs_bounds hb⟩
  · refine ⟨[res.var], List.mem_append.2 (Or.inr (List.mem_singleton.2 rfl)), res.var,
      List.mem_singleton.2 rfl, ?_⟩
    rw [abs_of_pos (by omega)]
    exact hroot

theorem literal_bounds_witness :
    wellFormed (ASTNode.node NodeType.NOT ""
        (ASTNode.node NodeType.VAR "A" ASTNode.null ASTNode.null) ASTNode.null) = true ∧
      ∃ res st', encode (ASTNode.node NodeType.NOT ""
        (ASTNode.node NodeType.VAR "A" ASTNode.null ASTNode.null) ASTNode.null) State.fresh =
          Except.ok (res, st') ∧
      (∀ c ∈ res.formula ++ [[res.var]], ∀ l ∈ c,
        l ≠ 0 ∧ 1 ≤ |l| ∧ |l| ≤ st'.varCount - 1) ∧
      (∃ c ∈ res.formula ++ [[res.var]], ∃ l ∈ c, |l| = st'.varCount - 1) ∧
      DIMACS st' ⟨res.var, res.formula ++ [[res.var]]⟩ =
        headerLine (st'.varCount - 1) (res.formula ++ [[res.var]]).length ++
          String.join ((res.formula ++ [[res.var]]).map clauseLine) :=
  ⟨rfl, literal_bounds _ rfl⟩

/-- C7: for a well-formed tree and any state of the counter and registry, the formula returned
by `encode` has exactly `2 * #NOT + 3 * #AND + 3 * #OR` clauses; after the unit clause is
appended, the `<numClauses>` that `DIMACS` prints is that number plus one, and it is the number
of clause lines written after the header line. -/
theorem clause_count (t : ASTNode) (st : State) (hwf : wellFormed t = true) :
    ∃ res st', encode t st = Except.ok (res, st') ∧
      res.formula.length = 2 * countNot t + 3 * countAnd t + 3 * countOr t ∧
      DIMACS st' ⟨res.var, res.formula ++ [[res.var]]⟩ =
        headerLine (st'.varCount - 1) (2 * countNot t + 3 * countAnd t + 3 * countOr t + 1) ++
          String.join ((res.formula ++ [[res.var]]).map clauseLine) ∧
      ((res.formula ++ [[res.var]]).map clauseLine).length =
        2 * countNot t + 3 * countAnd t + 3 * countOr t + 1 ∧
      countLines (DIMACS st' ⟨res.var, res.formula ++ [[res.var]]⟩) =
        1 + (2 * countNot t + 3 * countAnd t + 3 * countOr t + 1) := by
  obtain ⟨res, st', he⟩ := encode_total t st hwf
  have hlen := (encode_enc t _ _ _ he).length
  have hlen1 : (res.formula ++ [[res.var]]).length =
      2 * countNot t + 3 * countAnd t + 3 * countOr t + 1 := by
    rw [List.length_append, hlen]
    rfl
  refine ⟨res, st', he, hlen, ?_, ?_, ?_⟩
  · rw [DIMACS_eq]
    show headerLine (st'.varCount - 1) (res.formula ++ [[res.var]]).length ++ _ = _
    rw [hlen1]
  · rw [List.length_map, hlen1]
  · rw [countLines_DIMACS]
    show (res.formula ++ [[res.var]]).length + 1 = _
    rw [hlen1]
    omega

theorem clause_count_witness :
    wellFormed (ASTNode.node NodeType.OR ""
        (ASTNode.node NodeType.NOT "" (ASTNode.node NodeType.VAR "A" ASTNode.null ASTNode.null)
          ASTNode.null)
        (ASTNode.node NodeType.VAR "B" ASTNode.null ASTNode.null)) = true ∧
      ∃ res st', encode (ASTNode.node NodeType.OR ""
        (ASTNode.node NodeType.NOT "" (ASTNode.node NodeType.VAR "A" ASTNode.null ASTNode.null)
          ASTNode.null)
        (ASTNode.node NodeType.VAR "B" ASTNode.null ASTNode.null)) ⟨7, [("B", 3)]⟩ =
          Except.ok (res, st') ∧
      res.formula.length = 2 * 1 + 3 * 0 + 3 * 1 ∧
      DIMACS st' ⟨res.var, res.formula ++ [[res.var]]⟩ =
        headerLine (st'.varCount - 1) (2 * 1 + 3 * 0 + 3 * 1 + 1) ++
          String.join ((res.formula ++ [[res.var]]).map clauseLine) ∧
      ((res.formula ++ [[res.var]]).map clauseLine).length = 2 * 1 + 3 * 0 + 3 * 1 + 1 ∧
      countLines (DIMACS st' ⟨res.var, res.formula ++ [[res.var]]⟩) =
        1 + (2 * 1 + 3 * 0 + 3 * 1 + 1) :=
  ⟨rfl, clause_count _ _ rfl⟩

/-! ## Lexical errors and the END token -/

theorem isspace_of_isWordChar {c : Char} (h : isWordChar c = true) : isspace c = false := by
  simp only [isWordChar, isalnum, isalpha, Bool.or_eq_true, Bool.and_eq_true,
    decide_eq_true_eq] at h
  rcases h with (h | h) | h
  · simp only [isspace, Bool.or_eq_false_iff, Bool.and_eq_false_iff, decide_eq_false_iff_not]
    omega
  · simp only [isspace, Bool.or_eq_false_iff, Bool.and_eq_false_iff, decide_eq_false_iff_not]
    omega
  · subst h; decide

theorem ne_paren_of_isWordChar {c : Char} (h : isWordChar c = true) : c ≠ '(' ∧ c ≠ ')' := by
  constructor <;> rintro rfl <;> revert h <;> decide

theorem ne_paren_of_isspace {c : Char} (h : isspace c = true) : c ≠ '(' ∧ c ≠ ')' := by
  constructor <;> rintro rfl <;> revert h <;> decide

theorem lexBad_dropSpace (cs : List Char) :
    lexBad false (cs.dropWhile isspace) = lexBad false cs := by
  induction cs with
  | nil => rfl
  | cons a cs ih =>
    rw [List.dropWhile_cons]
    split
    · next h =>
      rw [ih]
      have hw : isWordChar a = false := by
        cases hw : isWordChar a
        · rfl
        · rw [isspace_of_isWordChar hw] at h; cases h
      simp [lexBad, hw, h]
    · rfl

theorem lexBad_true_nonword {c : Char} (cs : List Char) (h : isWordChar c = false) :
    lexBad true (c :: cs) = lexBad false (c :: cs) := by
  simp [lexBad, h]

theorem lexBad_dropWord (cs : List Char) :
    lexBad false (cs.dropWhile isWordChar) = lexBad true cs := by
  induction cs with
  | nil => rfl
  | cons a cs ih =>
    rw [List.dropWhile_cons]
    split
    · next h =>
      rw [ih]
      simp [lexBad, h]
    · next h =>
      have h' : isWordChar a = false := by simpa using h
      rw [lexBad_true_nonword cs h']

theorem tokenizeLoop_lexBad (fuel : Nat) : ∀ (cs : List Char) (tokens : List Token),
    cs.length < fuel →
      (lexBad false cs = true → ∃ c, tokenizeLoop fuel cs tokens =
        Except.error (Failure.unexpectedChar c)) ∧
      (lexBad false cs = false → ∃ ts, tokenizeLoop fuel cs tokens = Except.ok ts) := by
  induction fuel with
  | zero => intro cs tokens h; omega
  | succ fuel ih =>
    intro cs tokens hlen
    simp only [tokenizeLoop]
    split
    · exact ⟨fun h => by simp [lexBad] at h, fun _ => ⟨_, rfl⟩⟩
    · next a as =>
      have hd := length_dropWhile_le isspace (a :: as)
      rw [← lexBad_dropSpace]
      split
      · next hnil =>
        rw [hnil]
        exact ⟨fun h => by simp [lexBad] at h, fun _ => ⟨_, rfl⟩⟩
      · next c rest hrest =>
        rw [hrest] at hd ⊢
        simp only [List.length_cons] at hd hlen
        have hsp : isspace c = false := by
          have := List.head_dropWhile_not isspace (a :: as) (by rw [hrest]; simp)
          simpa [hrest] using this
        split
        · next hc =>
          subst hc
          have : lexBad false ('(' :: rest) = lexBad false rest := by
            simp [lexBad, show isWordChar '(' = false by decide]
          rw [this]
          exact ih rest _ (by omega)
        · split
          · next hc =>
            subst hc
            have : lexBad false (')' :: rest) = lexBad false rest := by
              simp [lexBad, show isWordChar ')' = false by decide]
            rw [this]
            exact ih rest _ (by omega)
          · next hnl hnr =>
            split
            · next hal =>
              have hd2 := length_dropWhile_le isWordChar rest
              have hw := isWordChar_of_isalpha hal
              have : lexBad false (c :: rest) = lexBad false (rest.dropWhile isWordChar) := by
                rw [lexBad_dropWord]
                simp [lexBad, hw, hal]
              rw [this, List.dropWhile_cons, if_pos hw]
              exact ih _ _ (by omega)
            · next hal =>
              have : lexBad false (c :: rest) = true := by
                simp [lexBad, hal, hsp, hnl, hnr]
              exact ⟨fun _ => ⟨c, rfl⟩, fun h => by rw [this] at h; cases h⟩

theorem cons_eq_append_singleton {a p : Char} {pre pre' : List Char}
    (h : a :: pre = pre' ++ [p]) :
    (pre = [] ∧ pre' = [] ∧ p = a) ∨ ∃ pre'', pre' = a :: pre'' ∧ pre = pre'' ++ [p] := by
  cases pre' with
  | nil =>
    simp only [List.nil_append, List.cons.injEq] at h
    exact Or.inl ⟨h.2, rfl, h.1.symm⟩
  | cons b pre'' =>
    simp only [List.cons_append, List.cons.injEq] at h
    exact Or.inr ⟨pre'', by rw [h.1], h.2⟩

theorem lexBad_iff (cs : List Char) : ∀ inWord : Bool,
    lexBad inWord cs = true ↔
      ∃ pre c post, cs = pre ++ c :: post ∧ badChar c = true ∧
        (isWordChar c = true → (pre = [] → inWord = false) ∧
          ∀ pre' p, pre = pre' ++ [p] → isWordChar p = false) := by
  induction cs with
  | nil =>
    intro inWord
    constructor
    · intro h; simp [lexBad] at h
    · rintro ⟨pre, c, post, h, -⟩
      cases pre <;> cases h
  | cons a cs ih =>
    intro inWord
    by_cases hw : isWordChar a = true
    · by_cases hf : (inWord || isalpha a) = true
      · have hstep : lexBad inWord (a :: cs) = lexBad true cs := by
          simp only [lexBad, hw, hf, if_true]
        rw [hstep, ih true]
        constructor
        · rintro ⟨pre, c, post, hcs, hbad, hcond⟩
          refine ⟨a :: pre, c, post, by rw [hcs]; rfl, hbad, ?_⟩
          intro hc
          obtain ⟨h1, h2⟩ := hcond hc
          refine ⟨fun h => absurd h (List.cons_ne_nil _ _), ?_⟩
          intro pre' p hp
          rcases cons_eq_append_singleton hp with ⟨hnil, -, -⟩ | ⟨pre'', -, hpre⟩
          · exact absurd (h1 hnil) (by decide)
          · exact h2 pre'' p hpre
        · rintro ⟨pre, c, post, hcs, hbad, hcond⟩
          cases pre with
          | nil =>
            simp only [List.nil_append, List.cons.injEq] at hcs
            obtain ⟨rfl, rfl⟩ := hcs
            exfalso
            have h1 := (hcond hw).1 rfl
            have h2 : isalpha a = false := by
              simp only [badChar, Bool.and_eq_true, Bool.not_eq_true'] at hbad
              exact hbad.2
            rw [h1, h2] at hf
            cases hf
          | cons b pre1 =>
            simp only [List.cons_append, List.cons.injEq] at hcs
            obtain ⟨rfl, rfl⟩ := hcs
            refine ⟨pre1, c, post, rfl, hbad, ?_⟩
            intro hc
            obtain ⟨-, h2⟩ := hcond hc
            refine ⟨?_, fun pre' p hp => h2 (a :: pre') p (by rw [hp]; rfl)⟩
            intro hnil
            subst hnil
            have := h2 [] a rfl
            rw [hw] at this
            cases this
      · have hstep : lexBad inWord (a :: cs) = true := by
          simp only [lexBad, hw, hf, if_true]
          rfl
        rw [hstep]
        refine ⟨fun _ => ⟨[], a, cs, rfl, ?_, ?_⟩, fun _ => rfl⟩
        · have hf' : inWord = false ∧ isalpha a = false := by
            simpa using hf
          simp [badChar, isspace_of_isWordChar hw, (ne_paren_of_isWordChar hw).1,
            (ne_paren_of_isWordChar hw).2, hf'.2]
        · intro _
          have hf' : inWord = false ∧ isalpha a = false := by
            simpa using hf
          exact ⟨fun _ => hf'.1, fun pre' p hp => by cases pre' <;> cases hp⟩
    · have hw' : isWordChar a = false := by simpa using hw
      by_cases hs : (isspace a || decide (a = '(') || decide (a = ')')) = true
      · have hstep : lexBad inWord (a :: cs) = lexBad false cs := by
          simp only [lexBad, hw', hs, if_true]
          rfl
        rw [hstep, ih false]
        constructor
        · rintro ⟨pre, c, post, hcs, hbad, hcond⟩
          refine ⟨a :: pre, c, post, by rw [hcs]; rfl, hbad, ?_⟩
          intro hc
          obtain ⟨-, h2⟩ := hcond hc
          refine ⟨fun h => absurd h (List.cons_ne_nil _ _), ?_⟩
          intro pre' p hp
          rcases cons_eq_append_singleton hp with ⟨-, -, hpa⟩ | ⟨pre'', -, hpre⟩
          · rw [hpa]; exact hw'
          · exact h2 pre'' p hpre
        · rintro ⟨pre, c, post, hcs, hbad, hcond⟩
          cases pre with
          | nil =>
            simp only [List.nil_append, List.cons.injEq] at hcs
            obtain ⟨rfl, rfl⟩ := hcs
            exfalso
            simp only [badChar, Bool.and_eq_true, Bool.not_eq_true', decide_eq_false_iff_not]
              at hbad
            simp only [Bool.or_eq_true, decide_eq_true_eq] at hs
            rcases hs with (hs | hs) | hs
            · rw [hbad.1.1.1] at hs; cases hs
            · exact hbad.1.1.2 hs
            · exact hbad.1.2 hs
          | cons b pre1 =>
            simp only [List.cons_append, List.cons.injEq] at hcs
            obtain ⟨rfl, rfl⟩ := hcs
            refine ⟨pre1, c, post, rfl, hbad, ?_⟩
            intro hc
            obtain ⟨-, h2⟩ := hcond hc
            exact ⟨fun _ => rfl, fun pre' p hp => h2 (a :: pre') p (by rw [hp]; rfl)⟩
      · have hstep : lexBad inWord (a :: cs) = true := by
          simp only [lexBad, hw', hs]
          rfl
        rw [hstep]
        refine ⟨fun _ => ⟨[], a, cs, rfl, ?_, ?_⟩, fun _ => rfl⟩
        · have hal : isalpha a = false := by
            cases hal : isalpha a
            · rfl
            · rw [isWordChar_of_isalpha hal] at hw'; cases hw'
          simp only [Bool.or_eq_true, decide_eq_true_eq, not_or] at hs
          simp [badChar, hs.1.1, hs.1.2, hs.2, hal]
        · intro hc
          rw [hw'] at hc
          cases hc

theorem beginsToken_iff (pre : List Char) (c : Char) (hb : badChar c = true) :
    beginsToken pre c ↔
      (isWordChar c = true → (pre = [] → false = false) ∧
        ∀ pre' p, pre = pre' ++ [p] → isWordChar p = false) := by
  have hsp : isspace c = false := by
    simp only [badChar, Bool.and_eq_true, Bool.not_eq_true'] at hb
    exact hb.1.1.1
  constructor
  · rintro ⟨-, h⟩ hc
    refine ⟨fun _ => rfl, ?_⟩
    intro pre' p hp
    cases hpw : isWordChar p
    · rfl
    · exact absurd ⟨hc, pre', p, hp, hpw⟩ h
  · intro h
    refine ⟨hsp, ?_⟩
    rintro ⟨hc, pre', p, hp, hpw⟩
    rw [(h hc).2 pre' p hp] at hpw
    cases hpw

theorem tokenize_lexBad (s : String) :
    (lexBad false s.data = true →
      ∃ c, tokenize s = Except.error (Failure.unexpectedChar c)) ∧
    (lexBad false s.data = false → ∃ ts, tokenize s = Except.ok ts) :=
  tokenizeLoop_lexBad _ _ _ (by cases s; exact Nat.lt_succ_self _)

theorem lexBad_false_iff (cs : List Char) :
    lexBad false cs = true ↔
      ∃ pre c post, cs = pre ++ c :: post ∧ badChar c = true ∧ beginsToken pre c := by
  rw [lexBad_iff]
  constructor
  · rintro ⟨pre, c, post, h1, h2, h3⟩
    exact ⟨pre, c, post, h1, h2, (beginsToken_iff pre c h2).2 h3⟩
  · rintro ⟨pre, c, post, h1, h2, h3⟩
    exact ⟨pre, c, post, h1, h2, (beginsToken_iff pre c h2).1 h3⟩

/-- C11: `tokenize` fails, with no token sequence returned, exactly on the inputs in which a
character other than whitespace, `(`, `)` or a letter stands where a token would begin, and
succeeds on every other input.  In particular it fails on every input that contains a
character outside letters, digits, underscore, parentheses and whitespace, and on `1A`, `_x`
and `(A & B)`. -/
theorem lexical_errors (s : String) :
    ((∃ c, tokenize s = Except.error (Failure.unexpectedChar c)) ↔
      ∃ pre c post, s.data = pre ++ c :: post ∧ badChar c = true ∧ beginsToken pre c) ∧
    ((∃ ts, tokenize s = Except.ok ts) ↔
      ¬ ∃ pre c post, s.data = pre ++ c :: post ∧ badChar c = true ∧ beginsToken pre c) ∧
    ((∃ c ∈ s.data, isWordChar c = false ∧ badChar c = true) →
      ∃ c, tokenize s = Except.error (Failure.unexpectedChar c)) ∧
    (tokenize "1A" = Except.error (Failure.unexpectedChar '1') ∧
      tokenize "_x" = Except.error (Failure.unexpectedChar '_') ∧
      tokenize "(A & B)" = Except.error (Failure.unexpectedChar '&')) := by
  obtain ⟨hbad, hgood⟩ := tokenize_lexBad s
  have hfail : (∃ c, tokenize s = Except.error (Failure.unexpectedChar c)) ↔
      ∃ pre c post, s.data = pre ++ c :: post ∧ badChar c = true ∧ beginsToken pre c := by
    rw [← lexBad_false_iff]
    constructor
    · rintro ⟨c, hc⟩
      cases hl : lexBad false s.data
      · obtain ⟨ts, hts⟩ := hgood hl
        rw [hts] at hc
        cases hc
      · rfl
    · exact hbad
  have hok : (∃ ts, tokenize s = Except.ok ts) ↔
      ¬ ∃ pre c post, s.data = pre ++ c :: post ∧ badChar c = true ∧ beginsToken pre c := by
    rw [← lexBad_false_iff]
    constructor
    · rintro ⟨ts, hts⟩ hl
      obtain ⟨c, hc⟩ := hbad hl
      rw [hts] at hc
      cases hc
    · intro hl
      exact hgood (by simpa using hl)
  refine ⟨hfail, hok, ?_, rfl, rfl, rfl⟩
  rintro ⟨c, hmem, hw, hb⟩
  obtain ⟨pre, post, hsplit⟩ := List.append_of_mem hmem
  refine hfail.2 ⟨pre, c, post, hsplit, hb, ?_, ?_⟩
  · simp only [badChar, Bool.and_eq_true, Bool.not_eq_true'] at hb
    exact hb.1.1.1
  · rintro ⟨hc, -⟩
    rw [hw] at hc
    cases hc

theorem lexical_errors_witness :
    (∃ c ∈ "A AND #".data, isWordChar c = false ∧ badChar c = true) ∧
      ∃ c, tokenize "A AND #" = Except.error (Failure.unexpectedChar c) :=
  ⟨⟨'#', by decide, by decide, by decide⟩,
    (lexical_errors "A AND #").2.2.1 ⟨'#', by decide, by decide, by decide⟩⟩

/-- C12, the code at failing inputs: no END token is produced for the empty input, for `A` or
for `(A AND B)`; the END token is pushed only when whitespace ends the input, as in the inputs
made of one space and of `A` followed by a space. -/
theorem end_token_missing :
    tokenize "" = Except.ok [] ∧
      tokenize "A" = Except.ok [⟨TokenType.VAR_t, "A"⟩] ∧
      tokenize "(A AND B)" =
        Except.ok [⟨TokenType.LP_t, "("⟩, ⟨TokenType.VAR_t, "A"⟩, ⟨TokenType.AND_t, "AND"⟩,
          ⟨TokenType.VAR_t, "B"⟩, ⟨TokenType.RP_t, ")"⟩] ∧
      tokenize " " = Except.ok [⟨TokenType.EOF_t, ""⟩] ∧
      tokenize "A " = Except.ok [⟨TokenType.VAR_t, "A"⟩, ⟨TokenType.EOF_t, ""⟩] :=
  ⟨rfl, rfl, rfl, rfl, rfl⟩

/-! ## Words -/

theorem dropWhile_isspace_append (sp rest : List Char) (c : Char)
    (hsp : ∀ x ∈ sp, isspace x = true) (hc : isspace c = false) :
    (sp ++ c :: rest).dropWhile isspace = c :: rest := by
  induction sp with
  | nil => simp [List.dropWhile_cons, hc]
  | cons a sp ih =>
    rw [List.cons_append, List.dropWhile_cons, if_pos (hsp a (List.mem_cons_self a sp))]
    exact ih (fun x hx => hsp x (List.mem_cons_of_mem a hx))

theorem takeWhile_run (ws post : List Char) (hws : ∀ x ∈ ws, isWordChar x = true)
    (hpost : ∀ x, post.head? = some x → isWordChar x = false) :
    (ws ++ post).takeWhile isWordChar = ws ∧ (ws ++ post).dropWhile isWordChar = post := by
  induction ws with
  | nil =>
    cases post with
    | nil => exact ⟨rfl, rfl⟩
    | cons b post =>
      have hb : isWordChar b = false := hpost b rfl
      simp [List.takeWhile_cons, List.dropWhile_cons, hb]
  | cons a ws ih =>
    have ha := hws a (List.mem_cons_self a ws)
    obtain ⟨h1, h2⟩ := ih (fun x hx => hws x (List.mem_cons_of_mem a hx))
    rw [List.cons_append, List.takeWhile_cons, List.dropWhile_cons, if_pos ha, if_pos ha, h1, h2]
    exact ⟨rfl, rfl⟩

/-- With the cursor of the lexer before a run, possibly after whitespace: a maximal run of word
characters that starts with a letter adds exactly one token, and the loop goes on after it. -/
theorem tokenizeLoop_word (fuel : Nat) (sp ws post : List Char) (c : Char) (tokens : List Token)
    (hsp : ∀ x ∈ sp, isspace x = true) (hc : isalpha c = true)
    (hws : ∀ x ∈ ws, isWordChar x = true)
    (hpost : ∀ x, post.head? = some x → isWordChar x = false) :
    tokenizeLoop (fuel + 1) (sp ++ c :: (ws ++ post)) tokens =
      tokenizeLoop fuel post (tokens ++ [wordToken (String.mk (c :: ws))]) := by
  have hw := isWordChar_of_isalpha hc
  have hcs := isspace_of_isWordChar hw
  have hne := ne_paren_of_isWordChar hw
  have hdrop := dropWhile_isspace_append sp (ws ++ post) c hsp hcs
  obtain ⟨ht, hd⟩ := takeWhile_run ws post hws hpost
  have hstep : ∀ cs : List Char, cs.dropWhile isspace = c :: (ws ++ post) →
      tokenizeLoop (fuel + 1) cs tokens =
        tokenizeLoop fuel post (tokens ++ [wordToken (String.mk (c :: ws))]) := by
    intro cs hcs'
    cases cs with
    | nil => cases hcs'
    | cons a as =>
      simp only [tokenizeLoop, hcs', if_neg hne.1, if_neg hne.2, hc, if_true,
        List.takeWhile_cons, List.dropWhile_cons, hw, ht, hd]
  exact hstep _ hdrop

theorem wordToken_var {w : String} (h : (wordToken w).type = TokenType.VAR_t) :
    wordToken w = ⟨TokenType.VAR_t, w⟩ ∧ w ≠ "NOT" ∧ w ≠ "AND" ∧ w ≠ "OR" := by
  unfold wordToken at h ⊢
  split_ifs at h ⊢ with h1 h2 h3
  exact ⟨rfl, h1, h2, h3⟩

/-- Every identifier token of the output is as the specification describes, provided those
already accumulated are. -/
theorem tokenizeLoop_idents (fuel : Nat) : ∀ (cs : List Char) (tokens ts : List Token),
    tokenizeLoop fuel cs tokens = Except.ok ts →
    (∀ t ∈ tokens, t.type = TokenType.VAR_t → identOK t.value) →
    ∀ t ∈ ts, t.type = TokenType.VAR_t → identOK t.value := by
  induction fuel with
  | zero => intro cs tokens ts h; simp [tokenizeLoop] at h
  | succ fuel ih =>
    intro cs tokens ts h hacc
    simp only [tokenizeLoop] at h
    split at h
    · cases h; exact hacc
    · split at h
      · cases h
        intro t ht hty
        rcases List.mem_append.1 ht with ht | ht
        · exact hacc t ht hty
        · rw [List.mem_singleton] at ht
          subst ht
          cases hty
      · next c rest hrest =>
        split at h
        · refine ih _ _ _ h ?_
          intro t ht hty
          rcases List.mem_append.1 ht with ht | ht
          · exact hacc t ht hty
          · rw [List.mem_singleton] at ht
            subst ht
            cases hty
        · split at h
          · refine ih _ _ _ h ?_
            intro t ht hty
            rcases List.mem_append.1 ht with ht | ht
            · exact hacc t ht hty
            · rw [List.mem_singleton] at ht
              subst ht
              cases hty
          · split at h
            · next hal =>
              refine ih _ _ _ h ?_
              intro t ht hty
              rcases List.mem_append.1 ht with ht | ht
              · exact hacc t ht hty
              · rw [List.mem_singleton] at ht
                subst ht
                obtain ⟨heq, h1, h2, h3⟩ := wordToken_var hty
                rw [heq]
                refine ⟨⟨c, rest.takeWhile isWordChar, ?_, hal, ?_⟩, h1, h2, h3⟩
                · show (c :: rest).takeWhile isWordChar = _
                  rw [List.takeWhile_cons, if_pos (isWordChar_of_isalpha hal)]
                · intro x hx
                  exact List.mem_takeWhile_imp hx
            · cases h

/-! ## The parser on the token rendering of a tree -/

theorem get?_append_cons (pre : List Token) (x : Token) (rest : List Token) :
    (pre ++ x :: rest).get? pre.length = some x := by
  induction pre with
  | nil => rfl
  | cons a pre ih => simpa using ih

theorem canonical_wellFormed (t : ASTNode) : canonical t = true → wellFormed t = true := by
  induction t with
  | null => intro h; cases h
  | node ty v l r ihl ihr =>
    intro h
    cases ty with
    | VAR => rfl
    | NOT =>
      simp only [canonical, Bool.and_eq_true] at h
      exact ihl h.2
    | AND =>
      simp only [canonical, Bool.and_eq_true] at h
      simp only [wellFormed, Bool.and_eq_true]
      exact ⟨ihl h.1.2, ihr h.2⟩
    | OR =>
      simp only [canonical, Bool.and_eq_true] at h
      simp only [wellFormed, Bool.and_eq_true]
      exact ⟨ihl h.1.2, ihr h.2⟩

/-- One parenthesised application, whatever token `k` stands in the operator position and
whatever token `cl` closes it, given that the operands parse. -/
theorem parseFuel_binary (l r : ASTNode) (tl tr : List Token)
    (hl : ∀ (fuel : Nat) (pre rest : List Token), tl.length ≤ fuel →
      parseFuel fuel (pre ++ (tl ++ rest)) pre.length = Except.ok (l, pre.length + tl.length))
    (hr : ∀ (fuel : Nat) (pre rest : List Token), tr.length ≤ fuel →
      parseFuel fuel (pre ++ (tr ++ rest)) pre.length = Except.ok (r, pre.length + tr.length))
    (k cl : Token) (fuel : Nat) (pre rest : List Token)
    (hf : tl.length + tr.length + 3 ≤ fuel) :
    parseFuel fuel (pre ++ (⟨TokenType.LP_t, "("⟩ :: (tl ++ (k :: (tr ++ (cl :: rest))))))
        pre.length =
      Except.ok (ASTNode.node (if k.type = TokenType.AND_t then NodeType.AND else NodeType.OR)
        "" l r, pre.length + (tl.length + tr.length + 3)) := by
  cases fuel with
  | zero => omega
  | succ f =>
    have h0 := get?_append_cons pre ⟨TokenType.LP_t, "("⟩ (tl ++ (k :: (tr ++ (cl :: rest))))
    have h1 : parseFuel f (pre ++ (⟨TokenType.LP_t, "("⟩ :: (tl ++ (k :: (tr ++ (cl :: rest))))))
        (pre.length + 1) = Except.ok (l, pre.length + 1 + tl.length) := by
      have := hl f (pre ++ [⟨TokenType.LP_t, "("⟩]) (k :: (tr ++ (cl :: rest))) (by omega)
      simpa using this
    have h2 : (pre ++ (⟨TokenType.LP_t, "("⟩ :: (tl ++ (k :: (tr ++ (cl :: rest)))))).get?
        (pre.length + 1 + tl.length) = some k := by
      have e : pre.length + 1 + tl.length =
          (pre ++ [(⟨TokenType.LP_t, "("⟩ : Token)] ++ tl).length := by
        simp only [List.length_append, List.length_cons, List.length_nil]
      rw [e]
      have := get?_append_cons (pre ++ [⟨TokenType.LP_t, "("⟩] ++ tl) k (tr ++ (cl :: rest))
      simpa using this
    have h3 : parseFuel f (pre ++ (⟨TokenType.LP_t, "("⟩ :: (tl ++ (k :: (tr ++ (cl :: rest))))))
        (pre.length + 1 + tl.length + 1) =
          Except.ok (r, pre.length + 1 + tl.length + 1 + tr.length) := by
      have e : pre.length + 1 + tl.length + 1 =
          (pre ++ [(⟨TokenType.LP_t, "("⟩ : Token)] ++ tl ++ [k]).length := by
        simp only [List.length_append, List.length_cons, List.length_nil]
      rw [e]
      have := hr f (pre ++ [⟨TokenType.LP_t, "("⟩] ++ tl ++ [k]) (cl :: rest) (by omega)
      simpa using this
    simp only [parseFuel, h0, h1, h2, h3]
    congr 2
    omega

theorem parseFuel_toks (t : ASTNode) : canonical t = true →
    ∀ (fuel : Nat) (pre rest : List Token), (toks t).length ≤ fuel →
      parseFuel fuel (pre ++ (toks t ++ rest)) pre.length =
        Except.ok (t, pre.length + (toks t).length) := by
  induction t with
  | null => intro h; cases h
  | node ty v l r ihl ihr =>
    intro hc fuel pre rest hf
    cases ty with
    | VAR =>
      simp only [canonical, Bool.and_eq_true, decide_eq_true_eq] at hc
      obtain ⟨rfl, rfl⟩ := hc
      cases fuel with
      | zero => simp [toks] at hf
      | succ f =>
        have h0 := get?_append_cons pre ⟨TokenType.VAR_t, v⟩ rest
        simp only [toks, List.singleton_append, List.length_singleton, parseFuel, h0]
    | NOT =>
      simp only [canonical, Bool.and_eq_true, decide_eq_true_eq] at hc
      obtain ⟨⟨rfl, rfl⟩, hcl⟩ := hc
      cases fuel with
      | zero => simp [toks] at hf
      | succ f =>
        simp only [toks, List.length_cons] at hf
        have h0 := get?_append_cons pre ⟨TokenType.NOT_t, "NOT"⟩ (toks l ++ rest)
        have h1 := ihl hcl f (pre ++ [⟨TokenType.NOT_t, "NOT"⟩]) rest (by omega)
        simp only [List.append_assoc, List.singleton_append, List.length_append,
          List.length_cons, List.length_nil] at h1
        have e1 : pre.length + (0 + 1) = pre.length + 1 := by omega
        simp only [e1] at h1
        simp only [toks, List.cons_append, List.length_cons, parseFuel, h0, h1]
        congr 2
        omega
    | AND =>
      simp only [canonical, Bool.and_eq_true, decide_eq_true_eq] at hc
      obtain ⟨⟨rfl, hcl⟩, hcr⟩ := hc
      have hlen : (toks (ASTNode.node NodeType.AND "" l r)).length =
          (toks l).length + (toks r).length + 3 := by
        simp only [toks, List.length_append, List.length_cons, List.length_nil]
        omega
      have := parseFuel_binary l r (toks l) (toks r) (ihl hcl) (ihr hcr)
        ⟨TokenType.AND_t, "AND"⟩ ⟨TokenType.RP_t, ")"⟩ fuel pre rest (by omega)
      rw [hlen]
      simpa [toks] using this
    | OR =>
      simp only [canonical, Bool.and_eq_true, decide_eq_true_eq] at hc
      obtain ⟨⟨rfl, hcl⟩, hcr⟩ := hc
      have hlen : (toks (ASTNode.node NodeType.OR "" l r)).length =
          (toks l).length + (toks r).length + 3 := by
        simp only [toks, List.length_append, List.length_cons, List.length_nil]
        omega
      have := parseFuel_binary l r (toks l) (toks r) (ihl hcl) (ihr hcr)
        ⟨TokenType.OR_t, "OR"⟩ ⟨TokenType.RP_t, ")"⟩ fuel pre rest (by omega)
      rw [hlen]
      simpa [toks] using this

/-- C14: for every well-formed tree `t` and every trailing token sequence `rest` (empty, a
single END token, or anything else), `parse` on `toks t ++ rest` started at position 0 returns
exactly `t`, reads no token past the end, and leaves the cursor at the length of `toks t`. -/
theorem parse_toks (t : ASTNode) (rest : List Token) (hc : canonical t = true) :
    wellFormed t = true ∧
      parse (toks t ++ rest) 0 = Except.ok (t, (toks t).length) := by
  refine ⟨canonical_wellFormed t hc, ?_⟩
  have := parseFuel_toks t hc ((toks t ++ rest).length + 1) [] rest
    (by rw [List.length_append]; omega)
  simpa [parse] using this

theorem parse_toks_witness :
    canonical (ASTNode.node NodeType.OR ""
        (ASTNode.node NodeType.NOT "" (ASTNode.node NodeType.VAR "A" ASTNode.null ASTNode.null)
          ASTNode.null)
        (ASTNode.node NodeType.VAR "B" ASTNode.null ASTNode.null)) = true ∧
      wellFormed (ASTNode.node NodeType.OR ""
        (ASTNode.node NodeType.NOT "" (ASTNode.node NodeType.VAR "A" ASTNode.null ASTNode.null)
          ASTNode.null)
        (ASTNode.node NodeType.VAR "B" ASTNode.null ASTNode.null)) = true ∧
      parse (toks (ASTNode.node NodeType.OR ""
        (ASTNode.node NodeType.NOT "" (ASTNode.node NodeType.VAR "A" ASTNode.null ASTNode.null)
          ASTNode.null)
        (ASTNode.node NodeType.VAR "B" ASTNode.null ASTNode.null)) ++
          [⟨TokenType.EOF_t, ""⟩]) 0 =
        Except.ok (ASTNode.node NodeType.OR ""
        (ASTNode.node NodeType.NOT "" (ASTNode.node NodeType.VAR "A" ASTNode.null ASTNode.null)
          ASTNode.null)
        (ASTNode.node NodeType.VAR "B" ASTNode.null ASTNode.null), (toks (ASTNode.node
          NodeType.OR "" (ASTNode.node NodeType.NOT "" (ASTNode.node NodeType.VAR "A"
          ASTNode.null ASTNode.null) ASTNode.null) (ASTNode.node NodeType.VAR "B" ASTNode.null
          ASTNode.null))).length) :=
  ⟨rfl, parse_toks _ _ rfl⟩

/-- C18: for well-formed trees `l` and `r` and any token `k` in the operator position, `parse`
on `( toks l  k  toks r )` started at position 0 succeeds; it returns `And(l, r)` exactly when
`k` is the `AND` token and `Or(l, r)` for every other token (`OR`, `NOT`, an identifier, a
parenthesis or END). -/
theorem operator_looseness (l r : ASTNode) (k : Token) (hl : canonical l = true)
    (hr : canonical r = true) :
    parse ([⟨TokenType.LP_t, "("⟩] ++ toks l ++ [k] ++ toks r ++ [⟨TokenType.RP_t, ")"⟩]) 0 =
        Except.ok (ASTNode.node (if k.type = TokenType.AND_t then NodeType.AND else NodeType.OR)
          "" l r, (toks l).length + (toks r).length + 3) ∧
      (k.type ≠ TokenType.AND_t →
        parse ([⟨TokenType.LP_t, "("⟩] ++ toks l ++ [k] ++ toks r ++ [⟨TokenType.RP_t, ")"⟩]) 0 =
          Except.ok (ASTNode.node NodeType.OR "" l r, (toks l).length + (toks r).length + 3)) ∧
      (k.type = TokenType.AND_t ↔
        parse ([⟨TokenType.LP_t, "("⟩] ++ toks l ++ [k] ++ toks r ++ [⟨TokenType.RP_t, ")"⟩]) 0 =
          Except.ok (ASTNode.node NodeType.AND "" l r, (toks l).length + (toks r).length + 3)) := by
  have hmain : parse ([⟨TokenType.LP_t, "("⟩] ++ toks l ++ [k] ++ toks r ++
      [⟨TokenType.RP_t, ")"⟩]) 0 =
      Except.ok (ASTNode.node (if k.type = TokenType.AND_t then NodeType.AND else NodeType.OR)
        "" l r, (toks l).length + (toks r).length + 3) := by
    have := parseFuel_binary l r (toks l) (toks r) (parseFuel_toks l hl) (parseFuel_toks r hr)
      k ⟨TokenType.RP_t, ")"⟩ ((toks l).length + (toks r).length + 3 + 1) [] [] (by omega)
    simpa [parse, Nat.add_assoc] using this
  refine ⟨hmain, ?_, ?_⟩
  · intro hk
    rw [hmain, if_neg hk]
  · constructor
    · intro hk
      rw [hmain, if_pos hk]
    · intro h
      rw [hmain] at h
      by_contra hk
      rw [if_neg hk] at h
      cases h

theorem operator_looseness_witness :
    canonical (ASTNode.node NodeType.VAR "A" ASTNode.null ASTNode.null) = true ∧
      parse ([⟨TokenType.LP_t, "("⟩] ++ toks (ASTNode.node NodeType.VAR "A" ASTNode.null
          ASTNode.null) ++ [⟨TokenType.VAR_t, "xor"⟩] ++ toks (ASTNode.node NodeType.VAR "B"
          ASTNode.null ASTNode.null) ++ [⟨TokenType.RP_t, ")"⟩]) 0 =
        Except.ok (ASTNode.node NodeType.OR "" (ASTNode.node NodeType.VAR "A" ASTNode.null
          ASTNode.null) (ASTNode.node NodeType.VAR "B" ASTNode.null ASTNode.null), 1 + 1 + 3) :=
  ⟨rfl, (operator_looseness (ASTNode.node NodeType.VAR "A" ASTNode.null ASTNode.null)
    (ASTNode.node NodeType.VAR "B" ASTNode.null ASTNode.null) ⟨TokenType.VAR_t, "xor"⟩ rfl
    rfl).2.1 (by decide)⟩

/-! ## The rules of the encoder, variant by variant -/

/-- C15: the equations of `encode`, for every starting state.  A `VAR` leaf returns the
registered id of its name, or registers and returns the current counter value when the name
is new, with no clause.  `NOT`, `AND` and `OR` nodes with well-formed operands encode the
operands left to right, take the next counter value `v` and return `v` with the operands'
clauses followed by `[-v, -vs], [v, vs]`, by `[-v, vl], [-v, vr], [v, -vl, -vr]`, or by
`[-vl, v], [-vr, v], [-v, vl, vr]`, in this order. -/
theorem encode_rules (st : State) :
    (∀ (n : String) (l r : ASTNode) (v : Int), st.varMap.lookup n = some v →
      encode (ASTNode.node NodeType.VAR n l r) st = Except.ok (⟨v, []⟩, st)) ∧
    (∀ (n : String) (l r : ASTNode), st.varMap.lookup n = none →
      encode (ASTNode.node NodeType.VAR n l r) st =
        Except.ok (⟨st.varCount, []⟩, ⟨st.varCount + 1, (n, st.varCount) :: st.varMap⟩)) ∧
    (∀ (val : String) (e r : ASTNode), wellFormed e = true →
      ∃ sub st1, encode e st = Except.ok (sub, st1) ∧
        encode (ASTNode.node NodeType.NOT val e r) st =
          Except.ok (⟨st1.varCount,
            sub.formula ++ [[-st1.varCount, -sub.var], [st1.varCount, sub.var]]⟩,
            ⟨st1.varCount + 1, st1.varMap⟩)) ∧
    (∀ (val : String) (l r : ASTNode), wellFormed l = true → wellFormed r = true →
      ∃ leftRes st1 rightRes st2, encode l st = Except.ok (leftRes, st1) ∧
        encode r st1 = Except.ok (rightRes, st2) ∧
        encode (ASTNode.node NodeType.AND val l r) st =
          Except.ok (⟨st2.varCount, leftRes.formula ++ rightRes.formula ++
            [[-st2.varCount, leftRes.var], [-st2.varCount, rightRes.var],
             [st2.varCount, -leftRes.var, -rightRes.var]]⟩,
            ⟨st2.varCount + 1, st2.varMap⟩)) ∧
    (∀ (val : String) (l r : ASTNode), wellFormed l = true → wellFormed r = true →
      ∃ leftRes st1 rightRes st2, encode l st = Except.ok (leftRes, st1) ∧
        encode r st1 = Except.ok (rightRes, st2) ∧
        encode (ASTNode.node NodeType.OR val l r) st =
          Except.ok (⟨st2.varCount, leftRes.formula ++ rightRes.formula ++
            [[-leftRes.var, st2.varCount], [-rightRes.var, st2.varCount],
             [-st2.varCount, leftRes.var, rightRes.var]]⟩,
            ⟨st2.varCount + 1, st2.varMap⟩)) := by
  refine ⟨?_, ?_, ?_, ?_, ?_⟩
  · intro n l r v h
    simp only [encode, h]
  · intro n l r h
    simp only [encode, h]
  · intro val e r he
    obtain ⟨sub, st1, hs⟩ := encode_total e st he
    exact ⟨sub, st1, hs, by simp only [encode, hs]⟩
  · intro val l r hl hr
    obtain ⟨leftRes, st1, h1⟩ := encode_total l st hl
    obtain ⟨rightRes, st2, h2⟩ := encode_total r st1 hr
    exact ⟨leftRes, st1, rightRes, st2, h1, h2, by simp only [encode, h1, h2]⟩
  · intro val l r hl hr
    obtain ⟨leftRes, st1, h1⟩ := encode_total l st hl
    obtain ⟨rightRes, st2, h2⟩ := encode_total r st1 hr
    exact ⟨leftRes, st1, rightRes, st2, h1, h2, by simp only [encode, h1, h2]⟩

theorem encode_rules_witness :
    wellFormed (ASTNode.node NodeType.VAR "A" ASTNode.null ASTNode.null) = true ∧
      ∃ sub st1, encode (ASTNode.node NodeType.VAR "A" ASTNode.null ASTNode.null)
          ⟨5, [("A", 2)]⟩ = Except.ok (sub, st1) ∧
        encode (ASTNode.node NodeType.NOT "" (ASTNode.node NodeType.VAR "A" ASTNode.null
          ASTNode.null) ASTNode.null) ⟨5, [("A", 2)]⟩ =
          Except.ok (⟨st1.varCount,
            sub.formula ++ [[-st1.varCount, -sub.var], [st1.varCount, sub.var]]⟩,
            ⟨st1.varCount + 1, st1.varMap⟩) :=
  ⟨rfl, (encode_rules ⟨5, [("A", 2)]⟩).2.2.1 "" _ ASTNode.null rfl⟩

/-! ## The order in which ids are allocated -/

theorem consecutive_append (xs ys : List Int) : ∀ a : Int, consecutive a xs →
    consecutive (a + xs.length) ys → consecutive a (xs ++ ys) := by
  induction xs with
  | nil => intro a _ h; simpa using h
  | cons x xs ih =>
    intro a h1 h2
    refine ⟨h1.1, ih (a + 1) h1.2 ?_⟩
    have e : a + 1 + (xs.length : Int) = a + ((x :: xs).length : Int) := by
      simp only [List.length_cons]; push_cast; omega
    rw [e]; exact h2

theorem consecutive_eq_range (xs : List Int) : ∀ a : Int, consecutive a xs →
    xs = (List.range xs.length).map (fun i : Nat => a + (i : Int)) := by
  induction xs with
  | nil => intro a _; rfl
  | cons x xs ih =>
    intro a h
    have h2 := ih (a + 1) h.2
    rw [List.length_cons, List.range_succ_eq_map, List.map_cons, List.map_map, h.1]
    congr 1
    · simp
    · rw [h2]
      simp only [List.length_map, List.length_range]
      apply List.map_congr_left
      intro i _
      simp only [Function.comp, Nat.succ_eq_add_one]
      push_cast
      omega

theorem consecutive_bounds (xs : List Int) : ∀ a : Int, consecutive a xs →
    ∀ x ∈ xs, a ≤ x ∧ x < a + xs.length := by
  induction xs with
  | nil => intro a _ x hx; cases hx
  | cons y xs ih =>
    intro a h x hx
    simp only [List.length_cons]
    push_cast
    rcases List.mem_cons.1 hx with rfl | hx
    · have := h.1; omega
    · have := ih (a + 1) h.2 x hx; omega

theorem firstOccurrences_congr (l : List String) : ∀ s s' : List String,
    (∀ n, n ∈ s ↔ n ∈ s') → firstOccurrences s l = firstOccurrences s' l := by
  induction l with
  | nil => intro s s' _; rfl
  | cons a l ih =>
    intro s s' h
    simp only [firstOccurrences]
    by_cases ha : a ∈ s
    · rw [if_pos ha, if_pos ((h a).1 ha)]
      exact ih s s' h
    · rw [if_neg ha, if_neg (fun h' => ha ((h a).2 h'))]
      congr 1
      apply ih
      intro n
      simp only [List.mem_cons, h n]

theorem firstOccurrences_append (a b : List String) : ∀ s s' : List String,
    (∀ n, n ∈ s' ↔ n ∈ s ∨ n ∈ a) →
    firstOccurrences s (a ++ b) = firstOccurrences s a ++ firstOccurrences s' b := by
  induction a with
  | nil =>
    intro s s' h
    simp only [List.nil_append, firstOccurrences]
    apply firstOccurrences_congr
    intro n
    rw [h n]
    simp
  | cons x a ih =>
    intro s s' h
    simp only [List.cons_append, firstOccurrences]
    by_cases hx : x ∈ s
    · rw [if_pos hx, if_pos hx]
      apply ih
      intro n
      rw [h n, List.mem_cons]
      constructor
      · rintro (hn | rfl | hn)
        · exact Or.inl hn
        · exact Or.inl hx
        · exact Or.inr hn
      · rintro (hn | hn)
        · exact Or.inl hn
        · exact Or.inr (Or.inr hn)
    · rw [if_neg hx, if_neg hx, List.cons_append]
      congr 1
      apply ih
      intro n
      rw [h n, List.mem_cons, List.mem_cons]
      tauto

/-- The ids are allocated consecutively from the counter, which ends right after the last. -/
theorem Enc.allocs_consec {t : ASTNode} {st st' : State} {res : TseitinRes}
    (h : Enc t st res st') :
    consecutive st.varCount ((allocs t st).map Prod.snd) ∧
      st'.varCount = st.varCount + ((allocs t st).length : Int) := by
  induction h with
  | @varOld value l r st v h =>
    simp only [allocs, h, List.map_nil, List.length_nil]
    exact ⟨trivial, by simp⟩
  | @varNew value l r st h =>
    simp only [allocs, h, List.map_cons, List.map_nil, List.length_cons, List.length_nil]
    exact ⟨⟨rfl, trivial⟩, by simp⟩
  | @not value l r st st1 sub h ih =>
    obtain ⟨h1, h2⟩ := ih
    simp only [allocs, enc_encode h, List.map_append, List.map_cons, List.map_nil,
      List.length_append, List.length_cons, List.length_nil]
    refine ⟨consecutive_append _ _ _ h1 ⟨?_, trivial⟩, ?_⟩
    · rw [List.length_map, h2]
    · show st1.varCount + 1 = _
      push_cast
      omega
  | @and value l r st st1 st2 leftRes rightRes hl hr ihl ihr =>
    obtain ⟨h1, h2⟩ := ihl
    obtain ⟨h3, h4⟩ := ihr
    simp only [allocs, enc_encode hl, enc_encode hr, List.map_append, List.map_cons,
      List.map_nil, List.length_append, List.length_cons, List.length_nil]
    refine ⟨consecutive_append _ _ _ h1 (consecutive_append _ _ _ ?_ ⟨?_, trivial⟩), ?_⟩
    · rw [List.length_map, ← h2]; exact h3
    · rw [List.length_map, List.length_map, ← h2, ← h4]
    · show st2.varCount + 1 = _
      push_cast
      omega
  | @or value l r st st1 st2 leftRes rightRes hl hr ihl ihr =>
    obtain ⟨h1, h2⟩ := ihl
    obtain ⟨h3, h4⟩ := ihr
    simp only [allocs, enc_encode hl, enc_encode hr, List.map_append, List.map_cons,
      List.map_nil, List.length_append, List.length_cons, List.length_nil]
    refine ⟨consecutive_append _ _ _ h1 (consecutive_append _ _ _ ?_ ⟨?_, trivial⟩), ?_⟩
    · rw [List.length_map, ← h2]; exact h3
    · rw [List.length_map, List.length_map, ← h2, ← h4]
    · show st2.varCount + 1 = _
      push_cast
      omega

/-- The leaves that allocate are the first occurrences of the names not yet registered. -/
theorem Enc.allocs_names {t : ASTNode} {st st' : State} {res : TseitinRes}
    (h : Enc t st res st') :
    (allocs t st).filterMap Prod.fst =
      firstOccurrences (st.varMap.map Prod.fst) (names t) := by
  induction h with
  | @varOld value l r st v h =>
    have hm := (lookup_isSome_iff _ _).1 ⟨v, h⟩
    simp only [allocs, h, names, firstOccurrences, List.filterMap_nil, if_pos hm]
  | @varNew value l r st h =>
    have hm := (lookup_none_iff _ _).1 h
    simp only [allocs, h, names, firstOccurrences, if_neg hm, List.filterMap_cons,
      List.filterMap_nil]
  | @not value l r st st1 sub h ih =>
    simp only [allocs, enc_encode h, names, List.filterMap_append, List.filterMap_cons,
      List.filterMap_nil, List.append_nil, ih]
  | @and value l r st st1 st2 leftRes rightRes hl hr ihl ihr =>
    simp only [allocs, enc_encode hl, enc_encode hr, names, List.filterMap_append,
      List.filterMap_cons, List.filterMap_nil, List.append_nil, ihl, ihr]
    exact (firstOccurrences_append _ _ _ _ hl.count.2).symm
  | @or value l r st st1 st2 leftRes rightRes hl hr ihl ihr =>
    simp only [allocs, enc_encode hl, enc_encode hr, names, List.filterMap_append,
      List.filterMap_cons, List.filterMap_nil, List.append_nil, ihl, ihr]
    exact (firstOccurrences_append _ _ _ _ hl.count.2).symm

theorem Enc.counter_le {t : ASTNode} {st st' : State} {res : TseitinRes}
    (h : Enc t st res st') : st.varCount ≤ st'.varCount := by
  have := h.allocs_consec.2
  omega

/-- A registry entry of the final state is an entry of the starting state or carries an id
allocated during the run. -/
theorem Enc.new_entries {t : ASTNode} {st st' : State} {res : TseitinRes}
    (h : Enc t st res st') : ∀ n v, st'.varMap.lookup n = some v →
      st.varMap.lookup n = some v ∨ st.varCount ≤ v := by
  induction h with
  | varOld h => intro n v hn; exact Or.inl hn
  | @varNew value l r st h =>
    intro n v hn
    have hn' : (if n = value then some st.varCount else st.varMap.lookup n) = some v := by
      rw [← lookup_cons_eq]; exact hn
    by_cases e : n = value
    · rw [if_pos e] at hn'
      cases hn'
      exact Or.inr (le_refl _)
    · rw [if_neg e] at hn'
      exact Or.inl hn'
  | not h ih => exact ih
  | @and value l r st st1 st2 leftRes rightRes hl hr ihl ihr =>
    intro n v hn
    have hle := hl.counter_le
    rcases ihr n v hn with h1 | h1
    · exact ihl n v h1
    · exact Or.inr (by omega)
  | @or value l r st st1 st2 leftRes rightRes hl hr ihl ihr =>
    intro n v hn
    have hle := hl.counter_le
    rcases ihr n v hn with h1 | h1
    · exact ihl n v h1
    · exact Or.inr (by omega)

/-- The auxiliary ids increase in post-order, lie between the counter before and after the run,
are never stored in the registry, and there is one per `NOT`, `AND` and `OR` node. -/
theorem Enc.aux {t : ASTNode} {st st' : State} {res : TseitinRes} (h : Enc t st res st')
    (hi : st.Inv) :
    List.Pairwise (fun a b : Int => a < b) (auxIds t st) ∧
      (∀ a ∈ auxIds t st, st.varCount ≤ a ∧ a < st'.varCount ∧
        ∀ n v, st'.varMap.lookup n = some v → v ≠ a) ∧
      (auxIds t st).length = countNot t + countAnd t + countOr t := by
  induction h with
  | varOld h =>
    simp only [auxIds, countNot, countAnd, countOr, List.length_nil]
    exact ⟨List.Pairwise.nil, (fun a ha => by cases ha), trivial⟩
  | varNew h =>
    simp only [auxIds, countNot, countAnd, countOr, List.length_nil]
    exact ⟨List.Pairwise.nil, (fun a ha => by cases ha), trivial⟩
  | @not value l r st st1 sub h ih =>
    obtain ⟨hp, hb, hlen⟩ := ih hi
    obtain ⟨hi1, -, -, -, -, -⟩ := h.facts hi
    have hle := h.counter_le
    have hn := enc_encode (@Enc.not value l r st st1 sub h)
    simp only [auxIds, hn, countNot, countAnd, countOr, List.length_append, List.length_cons,
      List.length_nil]
    refine ⟨?_, ?_, by omega⟩
    · rw [List.pairwise_append]
      refine ⟨hp, List.pairwise_singleton _ _, ?_⟩
      intro a ha b hb'
      rw [List.mem_singleton] at hb'
      rw [hb']
      exact (hb a ha).2.1
    · intro a ha
      rcases List.mem_append.1 ha with ha | ha
      · obtain ⟨h1, h2, h3⟩ := hb a ha
        exact ⟨h1, by show a < st1.varCount + 1; omega, h3⟩
      · rw [List.mem_singleton] at ha
        rw [ha]
        refine ⟨hle, by show st1.varCount < st1.varCount + 1; omega, ?_⟩
        intro n v hv
        have := (hi1.bound n v hv).2
        omega
  | @and value l r st st1 st2 leftRes rightRes hl hr ihl ihr =>
    obtain ⟨hi1, -, -, -, -, -⟩ := hl.facts hi
    obtain ⟨hi2, -, -, -, -, -⟩ := hr.facts hi1
    obtain ⟨hp1, hb1, hlen1⟩ := ihl hi
    obtain ⟨hp2, hb2, hlen2⟩ := ihr hi1
    have hle1 := hl.counter_le
    have hle2 := hr.counter_le
    have hn := enc_encode (@Enc.and value l r st st1 st2 leftRes rightRes hl hr)
    simp only [auxIds, hn, enc_encode hl, countNot, countAnd, countOr, List.length_append,
      List.length_cons, List.length_nil]
    refine ⟨?_, ?_, by omega⟩
    · rw [List.pairwise_append, List.pairwise_append]
      refine ⟨⟨hp1, hp2, ?_⟩, List.pairwise_singleton _ _, ?_⟩
      · intro a ha b hb'
        have := (hb1 a ha).2.1
        have := (hb2 b hb').1
        omega
      · intro a ha b hb'
        rw [List.mem_singleton] at hb'
        rw [hb']
        rcases List.mem_append.1 ha with ha | ha
        · have := (hb1 a ha).2.1; omega
        · exact (hb2 a ha).2.1
    · intro a ha
      rcases List.mem_append.1 ha with ha | ha
      · rcases List.mem_append.1 ha with ha | ha
        · obtain ⟨h1, h2, h3⟩ := hb1 a ha
          refine ⟨h1, by show a < st2.varCount + 1; omega, ?_⟩
          intro n v hv
          rcases hr.new_entries n v hv with h4 | h4
          · exact h3 n v h4
          · omega
        · obtain ⟨h1, h2, h3⟩ := hb2 a ha
          exact ⟨by omega, by show a < st2.varCount + 1; omega, h3⟩
      · rw [List.mem_singleton] at ha
        rw [ha]
        refine ⟨by omega, by show st2.varCount < st2.varCount + 1; omega, ?_⟩
        intro n v hv
        have := (hi2.bound n v hv).2
        omega
  | @or value l r st st1 st2 leftRes rightRes hl hr ihl ihr =>
    obtain ⟨hi1, -, -, -, -, -⟩ := hl.facts hi
    obtain ⟨hi2, -, -, -, -, -⟩ := hr.facts hi1
    obtain ⟨hp1, hb1, hlen1⟩ := ihl hi
    obtain ⟨hp2, hb2, hlen2⟩ := ihr hi1
    have hle1 := hl.counter_le
    have hle2 := hr.counter_le
    have hn := enc_encode (@Enc.or value l r st st1 st2 leftRes rightRes hl hr)
    simp only [auxIds, hn, enc_encode hl, countNot, countAnd, countOr, List.length_append,
      List.length_cons, List.length_nil]
    refine ⟨?_, ?_, by omega⟩
    · rw [List.pairwise_append, List.pairwise_append]
      refine ⟨⟨hp1, hp2, ?_⟩, List.pairwise_singleton _ _, ?_⟩
      · intro a ha b hb'
        have := (hb1 a ha).2.1
        have := (hb2 b hb').1
        omega
      · intro a ha b hb'
        rw [List.mem_singleton] at hb'
        rw [hb']
        rcases List.mem_append.1 ha with ha | ha
        · have := (hb1 a ha).2.1; omega
        · exact (hb2 a ha).2.1
    · intro a ha
      rcases List.mem_append.1 ha with ha | ha
      · rcases List.mem_append.1 ha with ha | ha
        · obtain ⟨h1, h2, h3⟩ := hb1 a ha
          refine ⟨h1, by show a < st2.varCount + 1; omega, ?_⟩
          intro n v hv
          rcases hr.new_entries n v hv with h4 | h4
          · exact h3 n v h4
          · omega
        · obtain ⟨h1, h2, h3⟩ := hb2 a ha
          exact ⟨by omega, by show a < st2.varCount + 1; omega, h3⟩
      · rw [List.mem_singleton] at ha
        rw [ha]
        refine ⟨by omega, by show st2.varCount < st2.varCount + 1; omega, ?_⟩
        intro n v hv
        have := (hi2.bound n v hv).2
        omega

/-- Every invocation made during a run starts from a good state and is itself a run whose
clauses are clauses of the result and whose registry the final registry keeps. -/
theorem Enc.calls_sub {t : ASTNode} {st st' : State} {res : TseitinRes} (h : Enc t st res st')
    (hi : st.Inv) :
    ∀ p ∈ calls t st, ∃ rs ss', Enc p.1 p.2 rs ss' ∧ p.2.Inv ∧
      (∀ c ∈ rs.formula, c ∈ res.formula) ∧ mapExtends ss'.varMap st'.varMap := by
  induction h with
  | @varOld value l r st v h =>
    intro p hp
    simp only [calls, List.mem_singleton] at hp
    subst hp
    exact ⟨_, _, Enc.varOld h, hi, fun c hc => hc, mapExtends_refl _⟩
  | @varNew value l r st h =>
    intro p hp
    simp only [calls, List.mem_singleton] at hp
    subst hp
    exact ⟨_, _, Enc.varNew h, hi, fun c hc => hc, mapExtends_refl _⟩
  | @not value l r st st1 sub h ih =>
    intro p hp
    simp only [calls, List.mem_append, List.mem_singleton] at hp
    rcases hp with hp | hp
    · obtain ⟨rs, ss', h1, h2, h3, h4⟩ := ih hi p hp
      exact ⟨rs, ss', h1, h2, fun c hc => List.mem_append_left _ (h3 c hc), h4⟩
    · subst hp
      exact ⟨_, _, Enc.not h, hi, fun c hc => hc, mapExtends_refl _⟩
  | @and value l r st st1 st2 leftRes rightRes hl hr ihl ihr =>
    intro p hp
    obtain ⟨hi1, -, -, -, -, -⟩ := hl.facts hi
    obtain ⟨-, -, hext2, -, -, -⟩ := hr.facts hi1
    simp only [calls, enc_encode hl, List.mem_append, List.mem_singleton] at hp
    rcases hp with (hp | hp) | hp
    · obtain ⟨rs, ss', h1, h2, h3, h4⟩ := ihl hi p hp
      exact ⟨rs, ss', h1, h2,
        fun c hc => List.mem_append_left _ (List.mem_append_left _ (h3 c hc)),
        mapExtends_trans h4 hext2⟩
    · obtain ⟨rs, ss', h1, h2, h3, h4⟩ := ihr hi1 p hp
      exact ⟨rs, ss', h1, h2,
        fun c hc => List.mem_append_left _ (List.mem_append_right _ (h3 c hc)), h4⟩
    · subst hp
      exact ⟨_, _, Enc.and hl hr, hi, fun c hc => hc, mapExtends_refl _⟩
  | @or value l r st st1 st2 leftRes rightRes hl hr ihl ihr =>
    intro p hp
    obtain ⟨hi1, -, -, -, -, -⟩ := hl.facts hi
    obtain ⟨-, -, hext2, -, -, -⟩ := hr.facts hi1
    simp only [calls, enc_encode hl, List.mem_append, List.mem_singleton] at hp
    rcases hp with (hp | hp) | hp
    · obtain ⟨rs, ss', h1, h2, h3, h4⟩ := ihl hi p hp
      exact ⟨rs, ss', h1, h2,
        fun c hc => List.mem_append_left _ (List.mem_append_left _ (h3 c hc)),
        mapExtends_trans h4 hext2⟩
    · obtain ⟨rs, ss', h1, h2, h3, h4⟩ := ihr hi1 p hp
      exact ⟨rs, ss', h1, h2,
        fun c hc => List.mem_append_left _ (List.mem_append_right _ (h3 c hc)), h4⟩
    · subst hp
      exact ⟨_, _, Enc.or hl hr, hi, fun c hc => hc, mapExtends_refl _⟩

theorem Enc.allocs_bounds {t : ASTNode} {st st' : State} {res : TseitinRes}
    (h : Enc t st res st') : ∀ x ∈ allocs t st, st.varCount ≤ x.2 ∧ x.2 < st'.varCount := by
  intro x hx
  obtain ⟨h1, h2⟩ := h.allocs_consec
  have := consecutive_bounds _ _ h1 x.2 (List.mem_map_of_mem Prod.snd hx)
  rw [List.length_map] at this
  omega

theorem litsBelow_abs {N : Int} {f : Formula} (h : litsBelow N f) :
    ∀ c ∈ f, ∀ l ∈ c, |l| < N := by
  intro c hc l hl
  have := h c hc l hl
  rw [abs_lt]
  omega

theorem consecutive_pairwise (xs : List Int) : ∀ a : Int, consecutive a xs →
    List.Pairwise (fun x y : Int => x < y) xs := by
  induction xs with
  | nil => intro a _; exact List.Pairwise.nil
  | cons x xs ih =>
    intro a h
    refine List.Pairwise.cons ?_ (ih (a + 1) h.2)
    intro y hy
    have := (consecutive_bounds xs (a + 1) h.2 y hy).1
    have := h.1
    omega

/-- A `NOT` node, from any good state: its id is allocated after everything in its operand. -/
theorem Enc.not_order {v : String} {e r : ASTNode} {ss ss' : State} {rs : TseitinRes}
    (h : Enc (ASTNode.node NodeType.NOT v e r) ss rs ss') (hi : ss.Inv) :
    ∃ sub s1, encode e ss = Except.ok (sub, s1) ∧
      encode (ASTNode.node NodeType.NOT v e r) ss = Except.ok (rs, ss') ∧
      sub.var < rs.var ∧ (∀ x ∈ allocs e ss, x.2 < rs.var) ∧
      (∀ c ∈ sub.formula, ∀ l ∈ c, |l| < rs.var) ∧
      (∀ c ∈ rs.formula, ∀ l ∈ c, |l| ≤ rs.var) := by
  have hfull := enc_encode h
  obtain ⟨-, -, -, -, hlitsAll, -⟩ := h.facts hi
  cases h with
  | @not _ _ _ _ s1 sub h' =>
    obtain ⟨-, -, -, hv, hlits, -⟩ := h'.facts hi
    refine ⟨sub, s1, enc_encode h', hfull, hv.2, fun x hx => (h'.allocs_bounds x hx).2,
      litsBelow_abs hlits, ?_⟩
    intro c hc l hl
    have := litsBelow_abs hlitsAll c hc l hl
    have e : (⟨s1.varCount + 1, s1.varMap⟩ : State).varCount = s1.varCount + 1 := rfl
    rw [e] at this
    show |l| ≤ s1.varCount
    omega

/-- An `AND` or `OR` node, from any good state: the ids allocated in the left operand are
smaller than those allocated in the right operand, and its own id is allocated last. -/
theorem Enc.binary_order {ty : NodeType} {v : String} {l r : ASTNode} {ss ss' : State}
    {rs : TseitinRes} (hty : ty = NodeType.AND ∨ ty = NodeType.OR)
    (h : Enc (ASTNode.node ty v l r) ss rs ss') (hi : ss.Inv) :
    ∃ leftRes s1 rightRes s2, encode l ss = Except.ok (leftRes, s1) ∧
      encode r s1 = Except.ok (rightRes, s2) ∧
      encode (ASTNode.node ty v l r) ss = Except.ok (rs, ss') ∧
      (∀ x ∈ allocs l ss, ∀ y ∈ allocs r s1, x.2 < y.2) ∧
      (∀ x ∈ allocs l ss ++ allocs r s1, x.2 < rs.var) ∧
      leftRes.var < rs.var ∧ rightRes.var < rs.var ∧
      (∀ c ∈ leftRes.formula ++ rightRes.formula, ∀ l ∈ c, |l| < rs.var) ∧
      (∀ c ∈ rs.formula, ∀ l ∈ c, |l| ≤ rs.var) := by
  have hfull := enc_encode h
  obtain ⟨-, -, -, -, hlitsAll, -⟩ := h.facts hi
  have key : ∀ (leftRes rightRes : TseitinRes) (s1 s2 : State), Enc l ss leftRes s1 →
      Enc r s1 rightRes s2 → rs.var = s2.varCount → ss'.varCount = s2.varCount + 1 →
      ∃ leftRes s1 rightRes s2, encode l ss = Except.ok (leftRes, s1) ∧
        encode r s1 = Except.ok (rightRes, s2) ∧
        encode (ASTNode.node ty v l r) ss = Except.ok (rs, ss') ∧
        (∀ x ∈ allocs l ss, ∀ y ∈ allocs r s1, x.2 < y.2) ∧
        (∀ x ∈ allocs l ss ++ allocs r s1, x.2 < rs.var) ∧
        leftRes.var < rs.var ∧ rightRes.var < rs.var ∧
        (∀ c ∈ leftRes.formula ++ rightRes.formula, ∀ l ∈ c, |l| < rs.var) ∧
        (∀ c ∈ rs.formula, ∀ l ∈ c, |l| ≤ rs.var) := by
    intro leftRes rightRes s1 s2 hl hr hvar hcount
    obtain ⟨hi1, -, -, hv1, hlits1, -⟩ := hl.facts hi
    obtain ⟨-, -, -, hv2, hlits2, -⟩ := hr.facts hi1
    have hle2 := hr.counter_le
    refine ⟨leftRes, s1, rightRes, s2, enc_encode hl, enc_encode hr, hfull, ?_, ?_, ?_, ?_,
      ?_, ?_⟩
    · intro x hx y hy
      have := (hl.allocs_bounds x hx).2
      have := (hr.allocs_bounds y hy).1
      omega
    · intro x hx
      rcases List.mem_append.1 hx with hx | hx
      · have := (hl.allocs_bounds x hx).2; omega
      · have := (hr.allocs_bounds x hx).2; omega
    · omega
    · omega
    · intro c hc
      rcases List.mem_append.1 hc with hc | hc
      · intro l hl'
        have := litsBelow_abs hlits1 c hc l hl'
        omega
      · intro l hl'
        have := litsBelow_abs hlits2 c hc l hl'
        omega
    · intro c hc l hl'
      have := litsBelow_abs hlitsAll c hc l hl'
      omega
  rcases hty with rfl | rfl
  · cases h with
    | @and _ _ _ _ s1 s2 leftRes rightRes hl hr => exact key leftRes rightRes s1 s2 hl hr rfl rfl
  · cases h with
    | @or _ _ _ _ s1 s2 leftRes rightRes hl hr => exact key leftRes rightRes s1 s2 hl hr rfl rfl

/-! ## The auxiliary variables are determined, and every variable is used -/

theorem evalAST_congr (a b : String → Bool) (t : ASTNode) :
    (∀ n ∈ names t, a n = b n) → evalAST a t = evalAST b t := by
  induction t with
  | null => intro _; rfl
  | node ty v l r ihl ihr =>
    intro h
    cases ty with
    | VAR =>
      simp only [evalAST]
      exact h v (by simp [names])
    | NOT =>
      simp only [evalAST]
      rw [ihl (fun n hn => h n (by simpa [names] using hn))]
    | AND =>
      simp only [evalAST]
      rw [ihl (fun n hn => h n (by simp only [names, List.mem_append]; exact Or.inl hn)),
        ihr (fun n hn => h n (by simp only [names, List.mem_append]; exact Or.inr hn))]
    | OR =>
      simp only [evalAST]
      rw [ihl (fun n hn => h n (by simp only [names, List.mem_append]; exact Or.inl hn)),
        ihr (fun n hn => h n (by simp only [names, List.mem_append]; exact Or.inr hn))]

/-- Two assignments that satisfy the clauses and agree on the registered ids give the result
variable the same value. -/
theorem Enc.same_value {t : ASTNode} {st st' : State} {res : TseitinRes}
    (h : Enc t st res st') (hi : st.Inv) (sigma sigma' : Int → Bool)
    (hs : formulaSat sigma res.formula = true) (hs' : formulaSat sigma' res.formula = true)
    (hreg : ∀ n v, st'.varMap.lookup n = some v → sigma v = sigma' v) :
    sigma res.var = sigma' res.var := by
  rw [h.sound hi st'.varMap (mapExtends_refl _) sigma hs,
    h.sound hi st'.varMap (mapExtends_refl _) sigma' hs']
  apply evalAST_congr
  intro n hn
  obtain ⟨v, hv⟩ := (h.facts hi).2.2.2.2.2 n hn
  simp only [hv, Option.getD_some]
  exact hreg n v hv

/-- Two assignments that satisfy the clauses and agree on the registered ids agree on every id
allocated during the run. -/
theorem Enc.determined {t : ASTNode} {st st' : State} {res : TseitinRes}
    (h : Enc t st res st') (hi : st.Inv) (sigma sigma' : Int → Bool) :
    formulaSat sigma res.formula = true → formulaSat sigma' res.formula = true →
    (∀ n v, st'.varMap.lookup n = some v → sigma v = sigma' v) →
    ∀ k, st.varCount ≤ k → k < st'.varCount → sigma k = sigma' k := by
  induction h with
  | varOld h => intro _ _ _ k h1 h2; omega
  | @varNew value l r st h =>
    intro _ _ hreg k h1 h2
    have hk : k = st.varCount := by
      have : k < st.varCount + 1 := h2
      omega
    rw [hk]
    exact hreg value st.varCount (by rw [lookup_cons_eq, if_pos rfl])
  | @not value l r st st1 sub h ih =>
    intro hs hs' hreg k h1 h2
    have hnode := @Enc.not value l r st st1 sub h
    have hval := hnode.same_value hi sigma sigma' hs hs' hreg
    rw [formulaSat_append, Bool.and_eq_true] at hs hs'
    have h2' : k < st1.varCount + 1 := h2
    by_cases hk : k < st1.varCount
    · exact ih hi hs.1 hs'.1 hreg k h1 hk
    · have : k = st1.varCount := by omega
      rw [this]
      exact hval
  | @and value l r st st1 st2 leftRes rightRes hl hr ihl ihr =>
    intro hs hs' hreg k h1 h2
    obtain ⟨hi1, -, -, -, -, -⟩ := hl.facts hi
    obtain ⟨-, -, hext2, -, -, -⟩ := hr.facts hi1
    have hnode := @Enc.and value l r st st1 st2 leftRes rightRes hl hr
    have hval := hnode.same_value hi sigma sigma' hs hs' hreg
    rw [formulaSat_append, formulaSat_append, Bool.and_eq_true, Bool.and_eq_true] at hs hs'
    have h2' : k < st2.varCount + 1 := h2
    by_cases hk2 : k < st2.varCount
    · by_cases hk1 : k < st1.varCount
      · exact ihl hi hs.1.1 hs'.1.1 (fun n v hv => hreg n v (hext2 n v hv)) k h1 hk1
      · exact ihr hi1 hs.1.2 hs'.1.2 hreg k (by omega) hk2
    · have : k = st2.varCount := by omega
      rw [this]
      exact hval
  | @or value l r st st1 st2 leftRes rightRes hl hr ihl ihr =>
    intro hs hs' hreg k h1 h2
    obtain ⟨hi1, -, -, -, -, -⟩ := hl.facts hi
    obtain ⟨-, -, hext2, -, -, -⟩ := hr.facts hi1
    have hnode := @Enc.or value l r st st1 st2 leftRes rightRes hl hr
    have hval := hnode.same_value hi sigma sigma' hs hs' hreg
    rw [formulaSat_append, formulaSat_append, Bool.and_eq_true, Bool.and_eq_true] at hs hs'
    have h2' : k < st2.varCount + 1 := h2
    by_cases hk2 : k < st2.varCount
    · by_cases hk1 : k < st1.varCount
      · exact ihl hi hs.1.1 hs'.1.1 (fun n v hv => hreg n v (hext2 n v hv)) k h1 hk1
      · exact ihr hi1 hs.1.2 hs'.1.2 hreg k (by omega) hk2
    · have : k = st2.varCount := by omega
      rw [this]
      exact hval

theorem formulaSat_sub (s : Int → Bool) {f g : Formula} (h : ∀ c ∈ f, c ∈ g)
    (hg : formulaSat s g = true) : formulaSat s f = true := by
  simp only [formulaSat, List.all_eq_true] at hg ⊢
  exact fun c hc => hg c (h c hc)

/-- Every id allocated during a run is the result variable or occurs in a clause. -/
theorem Enc.occurs {t : ASTNode} {st st' : State} {res : TseitinRes} (h : Enc t st res st') :
    ∀ k, st.varCount ≤ k → k < st'.varCount →
      k = res.var ∨ ∃ c ∈ res.formula, ∃ l ∈ c, l = k ∨ l = -k := by
  induction h with
  | varOld h => intro k h1 h2; omega
  | @varNew value l r st h =>
    intro k h1 h2
    have : k < st.varCount + 1 := h2
    exact Or.inl (by show k = st.varCount; omega)
  | @not value l r st st1 sub h ih =>
    intro k h1 h2
    have h2' : k < st1.varCount + 1 := h2
    by_cases hk : k < st1.varCount
    · right
      rcases ih k h1 hk with he | ⟨c, hc, l', hl, hk'⟩
      · exact ⟨[-st1.varCount, -sub.var], by simp, -sub.var, by simp, Or.inr (by rw [he])⟩
      · exact ⟨c, List.mem_append_left _ hc, l', hl, hk'⟩
    · exact Or.inl (by show k = st1.varCount; omega)
  | @and value l r st st1 st2 leftRes rightRes hl hr ihl ihr =>
    intro k h1 h2
    have h2' : k < st2.varCount + 1 := h2
    by_cases hk2 : k < st2.varCount
    · right
      by_cases hk1 : k < st1.varCount
      · rcases ihl k h1 hk1 with he | ⟨c, hc, l', hl', hk'⟩
        · exact ⟨[-st2.varCount, leftRes.var], by simp, leftRes.var, by simp,
            Or.inl (by rw [he])⟩
        · exact ⟨c, List.mem_append_left _ (List.mem_append_left _ hc), l', hl', hk'⟩
      · rcases ihr k (by omega) hk2 with he | ⟨c, hc, l', hl', hk'⟩
        · exact ⟨[-st2.varCount, rightRes.var], by simp, rightRes.var, by simp,
            Or.inl (by rw [he])⟩
        · exact ⟨c, List.mem_append_left _ (List.mem_append_right _ hc), l', hl', hk'⟩
    · exact Or.inl (by show k = st2.varCount; omega)
  | @or value l r st st1 st2 leftRes rightRes hl hr ihl ihr =>
    intro k h1 h2
    have h2' : k < st2.varCount + 1 := h2
    by_cases hk2 : k < st2.varCount
    · right
      by_cases hk1 : k < st1.varCount
      · rcases ihl k h1 hk1 with he | ⟨c, hc, l', hl', hk'⟩
        · exact ⟨[-leftRes.var, st2.varCount], by simp, -leftRes.var, by simp,
            Or.inr (by rw [he])⟩
        · exact ⟨c, List.mem_append_left _ (List.mem_append_left _ hc), l', hl', hk'⟩
      · rcases ihr k (by omega) hk2 with he | ⟨c, hc, l', hl', hk'⟩
        · exact ⟨[-rightRes.var, st2.varCount], by simp, -rightRes.var, by simp,
            Or.inr (by rw [he])⟩
        · exact ⟨c, List.mem_append_left _ (List.mem_append_right _ hc), l', hl', hk'⟩
    · exact Or.inl (by show k = st2.varCount; omega)

/-- C19: encoding a well-formed tree from the fresh state with result `(v, F)` and final counter
`c`, two assignments that satisfy every clause of `F` and agree on the ids of the names of the
tree agree on all of `1..c-1`; under any assignment that satisfies `F` the id of every node has
the truth value of that node's sub-formula; so an assignment of the names that makes the tree
true has exactly one satisfying assignment of the emitted clauses, on `1..c-1`. -/
theorem aux_determined (t : ASTNode) (hwf : wellFormed t = true) :
    ∃ res st', encode t State.fresh = Except.ok (res, st') ∧
      (∀ sigma sigma' : Int → Bool, formulaSat sigma res.formula = true →
        formulaSat sigma' res.formula = true →
        (∀ n ∈ names t, sigma (rho st' n) = sigma' (rho st' n)) →
        ∀ k, 1 ≤ k → k < st'.varCount → sigma k = sigma' k) ∧
      (∀ sigma : Int → Bool, formulaSat sigma res.formula = true →
        ∀ p ∈ calls t State.fresh, ∃ rs ss', encode p.1 p.2 = Except.ok (rs, ss') ∧
          sigma rs.var = evalAST (fun n => sigma (rho st' n)) p.1) ∧
      (∀ alpha : String → Bool, evalAST alpha t = true →
        ∃ sigma : Int → Bool,
          ((∀ n ∈ names t, sigma (rho st' n) = alpha n) ∧
            formulaSat sigma (res.formula ++ [[res.var]]) = true) ∧
          ∀ sigma' : Int → Bool,
            ((∀ n ∈ names t, sigma' (rho st' n) = alpha n) ∧
              formulaSat sigma' (res.formula ++ [[res.var]]) = true) →
            ∀ k, 1 ≤ k → k < st'.varCount → sigma' k = sigma k) := by
  obtain ⟨res, st', he⟩ := encode_total t State.fresh hwf
  have henc := encode_enc t _ _ _ he
  obtain ⟨-, -, -, hv, -, hnames⟩ := henc.facts State.fresh_inv
  have hkeys := henc.count.2
  have huniq : ∀ sigma sigma' : Int → Bool, formulaSat sigma res.formula = true →
      formulaSat sigma' res.formula = true →
      (∀ n ∈ names t, sigma (rho st' n) = sigma' (rho st' n)) →
      ∀ k, 1 ≤ k → k < st'.varCount → sigma k = sigma' k := by
    intro sigma sigma' hs hs' hag k hk1 hk2
    refine henc.determined State.fresh_inv sigma sigma' hs hs' ?_ k hk1 hk2
    intro n v hv'
    have hmem : n ∈ names t := by
      have := (hkeys n).1 ((lookup_isSome_iff _ _).1 ⟨v, hv'⟩)
      simpa [State.fresh] using this
    have := hag n hmem
    simpa only [rho, hv', Option.getD_some] using this
  refine ⟨res, st', he, huniq, ?_, ?_⟩
  · intro sigma hs p hp
    obtain ⟨rs, ss', h1, h2, h3, h4⟩ := henc.calls_sub State.fresh_inv p hp
    exact ⟨rs, ss', enc_encode h1, h1.sound h2 st'.varMap h4 sigma (formulaSat_sub sigma h3 hs)⟩
  · intro alpha ha
    obtain ⟨sigma, -, -, hmap, hsat, hval⟩ :=
      henc.complete State.fresh_inv alpha (fun _ => false)
        (by intro n v h; simp [State.fresh] at h)
    have hnm : ∀ n ∈ names t, sigma (rho st' n) = alpha n := by
      intro n hn
      obtain ⟨v, hv'⟩ := hnames n hn
      simp only [rho, hv', Option.getD_some]
      exact hmap n v hv'
    refine ⟨sigma, ⟨hnm, ?_⟩, ?_⟩
    · rw [formulaSat_append, Bool.and_eq_true, formulaSat_unit sigma hv.1, hval]
      exact ⟨hsat, ha⟩
    · rintro sigma' ⟨hnm', hs'⟩ k hk1 hk2
      rw [formulaSat_append, Bool.and_eq_true] at hs'
      exact huniq sigma' sigma hs'.1 hsat (fun n hn => by rw [hnm' n hn, hnm n hn]) k hk1 hk2

theorem aux_determined_witness :
    wellFormed (ASTNode.node NodeType.NOT ""
        (ASTNode.node NodeType.VAR "A" ASTNode.null ASTNode.null) ASTNode.null) = true ∧
      ∃ res st', encode (ASTNode.node NodeType.NOT ""
        (ASTNode.node NodeType.VAR "A" ASTNode.null ASTNode.null) ASTNode.null) State.fresh =
          Except.ok (res, st') ∧
        ∀ sigma sigma' : Int → Bool, formulaSat sigma res.formula = true →
          formulaSat sigma' res.formula = true →
          (∀ n ∈ names (ASTNode.node NodeType.NOT ""
            (ASTNode.node NodeType.VAR "A" ASTNode.null ASTNode.null) ASTNode.null),
            sigma (rho st' n) = sigma' (rho st' n)) →
          ∀ k, 1 ≤ k → k < st'.varCount → sigma k = sigma' k :=
  ⟨rfl,
    (aux_determined (ASTNode.node NodeType.NOT ""
        (ASTNode.node NodeType.VAR "A" ASTNode.null ASTNode.null) ASTNode.null) rfl).imp
      (fun _ h => h.imp (fun _ h' => ⟨h'.1, h'.2.1⟩))⟩

/-- C20: encoding a well-formed tree from the fresh state with final counter `c`, every id `k`
with `1 ≤ k ≤ c-1` occurs, positively or negatively, in a clause of the final formula (the
clauses of `encode` followed by the unit clause of the root), and the root variable is `c-1`,
the number `DIMACS` prints as `<numVars>`, so the unit clause is `[<numVars>]`. -/
theorem no_unused_variable (t : ASTNode) (hwf : wellFormed t = true) :
    ∃ res st', encode t State.fresh = Except.ok (res, st') ∧
      (∀ k, 1 ≤ k → k ≤ st'.varCount - 1 →
        ∃ c ∈ res.formula ++ [[res.var]], ∃ l ∈ c, l = k ∨ l = -k) ∧
      res.var = st'.varCount - 1 ∧
      res.formula ++ [[res.var]] = res.formula ++ [[st'.varCount - 1]] ∧
      DIMACS st' ⟨res.var, res.formula ++ [[res.var]]⟩ =
        headerLine (st'.varCount - 1) (res.formula ++ [[res.var]]).length ++
          String.join ((res.formula ++ [[res.var]]).map clauseLine) := by
  obtain ⟨res, st', he⟩ := encode_total t State.fresh hwf
  have henc := encode_enc t _ _ _ he
  have hroot : res.var = st'.varCount - 1 := by
    rcases henc.root with h | ⟨n, h⟩
    · exact h
    · simp [State.fresh] at h
  refine ⟨res, st', he, ?_, hroot, by rw [← hroot], DIMACS_eq _ _⟩
  intro k hk1 hk2
  rcases henc.occurs k hk1 (by omega) with hk | ⟨c, hc, l, hl, hk⟩
  · exact ⟨[res.var], List.mem_append_right _ (List.mem_singleton.2 rfl), res.var,
      List.mem_singleton.2 rfl, Or.inl hk.symm⟩
  · exact ⟨c, List.mem_append_left _ hc, l, hl, hk⟩

theorem no_unused_variable_witness :
    wellFormed (ASTNode.node NodeType.OR ""
        (ASTNode.node NodeType.VAR "A" ASTNode.null ASTNode.null)
        (ASTNode.node NodeType.VAR "B" ASTNode.null ASTNode.null)) = true ∧
      ∃ res st', encode (ASTNode.node NodeType.OR ""
        (ASTNode.node NodeType.VAR "A" ASTNode.null ASTNode.null)
        (ASTNode.node NodeType.VAR "B" ASTNode.null ASTNode.null)) State.fresh =
          Except.ok (res, st') ∧
        res.var = st'.varCount - 1 :=
  ⟨rfl,
    (no_unused_variable (ASTNode.node NodeType.OR ""
        (ASTNode.node NodeType.VAR "A" ASTNode.null ASTNode.null)
        (ASTNode.node NodeType.VAR "B" ASTNode.null ASTNode.null)) rfl).imp
      (fun _ h => h.imp (fun _ h' => ⟨h'.1, h'.2.2.1⟩))⟩

/-! ## The token of a word in the sequence `tokenize` returns -/

/-- The tokens already accumulated are kept in front of those the loop goes on to produce. -/
theorem tokenizeLoop_acc (fuel : Nat) : ∀ (cs : List Char) (acc : List Token),
    tokenizeLoop fuel cs acc =
      match tokenizeLoop fuel cs [] with
      | Except.ok ts => Except.ok (acc ++ ts)
      | Except.error e => Except.error e := by
  induction fuel with
  | zero => intro cs acc; rfl
  | succ fuel ih =>
    intro cs acc
    have step : ∀ (rest : List Char) (t : Token),
        tokenizeLoop fuel rest (acc ++ [t]) =
          match tokenizeLoop fuel rest ([] ++ [t]) with
          | Except.ok ts => Except.ok (acc ++ ts)
          | Except.error e => Except.error e := by
      intro rest t
      rw [ih rest (acc ++ [t]), ih rest ([] ++ [t])]
      cases tokenizeLoop fuel rest [] with
      | error e => rfl
      | ok ts => simp
    simp only [tokenizeLoop]
    split
    · simp
    · split
      · simp
      · split
        · exact step _ _
        · split
          · exact step _ _
          · split
            · exact step _ _
            · rfl

/-- The result of the loop does not depend on the fuel once there is more of it than text. -/
theorem tokenizeLoop_fuel (fuel : Nat) : ∀ (fuel' : Nat) (cs : List Char) (acc : List Token),
    cs.length < fuel → cs.length < fuel' →
    tokenizeLoop fuel cs acc = tokenizeLoop fuel' cs acc := by
  induction fuel with
  | zero => intro fuel' cs acc h; omega
  | succ fuel ih =>
    intro fuel' cs acc h1 h2
    cases fuel' with
    | zero => omega
    | succ fuel' =>
      simp only [tokenizeLoop]
      split
      · rfl
      · next a as =>
        have hd := length_dropWhile_le isspace (a :: as)
        split
        · rfl
        · next c rest hrest =>
          rw [hrest] at hd
          simp only [List.length_cons] at hd h1 h2
          split
          · exact ih _ _ _ (by omega) (by omega)
          · split
            · exact ih _ _ _ (by omega) (by omega)
            · split
              · next hal =>
                have hd2 := length_dropWhile_le isWordChar rest
                rw [List.dropWhile_cons, if_pos (isWordChar_of_isalpha hal)]
                exact ih _ _ _ (by omega) (by omega)
              · rfl

theorem dropWhile_append_of_ne_nil (p : Char → Bool) (l r : List Char)
    (h : l.dropWhile p ≠ []) :
    (l ++ r).dropWhile p = l.dropWhile p ++ r ∧ (l ++ r).takeWhile p = l.takeWhile p := by
  induction l with
  | nil => exact absurd rfl h
  | cons a l ih =>
    by_cases ha : p a = true
    · rw [List.dropWhile_cons, if_pos ha] at h
      obtain ⟨h1, h2⟩ := ih h
      simp only [List.cons_append, List.dropWhile_cons, List.takeWhile_cons, if_pos ha, h1, h2]
      exact ⟨trivial, trivial⟩
    · simp only [List.cons_append, List.dropWhile_cons, List.takeWhile_cons, if_neg ha]
      exact ⟨trivial, trivial⟩

theorem dropWhile_ne_nil_of_last (p : Char → Bool) (pre' : List Char) (x : Char)
    (hx : p x = false) : (pre' ++ [x]).dropWhile p ≠ [] := by
  induction pre' with
  | nil => simp [List.dropWhile_cons, hx]
  | cons a l ih =>
    rw [List.cons_append, List.dropWhile_cons]
    split
    · exact ih
    · exact List.cons_ne_nil _ _

theorem dropWhile_suffix (p : Char → Bool) (l : List Char) :
    ∃ s, l = s ++ l.dropWhile p :=
  ⟨l.takeWhile p, (List.takeWhile_append_dropWhile p l).symm⟩

theorem exists_last (l : List Char) (h : l ≠ []) : ∃ l' x, l = l' ++ [x] := by
  induction l with
  | nil => exact absurd rfl h
  | cons a l ih =>
    cases l with
    | nil => exact ⟨[], a, rfl⟩
    | cons b l =>
      obtain ⟨l', x, hl⟩ := ih (List.cons_ne_nil _ _)
      exact ⟨a :: l', x, by rw [hl]; rfl⟩

theorem word_split (pre1 rest : List Char)
    (h : (∃ x ∈ pre1, isWordChar x = false) ∨ ∀ x, rest.head? = some x → isWordChar x = false) :
    (pre1 ++ rest).dropWhile isWordChar = pre1.dropWhile isWordChar ++ rest ∧
      (pre1 ++ rest).takeWhile isWordChar = pre1.takeWhile isWordChar := by
  induction pre1 with
  | nil =>
    rcases h with ⟨x, hx, -⟩ | h
    · cases hx
    · have := takeWhile_run [] rest (fun x hx => by cases hx) h
      simpa using this.symm
  | cons a l ih =>
    by_cases ha : isWordChar a = true
    · have h' : (∃ x ∈ l, isWordChar x = false) ∨
          ∀ x, rest.head? = some x → isWordChar x = false := by
        rcases h with ⟨x, hx, hxw⟩ | h
        · rcases List.mem_cons.1 hx with rfl | hx
          · rw [ha] at hxw; cases hxw
          · exact Or.inl ⟨x, hx, hxw⟩
        · exact Or.inr h
      obtain ⟨h1, h2⟩ := ih h'
      simp only [List.cons_append, List.dropWhile_cons, List.takeWhile_cons, if_pos ha, h1, h2]
      exact ⟨trivial, trivial⟩
    · simp only [List.cons_append, List.dropWhile_cons, List.takeWhile_cons, if_neg ha]
      exact ⟨trivial, trivial⟩

/-- One iteration of the loop on a text whose first character after whitespace is `c`. -/
theorem tokenizeLoop_step (fuel : Nat) (cs : List Char) (tokens : List Token) (c : Char)
    (rest : List Char) (hd : cs.dropWhile isspace = c :: rest) :
    tokenizeLoop (fuel + 1) cs tokens =
      if c = '(' then tokenizeLoop fuel rest (tokens ++ [⟨TokenType.LP_t, "("⟩])
      else if c = ')' then tokenizeLoop fuel rest (tokens ++ [⟨TokenType.RP_t, ")"⟩])
      else if isalpha c then
        tokenizeLoop fuel ((c :: rest).dropWhile isWordChar)
          (tokens ++ [wordToken (String.mk ((c :: rest).takeWhile isWordChar))])
      else Except.error (Failure.unexpectedChar c) := by
  cases cs with
  | nil => cases hd
  | cons a as => simp only [tokenizeLoop, hd]

/-- The loop run on a text followed by more text: when the text alone is accepted, does not end
in whitespace and its last word is not continued by what follows, the loop reaches what follows
with exactly the tokens of the text added to the accumulated ones. -/
theorem tokenizeLoop_prefix (n : Nat) : ∀ (pre rest : List Char) (T1 : List Token),
    pre.length ≤ n → tokenizeLoop (pre.length + 1) pre [] = Except.ok T1 →
    (∀ pre' p, pre = pre' ++ [p] → isspace p = false ∧
      (isWordChar p = true → ∀ x, rest.head? = some x → isWordChar x = false)) →
    ∀ (fuel : Nat) (acc : List Token), (pre ++ rest).length < fuel →
      ∃ fuel', rest.length < fuel' ∧
        tokenizeLoop fuel (pre ++ rest) acc = tokenizeLoop fuel' rest (acc ++ T1) := by
  induction n with
  | zero =>
    intro pre rest T1 hlen h1 _ fuel acc hf
    have hnil : pre = [] := List.length_eq_zero.1 (by omega)
    subst hnil
    simp only [tokenizeLoop, List.length_nil] at h1
    cases h1
    exact ⟨fuel, by simpa using hf, by simp⟩
  | succ n ih =>
    intro pre rest T1 hlen h1 hb fuel acc hf
    cases pre with
    | nil =>
      simp only [tokenizeLoop, List.length_nil] at h1
      cases h1
      exact ⟨fuel, by simpa using hf, by simp⟩
    | cons a as =>
      obtain ⟨pre', p, hp⟩ := exists_last (a :: as) (List.cons_ne_nil _ _)
      have hsp := (hb pre' p hp).1
      have hne : (a :: as).dropWhile isspace ≠ [] := by
        rw [hp]; exact dropWhile_ne_nil_of_last isspace pre' p hsp
      obtain ⟨s, hs⟩ := dropWhile_suffix isspace (a :: as)
      have hdw := (dropWhile_append_of_ne_nil isspace (a :: as) rest hne).1
      cases hd : (a :: as).dropWhile isspace with
      | nil => exact absurd hd hne
      | cons ch pre1 =>
        rw [hd] at hs hdw
        have hlen1 : pre1.length ≤ as.length := by
          have := congrArg List.length hs
          simp only [List.length_cons, List.length_append] at this
          omega
        have hbs : ∀ s2 pre2 : List Char, a :: as = s2 ++ pre2 →
            ∀ pre' p, pre2 = pre' ++ [p] → isspace p = false ∧
              (isWordChar p = true → ∀ x, rest.head? = some x → isWordChar x = false) := by
          intro s2 pre2 h2 q' q hq
          exact hb (s2 ++ q') q (by rw [h2, hq, List.append_assoc])
        cases fuel with
        | zero => omega
        | succ f =>
          have hflen : ((a :: as) ++ rest).length < f + 1 := hf
          simp only [List.length_cons, List.length_append] at hflen hlen
          have finish : ∀ (t : Token) (pre2 s2 : List Char), a :: as = s2 ++ pre2 →
              pre2.length ≤ as.length →
              tokenizeLoop (as.length + 1) pre2 ([] ++ [t]) = Except.ok T1 →
              ∃ fuel', rest.length < fuel' ∧
                tokenizeLoop f (pre2 ++ rest) (acc ++ [t]) =
                  tokenizeLoop fuel' rest (acc ++ T1) := by
            intro t pre2 s2 h2 hl2 ht
            rw [tokenizeLoop_acc] at ht
            cases hX : tokenizeLoop (as.length + 1) pre2 [] with
            | error e => rw [hX] at ht; cases ht
            | ok T1' =>
              rw [hX] at ht
              have hT : T1 = [t] ++ T1' := by
                cases ht; rfl
              have hX' : tokenizeLoop (pre2.length + 1) pre2 [] = Except.ok T1' := by
                rw [tokenizeLoop_fuel _ (as.length + 1) pre2 [] (by omega) (by omega)]
                exact hX
              obtain ⟨fuel', hf', heq⟩ := ih pre2 rest T1' (by omega) hX' (hbs s2 pre2 h2) f
                (acc ++ [t]) (by simp only [List.length_append]; omega)
              refine ⟨fuel', hf', ?_⟩
              rw [heq, hT, List.append_assoc]
          have hdw' : (a :: (as ++ rest)).dropWhile isspace = ch :: (pre1 ++ rest) := by
            simpa using hdw
          rw [List.length_cons, tokenizeLoop_step _ _ _ _ _ hd] at h1
          rw [List.cons_append, tokenizeLoop_step _ _ _ _ _ hdw']
          by_cases hc1 : ch = '('
          · simp only [if_pos hc1] at h1 ⊢
            exact finish _ pre1 (s ++ [ch]) (by rw [hs]; simp) hlen1 h1
          · by_cases hc2 : ch = ')'
            · simp only [if_neg hc1, if_pos hc2] at h1 ⊢
              exact finish _ pre1 (s ++ [ch]) (by rw [hs]; simp) hlen1 h1
            · by_cases hal : isalpha ch = true
              · have hw := isWordChar_of_isalpha hal
                have hsplit : (pre1 ++ rest).dropWhile isWordChar =
                    pre1.dropWhile isWordChar ++ rest ∧
                    (pre1 ++ rest).takeWhile isWordChar = pre1.takeWhile isWordChar := by
                  apply word_split
                  by_cases hall : ∀ x ∈ pre1, isWordChar x = true
                  · right
                    obtain ⟨q', q, hq⟩ := exists_last (ch :: pre1) (List.cons_ne_nil _ _)
                    have hqm : q ∈ ch :: pre1 := by rw [hq]; simp
                    have hqw : isWordChar q = true := by
                      rcases List.mem_cons.1 hqm with rfl | hqm
                      · exact hw
                      · exact hall q hqm
                    exact (hbs s (ch :: pre1) hs q' q hq).2 hqw
                  · left
                    push_neg at hall
                    obtain ⟨x, hx, hxw⟩ := hall
                    exact ⟨x, hx, by simpa using hxw⟩
                simp only [if_neg hc1, if_neg hc2, hal, if_true, List.dropWhile_cons,
                  List.takeWhile_cons, hw] at h1 ⊢
                rw [hsplit.1, hsplit.2]
                obtain ⟨s3, hs3⟩ := dropWhile_suffix isWordChar pre1
                have hl3 := length_dropWhile_le isWordChar pre1
                exact finish _ (pre1.dropWhile isWordChar) (s ++ ch :: s3)
                  (by rw [hs, List.append_assoc]; congr 1; rw [List.cons_append, ← hs3]) (by omega)
                  h1
              · simp only [if_neg hc1, if_neg hc2, hal] at h1
                cases h1

/-- The token of a word in the returned sequence: when the text `pre` before the run and the
text `post` after it are accepted, the input `pre`, whitespace `sp`, run, `post` yields the
tokens of `pre`, then the one token of the run, then the tokens of `post`. -/
theorem tokenize_word (pre sp ws post : List Char) (c : Char) (T1 T2 : List Token)
    (h1 : tokenize (String.mk pre) = Except.ok T1)
    (h2 : tokenize (String.mk post) = Except.ok T2)
    (hb : ∀ pre' p, pre = pre' ++ [p] → isspace p = false ∧ (sp = [] → isWordChar p = false))
    (hsp : ∀ x ∈ sp, isspace x = true) (hc : isalpha c = true)
    (hws : ∀ x ∈ ws, isWordChar x = true)
    (hpost : ∀ x, post.head? = some x → isWordChar x = false) :
    tokenize (String.mk (pre ++ (sp ++ c :: (ws ++ post)))) =
      Except.ok (T1 ++ wordToken (String.mk (c :: ws)) :: T2) := by
  have h1' : tokenizeLoop (pre.length + 1) pre [] = Except.ok T1 := h1
  have h2' : tokenizeLoop (post.length + 1) post [] = Except.ok T2 := h2
  have hb' : ∀ pre' p, pre = pre' ++ [p] → isspace p = false ∧
      (isWordChar p = true → ∀ x, (sp ++ c :: (ws ++ post)).head? = some x →
        isWordChar x = false) := by
    intro pre' p hp
    refine ⟨(hb pre' p hp).1, ?_⟩
    intro hpw x hx
    cases sp with
    | nil =>
      have := (hb pre' p hp).2 rfl
      rw [hpw] at this
      cases this
    | cons y sp =>
      simp only [List.cons_append, List.head?_cons, Option.some.injEq] at hx
      subst hx
      cases hxw : isWordChar y
      · rfl
      · have := isspace_of_isWordChar hxw
        rw [hsp y (List.mem_cons_self y sp)] at this
        cases this
  obtain ⟨fuel', hf', heq⟩ := tokenizeLoop_prefix pre.length pre (sp ++ c :: (ws ++ post)) T1
    (le_refl _) h1' hb' ((pre ++ (sp ++ c :: (ws ++ post))).length + 1) [] (Nat.lt_succ_self _)
  show tokenizeLoop ((pre ++ (sp ++ c :: (ws ++ post))).length + 1)
    (pre ++ (sp ++ c :: (ws ++ post))) [] = _
  rw [heq]
  cases fuel' with
  | zero => omega
  | succ f =>
    simp only [List.length_append, List.length_cons] at hf'
    rw [tokenizeLoop_word f sp ws post c _ hsp hc hws hpost, tokenizeLoop_acc,
      tokenizeLoop_fuel f (post.length + 1) post [] (by omega) (by omega), h2']
    simp

/-- C13: each maximal run of letters, digits and underscores that starts with a letter at a
token position yields exactly one token.  In the sequence `tokenize` returns: when the text
`pre` before the run (taken up to the whitespace `sp` that precedes the run) and the text `post`
after it are accepted, the input yields the tokens of `pre`, then the one token of the run, then
the tokens of `post`.  In the loop: with the cursor before the run, one iteration appends that
token to the accumulated ones and goes on right after the run.  The token is the `NOT`, `AND`
or `OR` operator when the run is exactly that upper-case word and otherwise an identifier
carrying the run verbatim.  So `and`, `Not`, `ANDY` and `OR_1` are identifiers, and every
identifier token that `tokenize` returns is non-empty, starts with a letter, contains only
letters, digits and underscores and is not a reserved word. -/
theorem word_classification :
    (∀ (fuel : Nat) (sp ws post : List Char) (c : Char) (tokens : List Token),
      (∀ x ∈ sp, isspace x = true) → isalpha c = true → (∀ x ∈ ws, isWordChar x = true) →
      (∀ x, post.head? = some x → isWordChar x = false) →
      tokenizeLoop (fuel + 1) (sp ++ c :: (ws ++ post)) tokens =
        tokenizeLoop fuel post (tokens ++ [wordToken (String.mk (c :: ws))])) ∧
    (wordToken "NOT" = ⟨TokenType.NOT_t, "NOT"⟩ ∧ wordToken "AND" = ⟨TokenType.AND_t, "AND"⟩ ∧
      wordToken "OR" = ⟨TokenType.OR_t, "OR"⟩ ∧
      ∀ w : String, w ≠ "NOT" → w ≠ "AND" → w ≠ "OR" → wordToken w = ⟨TokenType.VAR_t, w⟩) ∧
    (tokenize "and" = Except.ok [⟨TokenType.VAR_t, "and"⟩] ∧
      tokenize "Not" = Except.ok [⟨TokenType.VAR_t, "Not"⟩] ∧
      tokenize "ANDY" = Except.ok [⟨TokenType.VAR_t, "ANDY"⟩] ∧
      tokenize "OR_1" = Except.ok [⟨TokenType.VAR_t, "OR_1"⟩] ∧
      tokenize "NOT AND OR" =
        Except.ok [⟨TokenType.NOT_t, "NOT"⟩, ⟨TokenType.AND_t, "AND"⟩, ⟨TokenType.OR_t, "OR"⟩]) ∧
    (∀ (s : String) (ts : List Token), tokenize s = Except.ok ts →
      ∀ t ∈ ts, t.type = TokenType.VAR_t →
        t.value ≠ "" ∧ identOK t.value) ∧
    (∀ (pre sp ws post : List Char) (c : Char) (T1 T2 : List Token),
      tokenize (String.mk pre) = Except.ok T1 →
      tokenize (String.mk post) = Except.ok T2 →
      (∀ pre' p, pre = pre' ++ [p] → isspace p = false ∧ (sp = [] → isWordChar p = false)) →
      (∀ x ∈ sp, isspace x = true) → isalpha c = true → (∀ x ∈ ws, isWordChar x = true) →
      (∀ x, post.head? = some x → isWordChar x = false) →
      tokenize (String.mk (pre ++ (sp ++ c :: (ws ++ post)))) =
        Except.ok (T1 ++ wordToken (String.mk (c :: ws)) :: T2)) := by
  refine ⟨tokenizeLoop_word, ⟨rfl, rfl, rfl, ?_⟩, ⟨rfl, rfl, rfl, rfl, rfl⟩, ?_, tokenize_word⟩
  · intro w h1 h2 h3
    simp only [wordToken, if_neg h1, if_neg h2, if_neg h3]
  · intro s ts h t ht hty
    have hid := tokenizeLoop_idents _ _ _ _ h (fun t ht => by cases ht) t ht hty
    refine ⟨?_, hid⟩
    intro he
    obtain ⟨⟨c, cs, hd, -, -⟩, -⟩ := hid
    rw [he] at hd
    cases hd

theorem word_classification_witness :
    tokenize (String.mk ('(' :: 'x' :: [] ++ (' ' :: [] ++ 'A' :: ('N' :: 'D' :: 'Y' :: [] ++
        (' ' :: 'O' :: 'R' :: ' ' :: 'y' :: ')' :: []))))) =
      Except.ok ([⟨TokenType.LP_t, "("⟩, ⟨TokenType.VAR_t, "x"⟩] ++
        wordToken (String.mk ('A' :: 'N' :: 'D' :: 'Y' :: [])) ::
          [⟨TokenType.OR_t, "OR"⟩, ⟨TokenType.VAR_t, "y"⟩, ⟨TokenType.RP_t, ")"⟩]) :=
  word_classification.2.2.2.2 ('(' :: 'x' :: []) (' ' :: []) ('N' :: 'D' :: 'Y' :: [])
    (' ' :: 'O' :: 'R' :: ' ' :: 'y' :: ')' :: []) 'A' _ _ rfl rfl
    (by
      intro pre' p hp
      have hlast : p = 'x' := by
        have := congrArg List.getLast? hp
        simpa using this.symm
      subst hlast
      exact ⟨by decide, fun h => by cases h⟩)
    (by decide) (by decide) (by decide) (by decide)

/-! ## The ids that the invocations return -/

theorem keepNewBy_congr {α κ : Type} [DecidableEq κ] (key : α → Option κ) (l : List α) :
    ∀ s s' : List κ, (∀ k, k ∈ s ↔ k ∈ s') → keepNewBy key s l = keepNewBy key s' l := by
  induction l with
  | nil => intro s s' _; rfl
  | cons x l ih =>
    intro s s' h
    simp only [keepNewBy]
    cases hk : key x with
    | none =>
      simp only []
      rw [ih s s' h]
    | some k =>
      simp only []
      by_cases hm : k ∈ s
      · rw [if_pos hm, if_pos ((h k).1 hm)]
        exact ih s s' h
      · rw [if_neg hm, if_neg (fun h' => hm ((h k).2 h'))]
        congr 1
        apply ih
        intro j
        simp only [List.mem_cons, h j]

theorem keepNewBy_append {α κ : Type} [DecidableEq κ] (key : α → Option κ) (l m : List α) :
    ∀ s s' : List κ, (∀ k, k ∈ s' ↔ k ∈ s ∨ k ∈ l.filterMap key) →
      keepNewBy key s (l ++ m) = keepNewBy key s l ++ keepNewBy key s' m := by
  induction l with
  | nil =>
    intro s s' h
    simp only [List.nil_append, keepNewBy]
    apply keepNewBy_congr
    intro k
    rw [h k]
    simp
  | cons x l ih =>
    intro s s' h
    simp only [List.cons_append, keepNewBy]
    cases hk : key x with
    | none =>
      simp only []
      rw [List.cons_append]
      congr 1
      apply ih
      intro k
      rw [h k, List.filterMap_cons, hk]
    | some k =>
      simp only []
      have hfm : ∀ j, j ∈ (x :: l).filterMap key ↔ j = k ∨ j ∈ l.filterMap key := by
        intro j
        rw [List.filterMap_cons, hk]
        exact List.mem_cons
      by_cases hm : k ∈ s
      · rw [if_pos hm, if_pos hm]
        apply ih
        intro j
        rw [h j, hfm j]
        constructor
        · rintro (hj | rfl | hj)
          · exact Or.inl hj
          · exact Or.inl hm
          · exact Or.inr hj
        · rintro (hj | hj)
          · exact Or.inl hj
          · exact Or.inr (Or.inr hj)
      · rw [if_neg hm, if_neg hm, List.cons_append]
        congr 1
        apply ih
        intro j
        rw [h j, hfm j, List.mem_cons]
        tauto

theorem returned_of_enc {t : ASTNode} {st st' : State} {res : TseitinRes}
    (h : Enc t st res st') : returned (t, st) = res.var := by
  simp only [returned, enc_encode h]

/-- What every invocation made during a run returns: an id between 1 and the final counter;
for a `VAR` leaf the id the final registry stores for its name; for another node an id taken
from the counter during the run, which the registry never stores. -/
theorem Enc.calls_facts {t : ASTNode} {st st' : State} {res : TseitinRes}
    (h : Enc t st res st') (hi : st.Inv) :
    ∀ p ∈ calls t st, 1 ≤ returned p ∧ returned p < st'.varCount ∧
      (∀ n, leafName p.1 = some n → st'.varMap.lookup n = some (returned p)) ∧
      (leafName p.1 = none → st.varCount ≤ returned p ∧
        ∀ n v, st'.varMap.lookup n = some v → v ≠ returned p) := by
  induction h with
  | @varOld value l r st v h =>
    intro p hp
    simp only [calls, List.mem_singleton] at hp
    subst hp
    rw [returned_of_enc (@Enc.varOld value l r st v h)]
    have hb := hi.bound _ _ h
    refine ⟨hb.1, hb.2, ?_, fun hn => by simp [leafName] at hn⟩
    intro n hn
    simp only [leafName, Option.some.injEq] at hn
    subst hn
    exact h
  | @varNew value l r st h =>
    intro p hp
    simp only [calls, List.mem_singleton] at hp
    subst hp
    rw [returned_of_enc (@Enc.varNew value l r st h)]
    have hpos := hi.pos
    refine ⟨hpos, by show st.varCount < st.varCount + 1; omega, ?_,
      fun hn => by simp [leafName] at hn⟩
    intro n hn
    simp only [leafName, Option.some.injEq] at hn
    subst hn
    show ((value, st.varCount) :: st.varMap).lookup value = some st.varCount
    rw [lookup_cons_eq, if_pos rfl]
  | @not value l r st st1 sub h ih =>
    intro p hp
    obtain ⟨hi1, -, -, -, -, -⟩ := h.facts hi
    have hle := h.counter_le
    simp only [calls, List.mem_append, List.mem_singleton] at hp
    rcases hp with hp | hp
    · obtain ⟨h1, h2, h3, h4⟩ := ih hi p hp
      exact ⟨h1, by show returned p < st1.varCount + 1; omega, h3, h4⟩
    · subst hp
      rw [returned_of_enc (@Enc.not value l r st st1 sub h)]
      dsimp only
      have hpos := hi1.pos
      refine ⟨hpos, by show st1.varCount < st1.varCount + 1; omega,
        fun n hn => by simp [leafName] at hn, fun _ => ⟨hle, ?_⟩⟩
      intro n v hv
      have := (hi1.bound n v hv).2
      omega
  | @and value l r st st1 st2 leftRes rightRes hl hr ihl ihr =>
    intro p hp
    obtain ⟨hi1, -, -, -, -, -⟩ := hl.facts hi
    obtain ⟨hi2, -, hext2, -, -, -⟩ := hr.facts hi1
    have hle1 := hl.counter_le
    have hle2 := hr.counter_le
    simp only [calls, enc_encode hl, List.mem_append, List.mem_singleton] at hp
    rcases hp with (hp | hp) | hp
    · obtain ⟨h1, h2, h3, h4⟩ := ihl hi p hp
      refine ⟨h1, by show returned p < st2.varCount + 1; omega,
        fun n hn => hext2 n _ (h3 n hn), fun hn => ⟨(h4 hn).1, ?_⟩⟩
      intro n v hv
      rcases hr.new_entries n v hv with h5 | h5
      · exact (h4 hn).2 n v h5
      · omega
    · obtain ⟨h1, h2, h3, h4⟩ := ihr hi1 p hp
      exact ⟨h1, by show returned p < st2.varCount + 1; omega, h3,
        fun hn => ⟨by have := (h4 hn).1; omega, (h4 hn).2⟩⟩
    · subst hp
      rw [returned_of_enc (@Enc.and value l r st st1 st2 leftRes rightRes hl hr)]
      dsimp only
      have hpos := hi2.pos
      refine ⟨hpos, by show st2.varCount < st2.varCount + 1; omega,
        fun n hn => by simp [leafName] at hn, fun _ => ⟨by omega, ?_⟩⟩
      intro n v hv
      have := (hi2.bound n v hv).2
      omega
  | @or value l r st st1 st2 leftRes rightRes hl hr ihl ihr =>
    intro p hp
    obtain ⟨hi1, -, -, -, -, -⟩ := hl.facts hi
    obtain ⟨hi2, -, hext2, -, -, -⟩ := hr.facts hi1
    have hle1 := hl.counter_le
    have hle2 := hr.counter_le
    simp only [calls, enc_encode hl, List.mem_append, List.mem_singleton] at hp
    rcases hp with (hp | hp) | hp
    · obtain ⟨h1, h2, h3, h4⟩ := ihl hi p hp
      refine ⟨h1, by show returned p < st2.varCount + 1; omega,
        fun n hn => hext2 n _ (h3 n hn), fun hn => ⟨(h4 hn).1, ?_⟩⟩
      intro n v hv
      rcases hr.new_entries n v hv with h5 | h5
      · exact (h4 hn).2 n v h5
      · omega
    · obtain ⟨h1, h2, h3, h4⟩ := ihr hi1 p hp
      exact ⟨h1, by show returned p < st2.varCount + 1; omega, h3,
        fun hn => ⟨by have := (h4 hn).1; omega, (h4 hn).2⟩⟩
    · subst hp
      rw [returned_of_enc (@Enc.or value l r st st1 st2 leftRes rightRes hl hr)]
      dsimp only
      have hpos := hi2.pos
      refine ⟨hpos, by show st2.varCount < st2.varCount + 1; omega,
        fun n hn => by simp [leafName] at hn, fun _ => ⟨by omega, ?_⟩⟩
      intro n v hv
      have := (hi2.bound n v hv).2
      omega

/-- Every id taken from the counter during a run is returned by one of its invocations. -/
theorem Enc.returned_cover {t : ASTNode} {st st' : State} {res : TseitinRes}
    (h : Enc t st res st') :
    ∀ k, st.varCount ≤ k → k < st'.varCount → k ∈ (calls t st).map returned := by
  induction h with
  | varOld h => intro k h1 h2; omega
  | @varNew value l r st h =>
    intro k h1 h2
    have h2' : k < st.varCount + 1 := h2
    have hk : k = st.varCount := by omega
    simp only [calls, List.map_cons, List.map_nil, List.mem_singleton,
      returned_of_enc (@Enc.varNew value l r st h)]
    exact hk
  | @not value l r st st1 sub h ih =>
    intro k h1 h2
    have h2' : k < st1.varCount + 1 := h2
    simp only [calls, List.map_append, List.map_cons, List.map_nil, List.mem_append,
      List.mem_singleton, returned_of_enc (@Enc.not value l r st st1 sub h)]
    by_cases hk : k < st1.varCount
    · exact Or.inl (ih k h1 hk)
    · exact Or.inr (by show k = st1.varCount; omega)
  | @and value l r st st1 st2 leftRes rightRes hl hr ihl ihr =>
    intro k h1 h2
    have h2' : k < st2.varCount + 1 := h2
    simp only [calls, enc_encode hl, List.map_append, List.map_cons, List.map_nil,
      List.mem_append, List.mem_singleton,
      returned_of_enc (@Enc.and value l r st st1 st2 leftRes rightRes hl hr)]
    by_cases hk2 : k < st2.varCount
    · by_cases hk1 : k < st1.varCount
      · exact Or.inl (Or.inl (ihl k h1 hk1))
      · exact Or.inl (Or.inr (ihr k (by omega) hk2))
    · exact Or.inr (by show k = st2.varCount; omega)
  | @or value l r st st1 st2 leftRes rightRes hl hr ihl ihr =>
    intro k h1 h2
    have h2' : k < st2.varCount + 1 := h2
    simp only [calls, enc_encode hl, List.map_append, List.map_cons, List.map_nil,
      List.mem_append, List.mem_singleton,
      returned_of_enc (@Enc.or value l r st st1 st2 leftRes rightRes hl hr)]
    by_cases hk2 : k < st2.varCount
    · by_cases hk1 : k < st1.varCount
      · exact Or.inl (Or.inl (ihl k h1 hk1))
      · exact Or.inl (Or.inr (ihr k (by omega) hk2))
    · exact Or.inr (by show k = st2.varCount; omega)

theorem Enc.calls_names {t : ASTNode} {st st' : State} {res : TseitinRes}
    (h : Enc t st res st') : (calls t st).filterMap (fun p => leafName p.1) = names t := by
  induction h with
  | varOld h => simp [calls, leafName, names]
  | varNew h => simp [calls, leafName, names]
  | not h ih =>
    simp only [calls, List.filterMap_append, ih, names]
    simp [leafName]
  | and hl hr ihl ihr =>
    simp only [calls, enc_encode hl, List.filterMap_append, ihl, ihr, names]
    simp [leafName]
  | or hl hr ihl ihr =>
    simp only [calls, enc_encode hl, List.filterMap_append, ihl, ihr, names]
    simp [leafName]

theorem keepNewBy_single_new {α κ : Type} [DecidableEq κ] (key : α → Option κ) (s : List κ)
    (x : α) (h : ∀ k, key x = some k → k ∉ s) : keepNewBy key s [x] = [x] := by
  simp only [keepNewBy]
  cases hk : key x with
  | none => rfl
  | some k =>
    simp only []
    rw [if_neg (h k hk)]

theorem keepNewBy_single_old {α κ : Type} [DecidableEq κ] (key : α → Option κ) (s : List κ)
    (x : α) (k : κ) (hk : key x = some k) (h : k ∈ s) : keepNewBy key s [x] = [] := by
  simp only [keepNewBy, hk, if_pos h]

theorem mem_filterMap_returned (l : List (ASTNode × State)) (k : Int) :
    k ∈ l.filterMap (fun p => some (returned p)) ↔ k ∈ l.map returned := by
  simp [List.mem_filterMap, List.mem_map]

/-- The invocations that return an id not returned before are the `NOT`, `AND` and `OR` nodes
and the `VAR` leaves whose name was not met before, and the ids they return are the values the
counter takes, in order.  `seenI` holds the ids below the counter at the start, `seenN` the
names registered at the start. -/
theorem Enc.new_returned {t : ASTNode} {st st' : State} {res : TseitinRes}
    (h : Enc t st res st') (hi : st.Inv) :
    ∀ (seenI : List Int) (seenN : List String),
      (∀ x, x ∈ seenI ↔ 1 ≤ x ∧ x < st.varCount) →
      (∀ n, n ∈ seenN ↔ n ∈ st.varMap.map Prod.fst) →
      keepNewBy (fun p => some (returned p)) seenI (calls t st) =
          keepNewBy (fun p => leafName p.1) seenN (calls t st) ∧
        (keepNewBy (fun p => some (returned p)) seenI (calls t st)).map returned =
          (allocs t st).map Prod.snd := by
  induction h with
  | @varOld value l r st v h =>
    intro seenI seenN hI hN
    have hret := returned_of_enc (@Enc.varOld value l r st v h)
    have hb := hi.bound _ _ h
    have h1 : keepNewBy (fun p => some (returned p)) seenI
        [(ASTNode.node NodeType.VAR value l r, st)] = [] :=
      keepNewBy_single_old _ _ _ v (by simp only [hret]) ((hI v).2 hb)
    have h2 : keepNewBy (fun p : ASTNode × State => leafName p.1) seenN
        [(ASTNode.node NodeType.VAR value l r, st)] = [] :=
      keepNewBy_single_old _ _ _ value rfl ((hN value).2 ((lookup_isSome_iff _ _).1 ⟨v, h⟩))
    simp only [calls, h1, h2, allocs, h, List.map_nil]
    exact ⟨trivial, trivial⟩
  | @varNew value l r st h =>
    intro seenI seenN hI hN
    have hret := returned_of_enc (@Enc.varNew value l r st h)
    have h1 : keepNewBy (fun p => some (returned p)) seenI
        [(ASTNode.node NodeType.VAR value l r, st)] =
        [(ASTNode.node NodeType.VAR value l r, st)] := by
      apply keepNewBy_single_new
      intro k hk hm
      simp only [hret, Option.some.injEq] at hk
      have := ((hI k).1 hm).2
      have hk' : st.varCount = k := hk
      omega
    have h2 : keepNewBy (fun p : ASTNode × State => leafName p.1) seenN
        [(ASTNode.node NodeType.VAR value l r, st)] =
        [(ASTNode.node NodeType.VAR value l r, st)] := by
      apply keepNewBy_single_new
      intro k hk hm
      simp only [leafName, Option.some.injEq] at hk
      subst hk
      exact (lookup_none_iff _ _).1 h ((hN _).1 hm)
    simp only [calls, h1, h2, allocs, h, List.map_cons, List.map_nil, hret]
    exact ⟨trivial, trivial⟩
  | @not value l r st st1 sub h ih =>
    intro seenI seenN hI hN
    obtain ⟨ih1, ih2⟩ := ih hi seenI seenN hI hN
    have hret := returned_of_enc (@Enc.not value l r st st1 sub h)
    have hfacts := h.calls_facts hi
    have hle := h.counter_le
    have hA := keepNewBy_append (fun p => some (returned p)) (calls l st)
      [(ASTNode.node NodeType.NOT value l r, st)] seenI
      (seenI ++ (calls l st).filterMap (fun p => some (returned p)))
      (fun k => List.mem_append)
    have hB := keepNewBy_append (fun p : ASTNode × State => leafName p.1) (calls l st)
      [(ASTNode.node NodeType.NOT value l r, st)] seenN
      (seenN ++ (calls l st).filterMap (fun p => leafName p.1))
      (fun k => List.mem_append)
    have h1 : keepNewBy (fun p => some (returned p))
        (seenI ++ (calls l st).filterMap (fun p => some (returned p)))
        [(ASTNode.node NodeType.NOT value l r, st)] =
        [(ASTNode.node NodeType.NOT value l r, st)] := by
      apply keepNewBy_single_new
      intro k hk hm
      simp only [hret, Option.some.injEq] at hk
      have hk' : st1.varCount = k := hk
      rcases List.mem_append.1 hm with hm | hm
      · have := ((hI k).1 hm).2; omega
      · rw [mem_filterMap_returned] at hm
        obtain ⟨p, hp, hpk⟩ := List.mem_map.1 hm
        have := (hfacts p hp).2.1
        omega
    have h2 : keepNewBy (fun p : ASTNode × State => leafName p.1)
        (seenN ++ (calls l st).filterMap (fun p => leafName p.1))
        [(ASTNode.node NodeType.NOT value l r, st)] =
        [(ASTNode.node NodeType.NOT value l r, st)] :=
      keepNewBy_single_new _ _ _ (fun k hk => by simp [leafName] at hk)
    have hc : calls (ASTNode.node NodeType.NOT value l r) st =
        calls l st ++ [(ASTNode.node NodeType.NOT value l r, st)] := by
      simp only [calls]
    have ha : allocs (ASTNode.node NodeType.NOT value l r) st =
        allocs l st ++ [(none, st1.varCount)] := by
      simp only [allocs, enc_encode h]
    constructor
    · rw [hc, hA, hB, h1, h2, ih1]
    · rw [hc, hA, h1, ha, List.map_append, List.map_append, ih2]
      simp only [List.map_cons, List.map_nil, hret]
  | @and value l r st st1 st2 leftRes rightRes hl hr ihl ihr =>
    intro seenI seenN hI hN
    obtain ⟨hi1, -, -, -, -, -⟩ := hl.facts hi
    have hret := returned_of_enc (@Enc.and value l r st st1 st2 leftRes rightRes hl hr)
    have hfl := hl.calls_facts hi
    have hfr := hr.calls_facts hi1
    have hle1 := hl.counter_le
    have hle2 := hr.counter_le
    have hI1 : ∀ x, x ∈ seenI ++ (calls l st).filterMap (fun p => some (returned p)) ↔
        1 ≤ x ∧ x < st1.varCount := by
      intro x
      rw [List.mem_append, mem_filterMap_returned, hI x]
      constructor
      · rintro (⟨h1, h2⟩ | hm)
        · exact ⟨h1, by omega⟩
        · obtain ⟨p, hp, hpk⟩ := List.mem_map.1 hm
          rw [← hpk]
          exact ⟨(hfl p hp).1, (hfl p hp).2.1⟩
      · rintro ⟨h1, h2⟩
        by_cases hx : x < st.varCount
        · exact Or.inl ⟨h1, hx⟩
        · exact Or.inr (hl.returned_cover x (by omega) h2)
    have hN1 : ∀ n, n ∈ seenN ++ (calls l st).filterMap (fun p => leafName p.1) ↔
        n ∈ st1.varMap.map Prod.fst := by
      intro n
      rw [List.mem_append, hl.calls_names, hN n]
      exact (hl.count.2 n).symm
    obtain ⟨ihl1, ihl2⟩ := ihl hi seenI seenN hI hN
    obtain ⟨ihr1, ihr2⟩ := ihr hi1 _ _ hI1 hN1
    have hA1 := keepNewBy_append (fun p => some (returned p)) (calls l st)
      (calls r st1 ++ [(ASTNode.node NodeType.AND value l r, st)]) seenI
      (seenI ++ (calls l st).filterMap (fun p => some (returned p)))
      (fun k => List.mem_append)
    have hA2 := keepNewBy_append (fun p => some (returned p)) (calls r st1)
      [(ASTNode.node NodeType.AND value l r, st)]
      (seenI ++ (calls l st).filterMap (fun p => some (returned p)))
      (seenI ++ (calls l st).filterMap (fun p => some (returned p)) ++
        (calls r st1).filterMap (fun p => some (returned p)))
      (fun k => List.mem_append)
    have hB1 := keepNewBy_append (fun p : ASTNode × State => leafName p.1) (calls l st)
      (calls r st1 ++ [(ASTNode.node NodeType.AND value l r, st)]) seenN
      (seenN ++ (calls l st).filterMap (fun p => leafName p.1))
      (fun k => List.mem_append)
    have hB2 := keepNewBy_append (fun p : ASTNode × State => leafName p.1) (calls r st1)
      [(ASTNode.node NodeType.AND value l r, st)]
      (seenN ++ (calls l st).filterMap (fun p => leafName p.1))
      (seenN ++ (calls l st).filterMap (fun p => leafName p.1) ++
        (calls r st1).filterMap (fun p => leafName p.1))
      (fun k => List.mem_append)
    have h1 : keepNewBy (fun p => some (returned p))
        (seenI ++ (calls l st).filterMap (fun p => some (returned p)) ++
          (calls r st1).filterMap (fun p => some (returned p)))
        [(ASTNode.node NodeType.AND value l r, st)] =
        [(ASTNode.node NodeType.AND value l r, st)] := by
      apply keepNewBy_single_new
      intro k hk hm
      simp only [hret, Option.some.injEq] at hk
      have hk' : st2.varCount = k := hk
      rcases List.mem_append.1 hm with hm | hm
      · have := ((hI1 k).1 hm).2; omega
      · rw [mem_filterMap_returned] at hm
        obtain ⟨p, hp, hpk⟩ := List.mem_map.1 hm
        have := (hfr p hp).2.1
        omega
    have h2 : keepNewBy (fun p : ASTNode × State => leafName p.1)
        (seenN ++ (calls l st).filterMap (fun p => leafName p.1) ++
          (calls r st1).filterMap (fun p => leafName p.1))
        [(ASTNode.node NodeType.AND value l r, st)] =
        [(ASTNode.node NodeType.AND value l r, st)] :=
      keepNewBy_single_new _ _ _ (fun k hk => by simp [leafName] at hk)
    have hc : calls (ASTNode.node NodeType.AND value l r) st =
        calls l st ++ (calls r st1 ++ [(ASTNode.node NodeType.AND value l r, st)]) := by
      simp only [calls, enc_encode hl, List.append_assoc]
    have ha : allocs (ASTNode.node NodeType.AND value l r) st =
        allocs l st ++ (allocs r st1 ++ [(none, st2.varCount)]) := by
      simp only [allocs, enc_encode hl, enc_encode hr]
    constructor
    · rw [hc, hA1, hA2, hB1, hB2, h1, h2, ihl1, ihr1]
    · rw [hc, hA1, hA2, h1, ha, List.map_append, List.map_append, List.map_append,
        List.map_append, ihl2, ihr2]
      simp only [List.map_cons, List.map_nil, hret]
  | @or value l r st st1 st2 leftRes rightRes hl hr ihl ihr =>
    intro seenI seenN hI hN
    obtain ⟨hi1, -, -, -, -, -⟩ := hl.facts hi
    have hret := returned_of_enc (@Enc.or value l r st st1 st2 leftRes rightRes hl hr)
    have hfl := hl.calls_facts hi
    have hfr := hr.calls_facts hi1
    have hle1 := hl.counter_le
    have hle2 := hr.counter_le
    have hI1 : ∀ x, x ∈ seenI ++ (calls l st).filterMap (fun p => some (returned p)) ↔
        1 ≤ x ∧ x < st1.varCount := by
      intro x
      rw [List.mem_append, mem_filterMap_returned, hI x]
      constructor
      · rintro (⟨h1, h2⟩ | hm)
        · exact ⟨h1, by omega⟩
        · obtain ⟨p, hp, hpk⟩ := List.mem_map.1 hm
          rw [← hpk]
          exact ⟨(hfl p hp).1, (hfl p hp).2.1⟩
      · rintro ⟨h1, h2⟩
        by_cases hx : x < st.varCount
        · exact Or.inl ⟨h1, hx⟩
        · exact Or.inr (hl.returned_cover x (by omega) h2)
    have hN1 : ∀ n, n ∈ seenN ++ (calls l st).filterMap (fun p => leafName p.1) ↔
        n ∈ st1.varMap.map Prod.fst := by
      intro n
      rw [List.mem_append, hl.calls_names, hN n]
      exact (hl.count.2 n).symm
    obtain ⟨ihl1, ihl2⟩ := ihl hi seenI seenN hI hN
    obtain ⟨ihr1, ihr2⟩ := ihr hi1 _ _ hI1 hN1
    have hA1 := keepNewBy_append (fun p => some (returned p)) (calls l st)
      (calls r st1 ++ [(ASTNode.node NodeType.OR value l r, st)]) seenI
      (seenI ++ (calls l st).filterMap (fun p => some (returned p)))
      (fun k => List.mem_append)
    have hA2 := keepNewBy_append (fun p => some (returned p)) (calls r st1)
      [(ASTNode.node NodeType.OR value l r, st)]
      (seenI ++ (calls l st).filterMap (fun p => some (returned p)))
      (seenI ++ (calls l st).filterMap (fun p => some (returned p)) ++
        (calls r st1).filterMap (fun p => some (returned p)))
      (fun k => List.mem_append)
    have hB1 := keepNewBy_append (fun p : ASTNode × State => leafName p.1) (calls l st)
      (calls r st1 ++ [(ASTNode.node NodeType.OR value l r, st)]) seenN
      (seenN ++ (calls l st).filterMap (fun p => leafName p.1))
      (fun k => List.mem_append)
    have hB2 := keepNewBy_append (fun p : ASTNode × State => leafName p.1) (calls r st1)
      [(ASTNode.node NodeType.OR value l r, st)]
      (seenN ++ (calls l st).filterMap (fun p => leafName p.1))
      (seenN ++ (calls l st).filterMap (fun p => leafName p.1) ++
        (calls r st1).filterMap (fun p => leafName p.1))
      (fun k => List.mem_append)
    have h1 : keepNewBy (fun p => some (returned p))
        (seenI ++ (calls l st).filterMap (fun p => some (returned p)) ++
          (calls r st1).filterMap (fun p => some (returned p)))
        [(ASTNode.node NodeType.OR value l r, st)] =
        [(ASTNode.node NodeType.OR value l r, st)] := by
      apply keepNewBy_single_new
      intro k hk hm
      simp only [hret, Option.some.injEq] at hk
      have hk' : st2.varCount = k := hk
      rcases List.mem_append.1 hm with hm | hm
      · have := ((hI1 k).1 hm).2; omega
      · rw [mem_filterMap_returned] at hm
        obtain ⟨p, hp, hpk⟩ := List.mem_map.1 hm
        have := (hfr p hp).2.1
        omega
    have h2 : keepNewBy (fun p : ASTNode × State => leafName p.1)
        (seenN ++ (calls l st).filterMap (fun p => leafName p.1) ++
          (calls r st1).filterMap (fun p => leafName p.1))
        [(ASTNode.node NodeType.OR value l r, st)] =
        [(ASTNode.node NodeType.OR value l r, st)] :=
      keepNewBy_single_new _ _ _ (fun k hk => by simp [leafName] at hk)
    have hc : calls (ASTNode.node NodeType.OR value l r) st =
        calls l st ++ (calls r st1 ++ [(ASTNode.node NodeType.OR value l r, st)]) := by
      simp only [calls, enc_encode hl, List.append_assoc]
    have ha : allocs (ASTNode.node NodeType.OR value l r) st =
        allocs l st ++ (allocs r st1 ++ [(none, st2.varCount)]) := by
      simp only [allocs, enc_encode hl, enc_encode hr]
    constructor
    · rw [hc, hA1, hA2, hB1, hB2, h1, h2, ihl1, ihr1]
    · rw [hc, hA1, hA2, h1, ha, List.map_append, List.map_append, List.map_append,
        List.map_append, ihl2, ihr2]
      simp only [List.map_cons, List.map_nil, hret]

/-- No id is handed out twice: two different invocations of a run return the same id only when
both are `VAR` leaves carrying the same name. -/
theorem Enc.ids_once {t : ASTNode} {st st' : State} {res : TseitinRes}
    (h : Enc t st res st') (hi : st.Inv) :
    List.Pairwise (fun p q : ASTNode × State => returned p = returned q →
      ∃ n, leafName p.1 = some n ∧ leafName q.1 = some n) (calls t st) := by
  induction h with
  | varOld h => simp only [calls]; exact List.pairwise_singleton _ _
  | varNew h => simp only [calls]; exact List.pairwise_singleton _ _
  | @not value l r st st1 sub h ih =>
    have hfacts := h.calls_facts hi
    simp only [calls]
    rw [List.pairwise_append]
    refine ⟨ih hi, List.pairwise_singleton _ _, ?_⟩
    intro p hp q hq heq
    rw [List.mem_singleton] at hq
    subst hq
    rw [returned_of_enc (@Enc.not value l r st st1 sub h)] at heq
    have := (hfacts p hp).2.1
    have heq' : returned p = st1.varCount := heq
    omega
  | @and value l r st st1 st2 leftRes rightRes hl hr ihl ihr =>
    obtain ⟨hi1, -, -, -, -, -⟩ := hl.facts hi
    have hfl := hl.calls_facts hi
    have hfr := hr.calls_facts hi1
    have hle2 := hr.counter_le
    simp only [calls, enc_encode hl]
    rw [List.pairwise_append, List.pairwise_append]
    refine ⟨⟨ihl hi, ihr hi1, ?_⟩, List.pairwise_singleton _ _, ?_⟩
    · intro p hp q hq heq
      obtain ⟨-, hp2, hp3, hp4⟩ := hfl p hp
      obtain ⟨-, -, hq3, hq4⟩ := hfr q hq
      cases hqn : leafName q.1 with
      | none => have := (hq4 hqn).1; omega
      | some n =>
        have hq5 := hq3 n hqn
        rcases hr.new_entries n _ hq5 with h5 | h5
        · cases hpn : leafName p.1 with
          | none => exact absurd heq.symm ((hp4 hpn).2 n _ h5)
          | some m =>
            have hp5 := hp3 m hpn
            rw [heq] at hp5
            have hmn := hi1.inj m n _ hp5 h5
            exact ⟨n, by rw [hmn], rfl⟩
        · omega
    · intro p hp q hq heq
      rw [List.mem_singleton] at hq
      subst hq
      rw [returned_of_enc (@Enc.and value l r st st1 st2 leftRes rightRes hl hr)] at heq
      have heq' : returned p = st2.varCount := heq
      rcases List.mem_append.1 hp with hp | hp
      · have := (hfl p hp).2.1; omega
      · have := (hfr p hp).2.1; omega
  | @or value l r st st1 st2 leftRes rightRes hl hr ihl ihr =>
    obtain ⟨hi1, -, -, -, -, -⟩ := hl.facts hi
    have hfl := hl.calls_facts hi
    have hfr := hr.calls_facts hi1
    have hle2 := hr.counter_le
    simp only [calls, enc_encode hl]
    rw [List.pairwise_append, List.pairwise_append]
    refine ⟨⟨ihl hi, ihr hi1, ?_⟩, List.pairwise_singleton _ _, ?_⟩
    · intro p hp q hq heq
      obtain ⟨-, hp2, hp3, hp4⟩ := hfl p hp
      obtain ⟨-, -, hq3, hq4⟩ := hfr q hq
      cases hqn : leafName q.1 with
      | none => have := (hq4 hqn).1; omega
      | some n =>
        have hq5 := hq3 n hqn
        rcases hr.new_entries n _ hq5 with h5 | h5
        · cases hpn : leafName p.1 with
          | none => exact absurd heq.symm ((hp4 hpn).2 n _ h5)
          | some m =>
            have hp5 := hp3 m hpn
            rw [heq] at hp5
            have hmn := hi1.inj m n _ hp5 h5
            exact ⟨n, by rw [hmn], rfl⟩
        · omega
    · intro p hp q hq heq
      rw [List.mem_singleton] at hq
      subst hq
      rw [returned_of_enc (@Enc.or value l r st st1 st2 leftRes rightRes hl hr)] at heq
      have heq' : returned p = st2.varCount := heq
      rcases List.mem_append.1 hp with hp | hp
      · have := (hfl p hp).2.1; omega
      · have := (hfr p hp).2.1; omega

/-- A `NOT` node, from any good state, on the ids `encode` returns: its id is greater than every
id returned inside its operand and than every other variable of its clauses. -/
theorem Enc.not_ids {v : String} {e r : ASTNode} {ss ss' : State} {rs : TseitinRes}
    (h : Enc (ASTNode.node NodeType.NOT v e r) ss rs ss') (hi : ss.Inv) :
    ∃ sub s1, encode e ss = Except.ok (sub, s1) ∧
      encode (ASTNode.node NodeType.NOT v e r) ss = Except.ok (rs, ss') ∧
      sub.var < rs.var ∧ (∀ q ∈ calls e ss, returned q < rs.var) ∧
      (∀ c ∈ sub.formula, ∀ l ∈ c, |l| < rs.var) ∧
      (∀ c ∈ rs.formula, ∀ l ∈ c, |l| ≠ rs.var → |l| < rs.var) := by
  obtain ⟨sub, s1, h1, h2, h3, -, h5, h6⟩ := h.not_order hi
  refine ⟨sub, s1, h1, h2, h3, ?_, h5, ?_⟩
  · cases h with
    | @not _ _ _ _ s1' sub' h' =>
      intro q hq
      exact (h'.calls_facts hi q hq).2.1
  · intro c hc l hl hne
    have := h6 c hc l hl
    omega

/-- An `AND` or `OR` node, from any good state, on the ids `encode` returns: the ids newly
taken inside the left operand are smaller than those newly taken inside the right operand, and
its own id is greater than every id returned below it and than every other variable of its
clauses. -/
theorem Enc.binary_ids {ty : NodeType} {v : String} {l r : ASTNode} {ss ss' : State}
    {rs : TseitinRes} (hty : ty = NodeType.AND ∨ ty = NodeType.OR)
    (h : Enc (ASTNode.node ty v l r) ss rs ss') (hi : ss.Inv) :
    ∃ leftRes s1 rightRes s2, encode l ss = Except.ok (leftRes, s1) ∧
      encode r s1 = Except.ok (rightRes, s2) ∧
      encode (ASTNode.node ty v l r) ss = Except.ok (rs, ss') ∧
      (∀ p ∈ calls l ss, ∀ q ∈ calls r s1, s1.varCount ≤ returned q →
        returned p < returned q) ∧
      (∀ p ∈ calls l ss, returned p < s1.varCount) ∧
      (∀ q ∈ calls l ss ++ calls r s1, returned q < rs.var) ∧
      leftRes.var < rs.var ∧ rightRes.var < rs.var ∧
      (∀ c ∈ leftRes.formula ++ rightRes.formula, ∀ l ∈ c, |l| < rs.var) ∧
      (∀ c ∈ rs.formula, ∀ l ∈ c, |l| ≠ rs.var → |l| < rs.var) := by
  obtain ⟨leftRes, s1, rightRes, s2, h1, h2, h3, -, -, h6, h7, h8, h9⟩ :=
    Enc.binary_order hty h hi
  have hl := encode_enc _ _ _ _ h1
  obtain ⟨hi1, -, -, -, -, -⟩ := hl.facts hi
  have hr := encode_enc _ _ _ _ h2
  have hfl := hl.calls_facts hi
  have hfr := hr.calls_facts hi1
  have hv : rs.var = s2.varCount := by
    rcases hty with rfl | rfl
    · have := enc_encode (@Enc.and v l r ss s1 s2 leftRes rightRes hl hr)
      rw [h3] at this
      cases this
      rfl
    · have := enc_encode (@Enc.or v l r ss s1 s2 leftRes rightRes hl hr)
      rw [h3] at this
      cases this
      rfl
  have hle2 := hr.counter_le
  refine ⟨leftRes, s1, rightRes, s2, h1, h2, h3, ?_, fun p hp => (hfl p hp).2.1, ?_, h6, h7,
    h8, ?_⟩
  · intro p hp q hq hnew
    have := (hfl p hp).2.1
    omega
  · intro q hq
    rcases List.mem_append.1 hq with hq | hq
    · have := (hfl q hq).2.1; omega
    · have := (hfr q hq).2.1; omega
  · intro c hc l' hl' hne
    have := h9 c hc l' hl'
    omega

/-- C16 fails as stated: the `NOT` node of `NOT A` gets id 2 and its own clauses `[-2, -1]`,
`[2, 1]` mention the variable 2, so its id is not strictly greater than every variable that
occurs in its subtree's clauses. -/
theorem node_id_in_own_clauses :
    encode (ASTNode.node NodeType.NOT "" (ASTNode.node NodeType.VAR "A" ASTNode.null
        ASTNode.null) ASTNode.null) State.fresh =
        Except.ok (⟨2, [[-2, -1], [2, 1]]⟩, ⟨3, [("A", 1)]⟩) ∧
      (ASTNode.node NodeType.NOT "" (ASTNode.node NodeType.VAR "A" ASTNode.null ASTNode.null)
        ASTNode.null, State.fresh) ∈
        calls (ASTNode.node NodeType.NOT "" (ASTNode.node NodeType.VAR "A" ASTNode.null
          ASTNode.null) ASTNode.null) State.fresh ∧
      ¬ ∀ c ∈ ([[-2, -1], [2, 1]] : Formula), ∀ l ∈ c, |l| < (2 : Int) := by
  refine ⟨rfl, by simp [calls], ?_⟩
  intro h
  have := h [2, 1] (by simp) 2 (by simp)
  simp at this

/-- C16 as amended: encoding a well-formed tree from the fresh state, the ids that the
invocations of `encode` return, taken in post-order (left operand, right operand, then the node)
and each at the first time it is returned, are 1, 2, 3, ... up to the final counter minus one;
the invocations that return a new id are the `NOT`, `AND` and `OR` nodes and the `VAR` leaves at
the first occurrence of their name, a later leaf of the same name returning the same id.  At
every `AND`/`OR` node the ids newly taken inside the left operand are smaller than those newly
taken inside the right operand, and the id of every `NOT`/`AND`/`OR` node is strictly greater
than the ids of its operands, than every id returned below it and than every other variable
occurring in its subtree's clauses. -/
theorem postorder_numbering (t : ASTNode) (hwf : wellFormed t = true) :
    ∃ res st', encode t State.fresh = Except.ok (res, st') ∧
      (keepNewBy (fun p => some (returned p)) [] (calls t State.fresh)).map returned =
        (List.range (keepNewBy (fun p => some (returned p)) [] (calls t State.fresh)).length).map
          (fun i : Nat => 1 + (i : Int)) ∧
      st'.varCount =
        1 + ((keepNewBy (fun p => some (returned p)) [] (calls t State.fresh)).length : Int) ∧
      keepNewBy (fun p => some (returned p)) [] (calls t State.fresh) =
        keepNewBy (fun p => leafName p.1) [] (calls t State.fresh) ∧
      (∀ p ∈ calls t State.fresh, ∀ q ∈ calls t State.fresh, ∀ n,
        leafName p.1 = some n → leafName q.1 = some n → returned p = returned q) ∧
      (allocs t State.fresh).map Prod.snd =
        (keepNewBy (fun p => some (returned p)) [] (calls t State.fresh)).map returned ∧
      (allocs t State.fresh).filterMap Prod.fst = firstOccurrences [] (names t) ∧
      (∀ (v : String) (e r : ASTNode) (ss : State),
        (ASTNode.node NodeType.NOT v e r, ss) ∈ calls t State.fresh →
        ∃ sub s1 rs ss', encode e ss = Except.ok (sub, s1) ∧
          encode (ASTNode.node NodeType.NOT v e r) ss = Except.ok (rs, ss') ∧
          sub.var < rs.var ∧ (∀ q ∈ calls e ss, returned q < rs.var) ∧
          (∀ c ∈ sub.formula, ∀ l ∈ c, |l| < rs.var) ∧
          (∀ c ∈ rs.formula, ∀ l ∈ c, |l| ≠ rs.var → |l| < rs.var)) ∧
      (∀ (ty : NodeType) (v : String) (l r : ASTNode) (ss : State),
        ty = NodeType.AND ∨ ty = NodeType.OR →
        (ASTNode.node ty v l r, ss) ∈ calls t State.fresh →
        ∃ leftRes s1 rightRes s2 rs ss', encode l ss = Except.ok (leftRes, s1) ∧
          encode r s1 = Except.ok (rightRes, s2) ∧
          encode (ASTNode.node ty v l r) ss = Except.ok (rs, ss') ∧
          (∀ p ∈ calls l ss, ∀ q ∈ calls r s1, s1.varCount ≤ returned q →
            returned p < returned q) ∧
          (∀ p ∈ calls l ss, returned p < s1.varCount) ∧
          (∀ q ∈ calls l ss ++ calls r s1, returned q < rs.var) ∧
          leftRes.var < rs.var ∧ rightRes.var < rs.var ∧
          (∀ c ∈ leftRes.formula ++ rightRes.formula, ∀ l ∈ c, |l| < rs.var) ∧
          (∀ c ∈ rs.formula, ∀ l ∈ c, |l| ≠ rs.var → |l| < rs.var)) := by
  obtain ⟨res, st', he⟩ := encode_total t State.fresh hwf
  have henc := encode_enc t _ _ _ he
  obtain ⟨hcons, hcount⟩ := henc.allocs_consec
  obtain ⟨hsame, hlink⟩ := henc.new_returned State.fresh_inv [] []
    (fun x => by
      constructor
      · intro hx; cases hx
      · rintro ⟨h1, h2⟩
        have h2' : x < 1 := h2
        omega)
    (fun n => by simp [State.fresh])
  have hfacts := henc.calls_facts State.fresh_inv
  have hlen : (keepNewBy (fun p => some (returned p)) [] (calls t State.fresh)).length =
      (allocs t State.fresh).length := by
    have := congrArg List.length hlink
    simpa using this
  refine ⟨res, st', he, ?_, ?_, hsame, ?_, hlink.symm, henc.allocs_names, ?_, ?_⟩
  · rw [hlink, hlen]
    have := consecutive_eq_range _ _ hcons
    rw [List.length_map] at this
    exact this
  · rw [hlen]; exact hcount
  · intro p hp q hq n hpn hqn
    have h1 := (hfacts p hp).2.2.1 n hpn
    have h2 := (hfacts q hq).2.2.1 n hqn
    rw [h1] at h2
    exact Option.some.inj h2
  · intro v e r ss hmem
    obtain ⟨rs, ss', h1, h2, -, -⟩ := henc.calls_sub State.fresh_inv _ hmem
    obtain ⟨sub, s1, h3⟩ := Enc.not_ids h1 h2
    exact ⟨sub, s1, rs, ss', h3⟩
  · intro ty v l r ss hty hmem
    obtain ⟨rs, ss', h1, h2, -, -⟩ := henc.calls_sub State.fresh_inv _ hmem
    obtain ⟨leftRes, s1, rightRes, s2, h3⟩ := Enc.binary_ids hty h1 h2
    exact ⟨leftRes, s1, rightRes, s2, rs, ss', h3⟩

theorem postorder_numbering_witness :
    wellFormed (ASTNode.node NodeType.AND ""
        (ASTNode.node NodeType.NOT "" (ASTNode.node NodeType.VAR "A" ASTNode.null ASTNode.null)
          ASTNode.null)
        (ASTNode.node NodeType.VAR "A" ASTNode.null ASTNode.null)) = true ∧
      (calls (ASTNode.node NodeType.AND ""
        (ASTNode.node NodeType.NOT "" (ASTNode.node NodeType.VAR "A" ASTNode.null ASTNode.null)
          ASTNode.null)
        (ASTNode.node NodeType.VAR "A" ASTNode.null ASTNode.null)) State.fresh).map returned =
        [1, 2, 1, 3] ∧
      ∃ res st', encode (ASTNode.node NodeType.AND ""
        (ASTNode.node NodeType.NOT "" (ASTNode.node NodeType.VAR "A" ASTNode.null ASTNode.null)
          ASTNode.null)
        (ASTNode.node NodeType.VAR "A" ASTNode.null ASTNode.null)) State.fresh =
          Except.ok (res, st') ∧
        (keepNewBy (fun p => some (returned p)) [] (calls (ASTNode.node NodeType.AND ""
          (ASTNode.node NodeType.NOT "" (ASTNode.node NodeType.VAR "A" ASTNode.null
            ASTNode.null) ASTNode.null)
          (ASTNode.node NodeType.VAR "A" ASTNode.null ASTNode.null)) State.fresh)).map
            returned =
          (List.range (keepNewBy (fun p => some (returned p)) [] (calls (ASTNode.node
            NodeType.AND "" (ASTNode.node NodeType.NOT "" (ASTNode.node NodeType.VAR "A"
            ASTNode.null ASTNode.null) ASTNode.null) (ASTNode.node NodeType.VAR "A"
            ASTNode.null ASTNode.null)) State.fresh)).length).map
              (fun i : Nat => 1 + (i : Int)) :=
  ⟨rfl, rfl,
    (postorder_numbering (ASTNode.node NodeType.AND ""
        (ASTNode.node NodeType.NOT "" (ASTNode.node NodeType.VAR "A" ASTNode.null ASTNode.null)
          ASTNode.null)
        (ASTNode.node NodeType.VAR "A" ASTNode.null ASTNode.null)) rfl).imp
      (fun _ h => h.imp (fun _ h' => ⟨h'.1, h'.2.1⟩))⟩

/-- C17: encoding a well-formed tree from the fresh state, every id that `encode` returns, at a
leaf or at a `NOT`/`AND`/`OR` node, is strictly positive, and so is every value taken from the
counter; no id is handed out twice: two different invocations return the same id only when both
are `VAR` leaves of the same name, so the `NOT`/`AND`/`OR` nodes, one entry per node, receive
pairwise different auxiliary ids, none of which is the id of a `VAR` leaf; and the counter does
not decrease: it grows by exactly the number of different ids returned. -/
theorem fresh_ids_once (t : ASTNode) (hwf : wellFormed t = true) :
    ∃ res st', encode t State.fresh = Except.ok (res, st') ∧
      (∀ x ∈ allocs t State.fresh, 1 ≤ x.2) ∧
      ((allocs t State.fresh).map Prod.snd).Nodup ∧
      (auxIds t State.fresh).length = countNot t + countAnd t + countOr t ∧
      (auxIds t State.fresh).Nodup ∧
      (∀ a ∈ auxIds t State.fresh, ∀ p ∈ leafIds t State.fresh, a ≠ p.2) ∧
      State.fresh.varCount ≤ st'.varCount ∧
      st'.varCount = State.fresh.varCount + ((allocs t State.fresh).length : Int) ∧
      (∀ p ∈ calls t State.fresh, 1 ≤ returned p) ∧
      (∀ a ∈ auxIds t State.fresh, 1 ≤ a) ∧
      (∀ p ∈ leafIds t State.fresh, 1 ≤ p.2) ∧
      List.Pairwise (fun p q : ASTNode × State => returned p = returned q →
        ∃ n, leafName p.1 = some n ∧ leafName q.1 = some n) (calls t State.fresh) ∧
      (allocs t State.fresh).map Prod.snd =
        (keepNewBy (fun p => some (returned p)) [] (calls t State.fresh)).map returned ∧
      st'.varCount = State.fresh.varCount +
        ((keepNewBy (fun p => some (returned p)) [] (calls t State.fresh)).length : Int) := by
  obtain ⟨res, st', he⟩ := encode_total t State.fresh hwf
  have henc := encode_enc t _ _ _ he
  obtain ⟨hi', -, -, -, -, -⟩ := henc.facts State.fresh_inv
  obtain ⟨hcons, hcount⟩ := henc.allocs_consec
  obtain ⟨hp, hb, hlen⟩ := henc.aux State.fresh_inv
  obtain ⟨-, hlink⟩ := henc.new_returned State.fresh_inv [] []
    (fun x => by
      constructor
      · intro hx; cases hx
      · rintro ⟨h1, h2⟩
        have h2' : x < 1 := h2
        omega)
    (fun n => by simp [State.fresh])
  have hfacts := henc.calls_facts State.fresh_inv
  have hlen2 : (keepNewBy (fun p => some (returned p)) [] (calls t State.fresh)).length =
      (allocs t State.fresh).length := by
    have := congrArg List.length hlink
    simpa using this
  refine ⟨res, st', he, ?_, ?_, hlen, ?_, ?_, henc.counter_le, hcount, ?_, ?_, ?_,
    henc.ids_once State.fresh_inv, hlink.symm, ?_⟩
  · intro x hx
    exact (henc.allocs_bounds x hx).1
  · exact (consecutive_pairwise _ _ hcons).imp (fun h => ne_of_lt h)
  · exact hp.imp (fun h => ne_of_lt h)
  · intro a ha p hp' heq
    have h1 := henc.leafIds_lookup State.fresh_inv p hp'
    exact (hb a ha).2.2 p.1 p.2 h1 heq.symm
  · intro p hp'
    exact (hfacts p hp').1
  · intro a ha
    exact (hb a ha).1
  · intro p hp'
    exact (hi'.bound p.1 p.2 (henc.leafIds_lookup State.fresh_inv p hp')).1
  · rw [hlen2]; exact hcount

theorem fresh_ids_once_witness :
    wellFormed (ASTNode.node NodeType.OR ""
        (ASTNode.node NodeType.NOT "" (ASTNode.node NodeType.VAR "A" ASTNode.null ASTNode.null)
          ASTNode.null)
        (ASTNode.node NodeType.NOT "" (ASTNode.node NodeType.VAR "A" ASTNode.null ASTNode.null)
          ASTNode.null)) = true ∧
      auxIds (ASTNode.node NodeType.OR ""
        (ASTNode.node NodeType.NOT "" (ASTNode.node NodeType.VAR "A" ASTNode.null ASTNode.null)
          ASTNode.null)
        (ASTNode.node NodeType.NOT "" (ASTNode.node NodeType.VAR "A" ASTNode.null ASTNode.null)
          ASTNode.null)) State.fresh = [2, 3, 4] ∧
      (calls (ASTNode.node NodeType.OR ""
        (ASTNode.node NodeType.NOT "" (ASTNode.node NodeType.VAR "A" ASTNode.null ASTNode.null)
          ASTNode.null)
        (ASTNode.node NodeType.NOT "" (ASTNode.node NodeType.VAR "A" ASTNode.null ASTNode.null)
          ASTNode.null)) State.fresh).map returned = [1, 2, 1, 3, 4] ∧
      ∃ res st', encode (ASTNode.node NodeType.OR ""
        (ASTNode.node NodeType.NOT "" (ASTNode.node NodeType.VAR "A" ASTNode.null ASTNode.null)
          ASTNode.null)
        (ASTNode.node NodeType.NOT "" (ASTNode.node NodeType.VAR "A" ASTNode.null ASTNode.null)
          ASTNode.null)) State.fresh = Except.ok (res, st') ∧
        State.fresh.varCount ≤ st'.varCount :=
  ⟨rfl, rfl, rfl,
    (fresh_ids_once (ASTNode.node NodeType.OR ""
        (ASTNode.node NodeType.NOT "" (ASTNode.node NodeType.VAR "A" ASTNode.null ASTNode.null)
          ASTNode.null)
        (ASTNode.node NodeType.NOT "" (ASTNode.node NodeType.VAR "A" ASTNode.null ASTNode.null)
          ASTNode.null)) rfl).imp
      (fun _ h => h.imp (fun _ h' => ⟨h'.1, h'.2.2.2.2.2.2.1⟩))⟩

end Tseitin
